import Mathlib

/-!
# Heap allocators: implicit free list and explicit free list

A shallow embedding of `implicit.c` and `explicit.c`.

* Memory is a total map from byte addresses to bytes.  A `size_t` or a
  pointer is read and written as eight little-endian bytes.  The map covers
  the heap segment and whatever surrounds it: the C code never compares a
  pointer with `segment_end` before it dereferences it, so what it reads
  beyond the segment is whatever the surrounding memory holds.
* `size_t` arithmetic is arithmetic modulo `2 ^ 64`.
* Pointers are addresses, `NULL` is `0`.
* The file-scope variables of each translation unit are the fields of a
  `State` record, next to the memory.
* Loops of the C code that need not terminate take a fuel argument and
  return `none` when it runs out.
-/

namespace Heap

/-- Number of values of a `size_t`. -/
def WORD : Nat := 2 ^ 64

/-- The macro `ALIGNMENT`. -/
def ALIGNMENT : Nat := 8

/-- The macro `MAX_REQUEST_SIZE`, `1 << 30`; no function of either file uses it. -/
def MAX_REQUEST_SIZE : Nat := 2 ^ 30

/-- The macro `LEAST_3_SIGBITS`, `~0x7`, as a `size_t`. -/
def LEAST_3_SIGBITS : Nat := WORD - 1 - 7

/-- Bitwise complement of a `size_t`. -/
def complW (x : Nat) : Nat := WORD - 1 - x % WORD

/-- Addition of `size_t` values. -/
def addW (a b : Nat) : Nat := (a + b) % WORD

/-- Subtraction of `size_t` values. -/
def subW (a b : Nat) : Nat := (a % WORD + (WORD - b % WORD)) % WORD

/-- Byte-addressed memory. -/
abbrev Mem := Nat → Nat

/-- Little-endian value of the `n` bytes at `a`. -/
def loadBytes (m : Mem) (a : Nat) : Nat → Nat
  | 0 => 0
  | n + 1 => m a % 256 + 256 * loadBytes m (a + 1) n

/-- Read of a `size_t` or pointer at address `a`. -/
def load64 (m : Mem) (a : Nat) : Nat := loadBytes m a 8

/-- Write of a `size_t` or pointer `v` at address `a`. -/
def store64 (m : Mem) (a v : Nat) : Mem :=
  fun x => if a ≤ x ∧ x < a + 8 then v / 256 ^ (x - a) % 256 else m x

/-- The library call `memcpy(dst, src, n)`. -/
def memcpy (m : Mem) (dst src n : Nat) : Mem :=
  fun x => if dst ≤ x ∧ x < dst + n then m (src + (x - dst)) else m x

/-- From `statusAllocated`: `*hdr |= 1`. -/
def statusAllocated (m : Mem) (hdr : Nat) : Mem :=
  store64 m hdr (load64 m hdr ||| 1)

/-- From `statusFree`: `*hdr &= ~1`. -/
def statusFree (m : Mem) (hdr : Nat) : Mem :=
  store64 m hdr (load64 m hdr &&& complW 1)

/-- From `getSize`: `*hdr & LEAST_3_SIGBITS`. -/
def getSize (m : Mem) (hdr : Nat) : Nat :=
  load64 m hdr &&& LEAST_3_SIGBITS

/-- From `accessPayload`: `(char*) hdr + ALIGNMENT`. -/
def accessPayload (hdr : Nat) : Nat := hdr + ALIGNMENT

/-- From `accessHeader`: `(char*) payload - ALIGNMENT` (addresses below 8 have no
header address; the subtraction stops at 0 there). -/
def accessHeader (payload : Nat) : Nat := payload - ALIGNMENT

/-- From `isAllocated`: `(*hdr & 1) == 1`. -/
def isAllocated (m : Mem) (hdr : Nat) : Bool :=
  (load64 m hdr &&& 1) == 1

/-- From `nextBlock`: the address `getSize(hdr)` bytes past the payload of `hdr`. -/
def nextBlock (m : Mem) (hdr : Nat) : Nat :=
  accessPayload hdr + getSize m hdr

/-- The traversal shared by `validate_heap` and `dump_heap`,
`while (ptr != segment_end) ptr = nextBlock(ptr)`: the addresses of the headers it
visits, or `none` when it has not reached `segment_end` after `fuel` blocks. -/
def blockWalk (m : Mem) (segment_end : Nat) : Nat → Nat → Option (List Nat)
  | 0, _ => none
  | fuel + 1, ptr =>
    if ptr = segment_end then some []
    else (blockWalk m segment_end fuel (nextBlock m ptr)).map (fun t => ptr :: t)

end Heap

namespace Implicit
open Heap

/-- The file-scope variables of `implicit.c` and the memory. -/
structure State where
  mem : Mem
  segment_start : Nat
  segment_size : Nat
  segment_end : Nat
  nused : Nat
  start_hdr : Nat

/-- From `roundup` of `implicit.c`: `(sz + mult - 1) & ~(mult - 1)`. -/
def roundup (sz mult : Nat) : Nat :=
  subW (addW sz mult) 1 &&& complW (subW mult 1)

/-- From `myinit` of `implicit.c`. -/
def myinit (s : State) (heap_start heap_size : Nat) : State × Bool :=
  if heap_size < ALIGNMENT then (s, false)
  else
    ({ mem := store64 s.mem heap_start (subW heap_size ALIGNMENT)
       segment_start := heap_start
       segment_size := heap_size
       segment_end := heap_start + heap_size
       nused := addW 0 ALIGNMENT
       start_hdr := heap_start }, true)

/-- The scan of `mymalloc`, `while (isAllocated(ptr) || actual_size > *ptr) ptr = nextBlock(ptr)`:
the header at which the loop exits. -/
def scan (m : Mem) (actual_size : Nat) : Nat → Nat → Option Nat
  | 0, _ => none
  | fuel + 1, ptr =>
    if isAllocated m ptr || decide (actual_size > load64 m ptr) then
      scan m actual_size fuel (nextBlock m ptr)
    else some ptr

/-- From `mymalloc` of `implicit.c`: the state after the call and the pointer returned. -/
def mymalloc (fuel : Nat) (s : State) (requested_size : Nat) : Option (State × Nat) :=
  let actual_size := roundup requested_size ALIGNMENT
  match scan s.mem actual_size fuel s.start_hdr with
  | none => none
  | some ptr =>
    if getSize s.mem ptr = actual_size then
      let m1 := statusAllocated s.mem ptr
      let load := accessPayload ptr
      some ({ s with mem := m1, nused := addW s.nused actual_size }, load)
    else if getSize s.mem ptr ≥ addW actual_size ALIGNMENT then
      let og_size := getSize s.mem ptr
      let m1 := store64 s.mem ptr actual_size
      let m2 := statusAllocated m1 ptr
      let split := nextBlock m2 ptr
      let m3 := store64 m2 split (subW (subW og_size actual_size) ALIGNMENT)
      let m4 := statusFree m3 split
      let load := accessPayload ptr
      some ({ s with mem := m4, nused := addW s.nused (addW actual_size ALIGNMENT) }, load)
    else some (s, 0)

/-- From `myfree` of `implicit.c`. -/
def myfree (s : State) (ptr : Nat) : State :=
  if ptr = 0 then s
  else
    let hdr := accessHeader ptr
    { s with nused := subW s.nused (getSize s.mem hdr), mem := statusFree s.mem hdr }

/-- From `myrealloc` of `implicit.c`. -/
def myrealloc (fuel : Nat) (s : State) (old_ptr new_size : Nat) : Option (State × Nat) :=
  if old_ptr = 0 then mymalloc fuel s new_size
  else
    let old_size := getSize s.mem (accessHeader old_ptr)
    if new_size ≤ old_size then some (s, old_ptr)
    else
      match mymalloc fuel s new_size with
      | none => none
      | some (s1, result) =>
        let s2 := { s1 with mem := memcpy s1.mem result old_ptr old_size }
        some (myfree s2 old_ptr, result)

/-- The loop of `validate_heap` of `implicit.c`: the value of `check_nused` when `ptr`
reaches `segment_end`. -/
def checkLoop (m : Mem) (segment_end : Nat) : Nat → Nat → Nat → Option Nat
  | 0, _, _ => none
  | fuel + 1, ptr, check_nused =>
    if ptr = segment_end then some check_nused
    else if !isAllocated m ptr then
      checkLoop m segment_end fuel (nextBlock m ptr) (addW check_nused ALIGNMENT)
    else
      checkLoop m segment_end fuel (nextBlock m ptr)
        (addW check_nused (addW (getSize m ptr) ALIGNMENT))

/-- From `validate_heap` of `implicit.c` (diagnostic output left out). -/
def validate_heap (fuel : Nat) (s : State) : Option Bool :=
  if s.nused > s.segment_size then some false
  else
    match checkLoop s.mem s.segment_end fuel s.segment_start 0 with
    | none => none
    | some check_nused => if check_nused ≠ s.nused then some false else some true

end Implicit

namespace Explicit
open Heap

/-- The macro `MIN_REQUEST_SIZE` of `explicit.c`. -/
def MIN_REQUEST_SIZE : Nat := 24

/-- The file-scope variables of `explicit.c` and the memory.  A `link` is two
pointers: `next` at offset 0 and `previous` at offset 8.  The counter
`blocks_allocated` is an `int`; it is kept as an integer without a bound. -/
structure State where
  mem : Mem
  segment_start : Nat
  segment_size : Nat
  segment_end : Nat
  start_hdr : Nat
  linked_start : Nat
  blocks_allocated : Int

/-- From `roundup` of `explicit.c`. -/
def roundup (sz mult : Nat) : Nat :=
  if MIN_REQUEST_SIZE > sz then MIN_REQUEST_SIZE
  else subW (addW sz mult) 1 &&& complW (subW mult 1)

/-- From `myinit` of `explicit.c`. -/
def myinit (s : State) (heap_start heap_size : Nat) : State × Bool :=
  if heap_size ≥ ALIGNMENT then
    ({ mem := store64 s.mem heap_start (subW heap_size ALIGNMENT)
       segment_start := heap_start
       segment_size := heap_size
       segment_end := heap_start + heap_size
       start_hdr := heap_start
       linked_start := heap_start + ALIGNMENT
       blocks_allocated := 0 }, true)
  else (s, false)

/-- From `linkFree`. -/
def linkFree (s : State) (block : Nat) : State :=
  if s.linked_start ≠ 0 then
    let m1 := store64 s.mem block s.linked_start
    let m2 := store64 m1 (block + 8) 0
    let m3 := store64 m2 (s.linked_start + 8) block
    { s with mem := m3, linked_start := block }
  else
    let m1 := store64 s.mem block 0
    let m2 := store64 m1 (block + 8) 0
    { s with mem := m2, linked_start := block }

/-- From `unlinkFree`. -/
def unlinkFree (s : State) (block : Nat) : State :=
  let before_block := load64 s.mem (block + 8)
  let after_block := load64 s.mem block
  if before_block ≠ 0 ∧ after_block ≠ 0 then
    let m1 := store64 s.mem before_block after_block
    let m2 := store64 m1 (after_block + 8) before_block
    { s with mem := m2 }
  else if before_block = 0 ∧ after_block ≠ 0 then
    let m1 := store64 s.mem (after_block + 8) 0
    { s with mem := m1, linked_start := after_block }
  else if before_block ≠ 0 ∧ after_block = 0 then
    { s with mem := store64 s.mem before_block 0 }
  else { s with linked_start := 0 }

/-- From `coalesce`. -/
def coalesce (s : State) (payload : Nat) : State × Bool :=
  let curr := accessHeader payload
  let neighbor := nextBlock s.mem curr
  if !isAllocated s.mem neighbor then
    let neighbor_size := getSize s.mem neighbor
    let m1 := store64 s.mem curr (addW (load64 s.mem curr) (addW neighbor_size ALIGNMENT))
    (unlinkFree { s with mem := m1 } (accessPayload neighbor), true)
  else (s, false)

/-- From `splitting`. -/
def splitting (s : State) (hdr actual_size og_size list : Nat) : State × Nat :=
  let m1 := store64 s.mem hdr actual_size
  let split := nextBlock m1 hdr
  let s1 := { s with mem := m1, blocks_allocated := s.blocks_allocated + 1 }
  let s2 := { s1 with mem := store64 s1.mem split (subW (subW og_size actual_size) ALIGNMENT) }
  let neighbor := accessPayload split
  let s3 := linkFree s2 neighbor
  let s4 := unlinkFree s3 list
  ({ s4 with mem := statusAllocated s4.mem hdr }, list)

/-- The loop of `mymalloc` of `explicit.c`, entered with the cursor `list`. -/
def mallocLoop (actual_size : Nat) : Nat → State → Nat → Option (State × Nat)
  | 0, _, _ => none
  | fuel + 1, s, list =>
    if list ≠ 0 then
      let hdr := accessHeader list
      let og_size := getSize s.mem hdr
      if og_size < actual_size then mallocLoop actual_size fuel s (load64 s.mem list)
      else if og_size ≥ addW actual_size MIN_REQUEST_SIZE then
        some (splitting s hdr actual_size og_size list)
      else
        let s1 := unlinkFree s list
        let s2 := { s1 with mem := statusAllocated s1.mem hdr }
        some ({ s2 with blocks_allocated := s2.blocks_allocated + 1 }, list)
    else some (s, 0)

/-- From `mymalloc` of `explicit.c`: the state after the call and the pointer returned. -/
def mymalloc (fuel : Nat) (s : State) (requested_size : Nat) : Option (State × Nat) :=
  mallocLoop (roundup requested_size ALIGNMENT) fuel s s.linked_start

/-- From `myfree` of `explicit.c`. -/
def myfree (s : State) (ptr : Nat) : State :=
  if ptr ≠ 0 then
    let hdr := accessHeader ptr
    let s1 := linkFree s ptr
    let s2 := (coalesce s1 ptr).1
    let s3 := { s2 with mem := statusFree s2.mem hdr }
    { s3 with blocks_allocated := s3.blocks_allocated - 1 }
  else s

/-- From `myrealloc` of `explicit.c`. -/
def myrealloc (fuel : Nat) (s : State) (old_ptr new_size : Nat) : Option (State × Nat) :=
  let new_size := roundup new_size ALIGNMENT
  if old_ptr = 0 then mymalloc fuel s new_size
  else
    let old_size := getSize s.mem (accessHeader old_ptr)
    if new_size ≤ old_size then some (s, old_ptr)
    else
      match mymalloc fuel s new_size with
      | none => none
      | some (s1, result) =>
        let s2 := { s1 with mem := memcpy s1.mem result old_ptr old_size }
        some (myfree s2 old_ptr, result)

/-- From `linkedListWrong`. -/
def linkedListWrong (m : Mem) (curr : Nat) : Bool :=
  let curr_hdr := accessHeader curr
  let previous := load64 m (curr + 8)
  let next := load64 m curr
  if (previous ≠ 0 ∧ load64 m previous ≠ curr) ∨ (next ≠ 0 ∧ load64 m (next + 8) ≠ curr) then true
  else if isAllocated m curr_hdr then true
  else false

/-- The first loop of `validate_heap` of `explicit.c`: the value of `check_allocated`
when `ptr` reaches `segment_end`. -/
def countLoop (m : Mem) (segment_end : Nat) : Nat → Nat → Int → Option Int
  | 0, _, _ => none
  | fuel + 1, ptr, check_allocated =>
    if ptr = segment_end then some check_allocated
    else
      countLoop m segment_end fuel (nextBlock m ptr)
        (if isAllocated m ptr then check_allocated + 1 else check_allocated)

/-- The second loop of `validate_heap` of `explicit.c`: the value of `result` when
`curr` reaches `NULL`. -/
def listLoop (m : Mem) : Nat → Nat → Bool → Option Bool
  | 0, _, _ => none
  | fuel + 1, curr, result =>
    if curr ≠ 0 then
      listLoop m fuel (load64 m curr) (if linkedListWrong m curr then false else result)
    else some result

/-- From `validate_heap` of `explicit.c` (diagnostic output left out). -/
def validate_heap (fuel : Nat) (s : State) : Option Bool :=
  match countLoop s.mem s.segment_end fuel s.segment_start 0 with
  | none => none
  | some check_allocated =>
    let result := if check_allocated ≠ s.blocks_allocated then false else true
    let curr := s.linked_start
    let result := if curr = 0 then false else result
    listLoop s.mem fuel curr result

end Explicit

namespace Explicit
open Heap

/-- `FreeList m p l`: following the `next` pointers from `p` visits exactly the
nodes `l`, in this order, and then reaches `NULL`. -/
def FreeList (m : Mem) : Nat → List Nat → Prop
  | p, [] => p = 0
  | p, c :: t => p = c ∧ c ≠ 0 ∧ FreeList m (load64 m c) t

end Explicit

namespace Heap

/-- Memory that holds zero in every byte. -/
def zeroMem : Mem := fun _ => 0

end Heap

namespace Implicit
open Heap

/-- The implicit allocator before its first `myinit`, in zeroed memory. -/
def boot : State := ⟨zeroMem, 0, 0, 0, 0, 0⟩

/-- The state after `myinit(4096, 1024)` in zeroed memory. -/
def fresh : State := (myinit boot 4096 1024).1

end Implicit

namespace Explicit
open Heap

/-- The explicit allocator before its first `myinit`, in zeroed memory. -/
def boot : State := ⟨zeroMem, 0, 0, 0, 0, 0, 0⟩

/-- The state after `myinit(4096, 1024)` in zeroed memory. -/
def fresh : State := (myinit boot 4096 1024).1

end Explicit

namespace Implicit
open Heap

/-- The implicit allocator before its first `myinit`, in memory that is zero except
for the word 4096 stored at address 5120, right behind the segment `[4096, 5120)`. -/
def bootBehind : State := ⟨store64 zeroMem 5120 4096, 0, 0, 0, 0, 0⟩

end Implicit

namespace Explicit
open Heap

/-- The explicit allocator before its first `myinit`, in memory that is zero except
for the two words behind the segment `[4096, 8192)`: 8256 at 8200 and 4104 at 8208
(the word at 8192 is zero). -/
def bootBehind : State := ⟨store64 (store64 zeroMem 8200 8256) 8208 4104, 0, 0, 0, 0, 0, 0⟩

/-- The caller writes the 32 bytes `0x00 .. 0x1f` at `p`. -/
def fill32 (s : State) (p : Nat) : State :=
  { s with mem :=
      store64 (store64 (store64 (store64 s.mem p 0x0706050403020100)
        (p + 8) 0x0f0e0d0c0b0a0908) (p + 16) 0x1716151413121110) (p + 24) 0x1f1e1d1c1b1a1918 }

end Explicit

namespace Heap

/-- Payload size encoded in the header word `h`: `h` with its low three bits cleared. -/
def hdrSize (h : Nat) : Nat := h - h % 8

/-- `Blocks m e a bs`: starting at address `a`, the block headers up to address `e` are
exactly `bs`, each given as (address, header word), every one followed by the next at
distance `8 + hdrSize`. -/
def Blocks (m : Mem) (e : Nat) : Nat → List (Nat × Nat) → Prop
  | a, [] => a = e
  | a, b :: t => b.1 = a ∧ load64 m a = b.2 ∧ Blocks m e (a + 8 + hdrSize b.2) t

/-- Bytes spanned by the blocks `bs`: header and payload of each. -/
def total : List (Nat × Nat) → Nat
  | [] => 0
  | b :: t => 8 + hdrSize b.2 + total t

/-- Used bytes of the blocks `bs`: 8 for every header plus the payload of every block
whose status bit is set. -/
def usage : List (Nat × Nat) → Nat
  | [] => 0
  | b :: t => 8 + (if b.2 % 2 = 1 then hdrSize b.2 else 0) + usage t

/-- The measure of the spec for the headers at the addresses `l`: 8 times the number
of blocks plus the sizes of the allocated ones. -/
def measured (m : Mem) (l : List Nat) : Nat :=
  8 * l.length + ((l.filter (fun a => isAllocated m a)).map (fun a => getSize m a)).sum

end Heap

namespace Implicit
open Heap

/-- `p` is a currently allocated payload: its header is met by the block walk and has
its status bit set. -/
def Allocated (s : State) (p : Nat) : Prop :=
  ∃ fuel l, blockWalk s.mem s.segment_end fuel s.segment_start = some l ∧
    accessHeader p ∈ l ∧ p = accessPayload (accessHeader p) ∧
    isAllocated s.mem (accessHeader p) = true

/-- The states reached from a successful `myinit(base, N)` by calls that respect the
caller contract and succeed: `mymalloc` and `myrealloc` return a payload whose header
lies inside the segment, `myfree` and `myrealloc` are given `NULL` or a currently
allocated payload, sizes are `size_t` values and `new_size + 7` does not wrap. -/
inductive Reach (base N : Nat) : State → Prop
  | init (s0 : State) : Reach base N (myinit s0 base N).1
  | malloc (s s1 : State) (fuel req p : Nat) :
      Reach base N s → req < WORD → mymalloc fuel s req = some (s1, p) →
      accessHeader p < s.segment_end → Reach base N s1
  | free (s : State) (p : Nat) :
      Reach base N s → (p = 0 ∨ Allocated s p) → Reach base N (myfree s p)
  | realloc (s s1 : State) (fuel p n q : Nat) :
      Reach base N s → (p = 0 ∨ Allocated s p) → n + 7 < WORD →
      myrealloc fuel s p n = some (s1, q) → accessHeader q < s.segment_end →
      Reach base N s1

end Implicit

namespace Implicit
open Heap

/-- The invariant of the implicit heap on the region `[base, base + N)`: the variables
describe the region, the memory holds a run of blocks from `base` to `base + N`, and
`nused` is their `usage`. -/
def Inv (base N : Nat) (s : State) : Prop :=
  s.segment_start = base ∧ s.start_hdr = base ∧ s.segment_end = base + N ∧
    s.segment_size = N ∧ ∃ bs, Blocks s.mem (base + N) base bs ∧ s.nused = usage bs

end Implicit

namespace Implicit
open Heap

/-- The state after `myinit(4096, 1024)` and `mymalloc(64)` in zeroed memory. -/
def used64 : State := ((mymalloc 4 fresh 64).getD (fresh, 0)).1

end Implicit

namespace Explicit
open Heap

/-- The explicit allocator before `myinit`, on a region whose previous user left the
word 4201 at address 4104 and the word 4096 at address 4193 (zero elsewhere). -/
def bootDirty : State := ⟨store64 (store64 zeroMem 4104 4201) 4193 4096, 0, 0, 0, 0, 0, 0⟩

end Explicit

namespace Explicit
open Heap

/-- `DList m prev p l`: following the `next` pointers from `p` visits exactly the
nodes `l` and then `NULL`, and the `previous` pointer of every node is the node
before it (`prev` for the first one). -/
def DList (m : Mem) : Nat → Nat → List Nat → Prop
  | _, p, [] => p = 0
  | prev, p, c :: t => p = c ∧ c ≠ 0 ∧ load64 m (c + 8) = prev ∧ DList m c (load64 m c) t

/-- The two link words of any two nodes of `l` do not overlap. -/
def Sep (l : List Nat) : Prop :=
  l.Pairwise (fun x y => x + 16 ≤ y ∨ y + 16 ≤ x)

/-- The payload addresses of the blocks of `bs` whose status bit is clear. -/
def freePayloads : List (Nat × Nat) → List Nat
  | [] => []
  | b :: t => if b.2 % 2 = 0 then (b.1 + 8) :: freePayloads t else freePayloads t

/-- The number of blocks of `bs` whose status bit is set. -/
def allocCount : List (Nat × Nat) → Int
  | [] => 0
  | b :: t => (if b.2 % 2 = 1 then 1 else 0) + allocCount t

end Explicit

namespace Explicit
open Heap

/-- The representation invariant of the explicit heap on the region `[base, base + N)`:
the memory holds the run of blocks `bs` from `base` to `base + N`, the free list is the
doubly linked list `l` from `linked_start`, its nodes are the payloads of the blocks
with status 0, a free block has room for the two link words, an allocated block has
at least `MIN_REQUEST_SIZE` bytes, and `blocks_allocated` counts the blocks with
status 1. -/
def Rep (base N : Nat) (s : State) (bs : List (Nat × Nat)) (l : List Nat) : Prop :=
  s.segment_start = base ∧ s.segment_end = base + N ∧ base + N ≤ WORD ∧
    Blocks s.mem (base + N) base bs ∧ DList s.mem 0 s.linked_start l ∧
    l.Perm (freePayloads bs) ∧ (∀ b ∈ bs, b.2 % 2 = 0 → 16 ≤ hdrSize b.2) ∧
    (∀ b ∈ bs, b.2 % 2 = 1 → 24 ≤ hdrSize b.2) ∧ s.blocks_allocated = allocCount bs

end Explicit

namespace Explicit
open Heap

/-- `p` is a currently allocated payload: its header is met by the block walk and has
its status bit set. -/
def Allocated (s : State) (p : Nat) : Prop :=
  ∃ fuel l, blockWalk s.mem s.segment_end fuel s.segment_start = some l ∧
    accessHeader p ∈ l ∧ p = accessPayload (accessHeader p) ∧
    isAllocated s.mem (accessHeader p) = true

/-- Freeing `p` does not make `coalesce` take the word behind the region for a free
header: the block of `p` is not the last block, or the word at `segment_end` has its
status bit set. -/
def FreeSafe (s : State) (p : Nat) : Prop :=
  nextBlock s.mem (accessHeader p) = s.segment_end → isAllocated s.mem s.segment_end = true

/-- The states reached from a successful `myinit(base, N)` on a region in which the two
link words of the first block are `NULL`, by calls that respect the caller contract:
request sizes stay 31 below `2^64`, `myfree` and `myrealloc` are given `NULL` or a
currently allocated payload whose release is `FreeSafe`, and `myrealloc` of a payload
returns a payload. -/
inductive Reach (base N : Nat) : State → Prop
  | init (s0 : State) :
      load64 s0.mem (base + 8) = 0 → load64 s0.mem (base + 16) = 0 →
      Reach base N (myinit s0 base N).1
  | malloc (s s1 : State) (fuel req p : Nat) :
      Reach base N s → req + 31 < WORD → mymalloc fuel s req = some (s1, p) →
      Reach base N s1
  | free (s : State) (p : Nat) :
      Reach base N s → (p = 0 ∨ (Allocated s p ∧ FreeSafe s p)) → Reach base N (myfree s p)
  | realloc (s s1 : State) (fuel p n q : Nat) :
      Reach base N s → (p = 0 ∨ (Allocated s p ∧ FreeSafe s p)) → n + 31 < WORD →
      myrealloc fuel s p n = some (s1, q) → (p = 0 ∨ q ≠ 0) → Reach base N s1

/-- The heap on a region of fewer than 24 bytes: one free block too small for any
request, alone on the free list. -/
def Tiny (base N : Nat) (s : State) : Prop :=
  N < 24 ∧ s.segment_start = base ∧ s.segment_end = base + N ∧
    Blocks s.mem (base + N) base [(base, N - 8)] ∧ s.linked_start = base + 8 ∧
    load64 s.mem (base + 8) = 0 ∧ s.blocks_allocated = 0

/-- The invariant of the explicit heap on the region `[base, base + N)`. -/
def Inv (base N : Nat) (s : State) : Prop :=
  Tiny base N s ∨ ∃ bs l, Rep base N s bs l

end Explicit

namespace Explicit
open Heap

/-- The state after `myinit(4096, 1024)` and `mymalloc(64)` in zeroed memory. -/
def used64 : State := ((mymalloc 4 fresh 64).getD (fresh, 0)).1

end Explicit

namespace Heap

/-- The rounding of the specification, `round_up(n, 8) = (n + 7) & ~7`, on `size_t`
values. -/
def round_up (n : Nat) : Nat := (n + 7) &&& complW 7

end Heap

namespace Implicit
open Heap

/-- The states reached from a successful `myinit(base, N)` by calls that respect the
caller contract and succeed, with request sizes in `(0, 2^30]`: `mymalloc` and
`myrealloc` return a payload whose header lies inside the segment, `myfree` and
`myrealloc` are given `NULL` or a currently allocated payload. -/
inductive ReachReq (base N : Nat) : State → Prop
  | init (s0 : State) : ReachReq base N (myinit s0 base N).1
  | malloc (s s1 : State) (fuel req p : Nat) :
      ReachReq base N s → 0 < req → req ≤ MAX_REQUEST_SIZE →
      mymalloc fuel s req = some (s1, p) → accessHeader p < s.segment_end →
      ReachReq base N s1
  | free (s : State) (p : Nat) :
      ReachReq base N s → (p = 0 ∨ Allocated s p) → ReachReq base N (myfree s p)
  | realloc (s s1 : State) (fuel p n q : Nat) :
      ReachReq base N s → (p = 0 ∨ Allocated s p) → 0 < n → n ≤ MAX_REQUEST_SIZE →
      myrealloc fuel s p n = some (s1, q) → accessHeader q < s.segment_end →
      ReachReq base N s1

/-- The state after `myinit(4096, 1024)` and `mymalloc(1008)` in zeroed memory. -/
def used1008 : State := ((mymalloc 4 fresh 1008).getD (fresh, 0)).1

end Implicit

namespace Heap

theorem loadBytes_lt (m : Mem) (n a : Nat) : loadBytes m a n < 256 ^ n := by
  induction n generalizing a with
  | zero => simp [loadBytes]
  | succ k ih =>
    have h1 := ih (a + 1)
    have h2 : m a % 256 < 256 := Nat.mod_lt _ (by norm_num)
    simp only [loadBytes, pow_succ]
    omega

theorem load64_lt (m : Mem) (a : Nat) : load64 m a < WORD := by
  have := loadBytes_lt m 8 a
  simpa [load64, WORD] using this

theorem loadBytes_congr (m m2 : Mem) (n a : Nat)
    (h : ∀ x, a ≤ x → x < a + n → m x = m2 x) : loadBytes m a n = loadBytes m2 a n := by
  induction n generalizing a with
  | zero => rfl
  | succ k ih =>
    simp only [loadBytes]
    rw [h a (le_refl _) (by omega), ih (a + 1) (fun x h1 h2 => h x (by omega) (by omega))]

theorem load64_congr (m m2 : Mem) (a : Nat)
    (h : ∀ x, a ≤ x → x < a + 8 → m x = m2 x) : load64 m a = load64 m2 a :=
  loadBytes_congr m m2 8 a h

theorem store64_out (m : Mem) (a v x : Nat) (h : x < a ∨ a + 8 ≤ x) : store64 m a v x = m x := by
  unfold store64
  rw [if_neg]
  omega

theorem load64_store64_disj (m : Mem) (a v b : Nat) (h : a + 8 ≤ b ∨ b + 8 ≤ a) :
    load64 (store64 m a v) b = load64 m b := by
  apply load64_congr
  intro x h1 h2
  apply store64_out
  omega

theorem loadBytes_of_bytes (m : Mem) (n a v : Nat)
    (h : ∀ i, i < n → m (a + i) % 256 = v / 256 ^ i % 256) : loadBytes m a n = v % 256 ^ n := by
  induction n generalizing a v with
  | zero => simp [loadBytes, Nat.mod_one]
  | succ k ih =>
    have h0 := h 0 (by omega)
    have ht : loadBytes m (a + 1) k = v / 256 % 256 ^ k := by
      apply ih
      intro i hi
      have := h (i + 1) (by omega)
      rw [Nat.div_div_eq_div_mul, ← pow_succ', ← this]
      congr 2
      omega
    simp only [loadBytes]
    rw [ht, pow_succ', Nat.mod_mul]
    simp at h0
    omega

theorem load64_store64_same (m : Mem) (a v : Nat) : load64 (store64 m a v) a = v % WORD := by
  unfold load64 WORD
  have e : (2:Nat) ^ 64 = 256 ^ 8 := by norm_num
  rw [e]
  apply loadBytes_of_bytes
  intro i hi
  unfold store64
  rw [if_pos (by omega)]
  simp

theorem load64_store64_small (m : Mem) (a v : Nat) (h : v < WORD) :
    load64 (store64 m a v) a = v := by
  rw [load64_store64_same, Nat.mod_eq_of_lt h]

end Heap

namespace Heap

theorem land_high_mask (k h : Nat) (hk64 : k ≤ 64) (hh : h < 2 ^ 64) :
    h &&& (2 ^ 64 - 2 ^ k) = h - h % 2 ^ k := by
  apply Nat.eq_of_testBit_eq
  intro i
  have hp : 1 ≤ 2 ^ k := Nat.one_le_two_pow
  have hp2 : 2 ^ k ≤ 2 ^ 64 := Nat.pow_le_pow_right (by norm_num) hk64
  have e1 : (2:Nat) ^ 64 - 2 ^ k = 2 ^ 64 - ((2 ^ k - 1) + 1) := by omega
  have e2 : h - h % 2 ^ k = 2 ^ k * (h >>> k) := by
    rw [Nat.shiftRight_eq_div_pow]
    have := Nat.div_add_mod h (2 ^ k)
    omega
  rw [Nat.testBit_land, e1, Nat.testBit_two_pow_sub_succ (by omega), e2, Nat.testBit_mul_pow_two,
    Nat.testBit_two_pow_sub_one, Nat.testBit_shiftRight]
  by_cases h3 : i < k
  · have h3n : ¬ (k ≤ i) := by omega
    simp [h3, h3n]
  · have h3p : k ≤ i := by omega
    have e : k + (i - k) = i := by omega
    rw [e]
    by_cases h64 : i < 64
    · simp [h64, h3, h3p]
    · have : h < 2 ^ i := lt_of_lt_of_le hh (Nat.pow_le_pow_right (by norm_num) (by omega))
      simp [h64, Nat.testBit_lt_two_pow this]

theorem lor_one (h : Nat) : h ||| 1 = h - h % 2 + 1 := by
  apply Nat.eq_of_testBit_eq
  intro i
  rw [Nat.testBit_or]
  cases i with
  | zero =>
    simp only [Nat.testBit_zero]
    have : (h - h % 2 + 1) % 2 = 1 := by omega
    simp [this]
  | succ j =>
    have : Nat.testBit 1 (j + 1) = false := by
      apply Nat.testBit_lt_two_pow
      exact Nat.one_lt_two_pow (by omega)
    rw [this, Bool.or_false]
    rw [Nat.testBit_succ, Nat.testBit_succ]
    congr 1
    omega

/-- Masking with `LEAST_3_SIGBITS` clears the low three bits. -/
theorem land_least3 (h : Nat) (hh : h < WORD) : h &&& LEAST_3_SIGBITS = h - h % 8 := by
  have := land_high_mask 3 h (by norm_num) hh
  simpa [LEAST_3_SIGBITS, WORD] using this

/-- Masking with `~1` clears bit 0. -/
theorem land_compl1 (h : Nat) (hh : h < WORD) : h &&& complW 1 = h - h % 2 := by
  have := land_high_mask 1 h (by norm_num) hh
  simpa [complW, WORD] using this

theorem getSize_eq (m : Mem) (hdr : Nat) :
    getSize m hdr = load64 m hdr - load64 m hdr % 8 :=
  land_least3 _ (load64_lt m hdr)

theorem isAllocated_eq (m : Mem) (hdr : Nat) :
    isAllocated m hdr = decide (load64 m hdr % 2 = 1) := by
  unfold isAllocated
  rw [Nat.and_one_is_mod]
  by_cases h : load64 m hdr % 2 = 1 <;> simp [h]

theorem statusAllocated_eq (m : Mem) (hdr : Nat) :
    statusAllocated m hdr = store64 m hdr (load64 m hdr - load64 m hdr % 2 + 1) := by
  unfold statusAllocated
  rw [lor_one]

theorem statusFree_eq (m : Mem) (hdr : Nat) :
    statusFree m hdr = store64 m hdr (load64 m hdr - load64 m hdr % 2) := by
  unfold statusFree
  rw [land_compl1 _ (load64_lt m hdr)]

theorem getSize_congr (m m2 : Mem) (a : Nat) (h : load64 m a = load64 m2 a) :
    getSize m a = getSize m2 a := by
  unfold getSize; rw [h]

theorem isAllocated_congr (m m2 : Mem) (a : Nat) (h : load64 m a = load64 m2 a) :
    isAllocated m a = isAllocated m2 a := by
  unfold isAllocated; rw [h]

theorem nextBlock_eq (m : Mem) (hdr : Nat) :
    nextBlock m hdr = hdr + 8 + (load64 m hdr - load64 m hdr % 8) := by
  unfold nextBlock accessPayload ALIGNMENT
  rw [getSize_eq]

end Heap

namespace Implicit
open Heap

/-- The rounding of `implicit.c` on a `size_t` and the alignment 8. -/
theorem roundup_impl_eq (sz : Nat) :
    roundup sz ALIGNMENT = (sz + 7) % WORD - (sz + 7) % WORD % 8 := by
  unfold roundup
  have e1 : subW (addW sz ALIGNMENT) 1 = (sz + 7) % WORD := by
    unfold subW addW ALIGNMENT WORD at *
    omega
  have e2 : complW (subW ALIGNMENT 1) = LEAST_3_SIGBITS := by
    unfold complW subW ALIGNMENT LEAST_3_SIGBITS WORD
    norm_num
  rw [e1, e2, land_least3 _ (Nat.mod_lt _ (by unfold WORD; norm_num))]

theorem roundup_impl_mod8 (sz : Nat) : roundup sz ALIGNMENT % 8 = 0 := by
  rw [roundup_impl_eq sz]; omega

theorem roundup_impl_lt (sz : Nat) : roundup sz ALIGNMENT < WORD := by
  rw [roundup_impl_eq sz]
  have : (sz + 7) % WORD < WORD := Nat.mod_lt _ (by unfold WORD; norm_num)
  omega

end Implicit

namespace Explicit
open Heap

/-- The rounding of `explicit.c` on a `size_t` and the alignment 8. -/
theorem roundup_expl_eq (sz : Nat) :
    roundup sz ALIGNMENT =
      if sz < 24 then 24 else (sz + 7) % WORD - (sz + 7) % WORD % 8 := by
  unfold roundup MIN_REQUEST_SIZE
  have e1 : subW (addW sz ALIGNMENT) 1 = (sz + 7) % WORD := by
    unfold subW addW ALIGNMENT WORD at *
    omega
  have e2 : complW (subW ALIGNMENT 1) = LEAST_3_SIGBITS := by
    unfold complW subW ALIGNMENT LEAST_3_SIGBITS WORD
    norm_num
  rw [e1, e2, land_least3 _ (Nat.mod_lt _ (by unfold WORD; norm_num))]

end Explicit

namespace Explicit
open Heap

theorem mallocLoop_succ (actual fuel : Nat) (s : State) (list : Nat) :
    mallocLoop actual (fuel + 1) s list =
      if list ≠ 0 then
        if getSize s.mem (accessHeader list) < actual then
          mallocLoop actual fuel s (load64 s.mem list)
        else if getSize s.mem (accessHeader list) ≥ addW actual MIN_REQUEST_SIZE then
          some (splitting s (accessHeader list) actual (getSize s.mem (accessHeader list)) list)
        else
          some ({ unlinkFree s list with
                  mem := statusAllocated (unlinkFree s list).mem (accessHeader list)
                  blocks_allocated := (unlinkFree s list).blocks_allocated + 1 }, list)
      else some (s, 0) := by
  rw [mallocLoop]

theorem splitting_snd (s : State) (hdr actual_size og_size list : Nat) :
    (splitting s hdr actual_size og_size list).2 = list := rfl

/-- The loop of `mymalloc` on a null-terminated list: it returns with enough fuel,
returns `NULL` exactly when every node is too small, and then has changed nothing. -/
theorem mallocLoop_null_iff (actual : Nat) (s : State) (l : List Nat) :
    ∀ (fuel list : Nat), FreeList s.mem list l → l.length < fuel →
      ∃ r, mallocLoop actual fuel s list = some r ∧
        (r.2 = 0 ↔ ∀ c ∈ l, getSize s.mem (accessHeader c) < actual) ∧
        (r.2 = 0 → r.1 = s) := by
  induction l with
  | nil =>
    intro fuel list hl hf
    obtain ⟨f, rfl⟩ : ∃ f, fuel = f + 1 := ⟨fuel - 1, by simp at hf; omega⟩
    simp only [FreeList] at hl
    subst hl
    exact ⟨(s, 0), by rw [mallocLoop_succ]; simp, by simp, by simp⟩
  | cons c t ih =>
    intro fuel list hl hf
    obtain ⟨f, rfl⟩ : ∃ f, fuel = f + 1 := ⟨fuel - 1, by simp at hf; omega⟩
    simp only [FreeList] at hl
    obtain ⟨rfl, hc, ht⟩ := hl
    rw [mallocLoop_succ, if_pos hc]
    by_cases hsz : getSize s.mem (accessHeader list) < actual
    · rw [if_pos hsz]
      obtain ⟨r, hr, hiff, hsame⟩ := ih f (load64 s.mem list) ht (by simp at hf; omega)
      refine ⟨r, hr, ?_, hsame⟩
      rw [hiff]
      simp [hsz]
    · rw [if_neg hsz]
      by_cases hsplit : getSize s.mem (accessHeader list) ≥ addW actual MIN_REQUEST_SIZE
      · rw [if_pos hsplit]
        refine ⟨_, rfl, ?_, ?_⟩
        · rw [splitting_snd]; simp [hc, hsz]
        · intro h0; rw [splitting_snd] at h0; exact absurd h0 hc
      · rw [if_neg hsplit]
        refine ⟨_, rfl, ?_, ?_⟩
        · simp [hc, hsz]
        · intro h0; simp at h0; exact absurd h0 hc

/-- C3. Explicit allocate failure is atomic: on a state whose free list is
null-terminated, `mymalloc` returns (given fuel beyond the length of the list), it
returns `NULL` if and only if no node of the list has a size of at least the effective
request size `roundup(requested_size, 8)`, and when it returns `NULL` the whole state
(memory, hence every header and link word, `linked_start`, `blocks_allocated`) is the
state before the call. -/
theorem explicit_malloc_failure_atomic (s : State) (l : List Nat) (requested_size fuel : Nat)
    (hl : FreeList s.mem s.linked_start l) (hf : l.length < fuel) :
    ∃ r, mymalloc fuel s requested_size = some r ∧
      (r.2 = 0 ↔ ∀ c ∈ l, getSize s.mem (accessHeader c) < roundup requested_size ALIGNMENT) ∧
      (r.2 = 0 → r.1 = s) :=
  mallocLoop_null_iff (roundup requested_size ALIGNMENT) s l fuel s.linked_start hl hf

/-- Witness of `explicit_malloc_failure_atomic`: after `myinit(4096, 1024)` in zeroed
memory the free list is the single node 4104, of size 1016, and a request of 2000
bytes fails. -/
theorem explicit_malloc_failure_atomic_witness :
    FreeList fresh.mem fresh.linked_start [4104] ∧ [4104].length < 2 ∧
    ∃ r, mymalloc 2 fresh 2000 = some r ∧
      (r.2 = 0 ↔ ∀ c ∈ [4104], getSize fresh.mem (accessHeader c) < roundup 2000 ALIGNMENT) ∧
      (r.2 = 0 → r.1 = fresh) :=
  ⟨⟨rfl, by decide, by show load64 fresh.mem 4104 = 0; decide⟩, by decide,
    explicit_malloc_failure_atomic fresh [4104] 2000 2
      ⟨rfl, by decide, by show load64 fresh.mem 4104 = 0; decide⟩ (by decide)⟩

end Explicit

namespace Heap

theorem blockWalk_succ (m : Mem) (e fuel ptr : Nat) :
    blockWalk m e (fuel + 1) ptr =
      if ptr = e then some []
      else (blockWalk m e fuel (nextBlock m ptr)).map (fun t => ptr :: t) := by
  rw [blockWalk]

/-- A header written with a multiple of 8 below `2 ^ 64` describes a free block of
that size. -/
theorem header_after_store (m : Mem) (a v : Nat) (hv : v < WORD) (h8 : v % 8 = 0) :
    getSize (store64 m a v) a = v ∧ isAllocated (store64 m a v) a = false ∧
      nextBlock (store64 m a v) a = a + 8 + v := by
  have hl : load64 (store64 m a v) a = v := load64_store64_small m a v hv
  refine ⟨?_, ?_, ?_⟩
  · rw [getSize_eq, hl]; omega
  · rw [isAllocated_eq, hl]; simp; omega
  · rw [nextBlock_eq, hl]; omega

end Heap

/-- C7 (as stated) fails: `myinit` accepts a region of 1025 bytes, and the header it
writes, 1017, has its status bit set and leads `nextBlock` to an address other than
`segment_end`. -/
theorem init_odd_size_counterexample :
    (Implicit.myinit Implicit.boot 4096 1025).2 = true ∧
      Heap.isAllocated (Implicit.myinit Implicit.boot 4096 1025).1.mem 4096 = true ∧
      Heap.nextBlock (Implicit.myinit Implicit.boot 4096 1025).1.mem 4096 = 5120 ∧
      (Implicit.myinit Implicit.boot 4096 1025).1.segment_end = 5121 := by
  decide

/-- C7 (amended). For every region size `N` that is a multiple of 8 with
`8 ≤ N < 2 ^ 64`, in both variants `myinit` returns true, the header at the base
decodes to size `N - 8` with status free, `nextBlock` of it is `segment_end`, and the
block walk visits exactly that one block. -/
theorem init_one_free_block (si : Implicit.State) (se : Explicit.State) (base N fuel : Nat)
    (h8 : 8 ≤ N) (hm : N % 8 = 0) (hN : N < Heap.WORD) :
    ((Implicit.myinit si base N).2 = true ∧
      Heap.getSize (Implicit.myinit si base N).1.mem base = N - 8 ∧
      Heap.isAllocated (Implicit.myinit si base N).1.mem base = false ∧
      Heap.nextBlock (Implicit.myinit si base N).1.mem base
        = (Implicit.myinit si base N).1.segment_end ∧
      Heap.blockWalk (Implicit.myinit si base N).1.mem (Implicit.myinit si base N).1.segment_end
        (fuel + 2) (Implicit.myinit si base N).1.segment_start = some [base]) ∧
    ((Explicit.myinit se base N).2 = true ∧
      Heap.getSize (Explicit.myinit se base N).1.mem base = N - 8 ∧
      Heap.isAllocated (Explicit.myinit se base N).1.mem base = false ∧
      Heap.nextBlock (Explicit.myinit se base N).1.mem base
        = (Explicit.myinit se base N).1.segment_end ∧
      Heap.blockWalk (Explicit.myinit se base N).1.mem (Explicit.myinit se base N).1.segment_end
        (fuel + 2) (Explicit.myinit se base N).1.segment_start = some [base]) := by
  have hsub : Heap.subW N Heap.ALIGNMENT = N - 8 := by
    unfold Heap.subW Heap.ALIGNMENT Heap.WORD at *
    omega
  have hlt : N - 8 < Heap.WORD := by omega
  have hmod : (N - 8) % 8 = 0 := by omega
  constructor
  · have hi : Implicit.myinit si base N =
        ({ mem := Heap.store64 si.mem base (N - 8), segment_start := base, segment_size := N,
           segment_end := base + N, nused := Heap.addW 0 Heap.ALIGNMENT, start_hdr := base }, true) := by
      unfold Implicit.myinit
      rw [if_neg (by unfold Heap.ALIGNMENT; omega), hsub]
    rw [hi]
    obtain ⟨g1, g2, g3⟩ := Heap.header_after_store si.mem base (N - 8) hlt hmod
    refine ⟨rfl, g1, g2, ?_, ?_⟩
    · show Heap.nextBlock _ base = base + N
      rw [g3]; omega
    · show Heap.blockWalk (Heap.store64 si.mem base (N - 8)) (base + N) (fuel + 2) base = some [base]
      rw [Heap.blockWalk_succ, if_neg (by omega), g3, Heap.blockWalk_succ, if_pos (by omega)]
      rfl
  · have he : Explicit.myinit se base N =
        ({ mem := Heap.store64 se.mem base (N - 8), segment_start := base, segment_size := N,
           segment_end := base + N, start_hdr := base, linked_start := base + Heap.ALIGNMENT,
           blocks_allocated := 0 }, true) := by
      unfold Explicit.myinit
      rw [if_pos (by unfold Heap.ALIGNMENT; omega), hsub]
    rw [he]
    obtain ⟨g1, g2, g3⟩ := Heap.header_after_store se.mem base (N - 8) hlt hmod
    refine ⟨rfl, g1, g2, ?_, ?_⟩
    · show Heap.nextBlock _ base = base + N
      rw [g3]; omega
    · show Heap.blockWalk (Heap.store64 se.mem base (N - 8)) (base + N) (fuel + 2) base = some [base]
      rw [Heap.blockWalk_succ, if_neg (by omega), g3, Heap.blockWalk_succ, if_pos (by omega)]
      rfl

/-- Witness of `init_one_free_block`: a region of 1024 bytes at 4096 gives one free
block of size 1016. -/
theorem init_one_free_block_witness :
    8 ≤ 1024 ∧ 1024 % 8 = 0 ∧ 1024 < Heap.WORD ∧
    Heap.getSize (Implicit.myinit Implicit.boot 4096 1024).1.mem 4096 = 1024 - 8 ∧
    Heap.getSize (Explicit.myinit Explicit.boot 4096 1024).1.mem 4096 = 1024 - 8 :=
  ⟨by decide, by decide, by decide,
    (init_one_free_block Implicit.boot Explicit.boot 4096 1024 0 (by decide) (by decide)
      (by decide)).1.2.1,
    (init_one_free_block Implicit.boot Explicit.boot 4096 1024 0 (by decide) (by decide)
      (by decide)).2.2.1⟩

/-- C1 fails in the explicit variant.  In zeroed memory, after `myinit(4096, 1024)`,
`p = mymalloc(1000)` takes the whole block (`p = 4104`) and `myfree(p)` makes
`coalesce` read the word at `segment_end = 5120`; it is even, so the header at 4096
grows to 1024 and `nextBlock` of the first header is 5128, past `segment_end`: the
walk of `validate_heap` does not arrive at `segment_end`. -/
theorem explicit_free_last_block_walk :
    (Explicit.mymalloc 4 Explicit.fresh 1000).map (fun r =>
      (r.2, Heap.load64 r.1.mem 4096, Heap.load64 (Explicit.myfree r.1 r.2).mem 4096,
        Heap.nextBlock (Explicit.myfree r.1 r.2).mem 4096,
        (Explicit.myfree r.1 r.2).segment_end,
        Heap.blockWalk (Explicit.myfree r.1 r.2).mem (Explicit.myfree r.1 r.2).segment_end 64
          (Explicit.myfree r.1 r.2).segment_start))
      = some (4104, 1017, 1024, 5128, 5120, none) := by
  rfl

/-- C2 fails.  A heap is used (`a = mymalloc(16)`, `b = mymalloc(16)`, `myfree(a)`)
and initialised again: `myinit` sets `linked_start` to 4104 without writing the link
words, so the `next` word left there by `myfree(a)` still points at 4168.  The free
list after the completed `myinit` is 4104, 4168, while the heap has the single block
at 4096: the node 4168 is on the list and is no block of the heap.  Second part: in
zeroed memory, after `p = mymalloc(1000)` and `myfree(p)` the block at 4096 has
status 0 and the free list is empty (`coalesce` has unlinked what it read behind
`segment_end`). -/
theorem explicit_reinit_free_list :
    (Explicit.mymalloc 4 Explicit.fresh 16).bind (fun r1 =>
      (Explicit.mymalloc 4 r1.1 16).map (fun r2 =>
        (r1.2, r2.2,
          (Explicit.myinit (Explicit.myfree r2.1 r1.2) 4096 1024).2,
          (Explicit.myinit (Explicit.myfree r2.1 r1.2) 4096 1024).1.linked_start,
          Heap.load64 (Explicit.myinit (Explicit.myfree r2.1 r1.2) 4096 1024).1.mem 4104,
          Heap.load64 (Explicit.myinit (Explicit.myfree r2.1 r1.2) 4096 1024).1.mem 4168,
          Heap.blockWalk (Explicit.myinit (Explicit.myfree r2.1 r1.2) 4096 1024).1.mem 5120 8 4096)))
      = some (4104, 4136, true, 4104, 4168, 0, some [4096]) ∧
    (Explicit.mymalloc 4 Explicit.fresh 1000).map (fun r =>
      (r.2, Heap.isAllocated (Explicit.myfree r.1 r.2).mem 4096,
        (Explicit.myfree r.1 r.2).linked_start))
      = some (4104, false, 0) :=
  ⟨by rfl, by rfl⟩

/-- C4 fails.  After `myinit(4096, 1024)` the only block is free with size 1016, so no
free block fits a request of 2000 bytes.  The scan of `mymalloc` does not stop at
`segment_end = 5120`: it reads the word stored there (4096), takes it for a free
header, and `mymalloc` returns 5128, writes the header 2001 at 5120 and raises
`nused` from 8 to 2016. -/
theorem implicit_malloc_scans_past_end :
    (Implicit.myinit Implicit.bootBehind 4096 1024).1.segment_end = 5120 ∧
    Heap.blockWalk (Implicit.myinit Implicit.bootBehind 4096 1024).1.mem 5120 8 4096
      = some [4096] ∧
    Heap.load64 (Implicit.myinit Implicit.bootBehind 4096 1024).1.mem 4096 = 1016 ∧
    (Implicit.myinit Implicit.bootBehind 4096 1024).1.nused = 8 ∧
    (Implicit.mymalloc 4 (Implicit.myinit Implicit.bootBehind 4096 1024).1 2000).map
      (fun r => (r.2, r.1.nused, Heap.load64 r.1.mem 5120)) = some (5128, 2016, 2001) := by
  decide

/-- C5 fails.  In zeroed memory, after `myinit(4096, 1024)`, `p = mymalloc(64)` and
`mymalloc(928)` use up the heap (free list empty, two blocks allocated).
`myrealloc(p, 100)` then returns `NULL`, and it has freed the old block: the header of
`p` went from 65 to 64, `p` is the head of the free list and `blocks_allocated` went
from 2 to 1. -/
theorem explicit_realloc_failure_frees :
    (Explicit.mymalloc 4 Explicit.fresh 64).bind (fun r1 =>
      (Explicit.mymalloc 4 r1.1 928).bind (fun r2 =>
        (Explicit.myrealloc 4 r2.1 r1.2 100).map (fun r3 =>
          (r1.2, r2.2, r2.1.linked_start, r2.1.blocks_allocated, Heap.load64 r2.1.mem 4096,
            r3.2, r3.1.linked_start, r3.1.blocks_allocated, Heap.load64 r3.1.mem 4096))))
      = some (4104, 4176, 0, 2, 65, 0, 4104, 1, 64) := by
  rfl

/-- C8 fails.  `myinit` on a region that was used before (`a = mymalloc(16)`,
`b = mymalloc(16)`, `myfree(a)`) returns true and sets `linked_start` to 4104, and the
`next` word of that node is still the pointer 4168 that `myfree(a)` stored there: the
traversal of the free list goes on to a second node. -/
theorem explicit_init_keeps_link_words :
    (Explicit.mymalloc 4 Explicit.fresh 16).bind (fun r1 =>
      (Explicit.mymalloc 4 r1.1 16).map (fun r2 =>
        (Heap.load64 (Explicit.myfree r2.1 r1.2).mem 4104,
          (Explicit.myinit (Explicit.myfree r2.1 r1.2) 4096 1024).2,
          (Explicit.myinit (Explicit.myfree r2.1 r1.2) 4096 1024).1.linked_start,
          Heap.load64 (Explicit.myinit (Explicit.myfree r2.1 r1.2) 4096 1024).1.mem 4104,
          Explicit.listLoop (Explicit.myinit (Explicit.myfree r2.1 r1.2) 4096 1024).1.mem 1
            (Heap.load64 (Explicit.myinit (Explicit.myfree r2.1 r1.2) 4096 1024).1.mem 4104)
            true)))
      = some (4168, true, 4104, 4168, none) := by
  rfl

/-- C9 fails in the explicit variant.  The segment is `[4096, 8192)`; the three words
behind it hold 0, 8256 and 4104.  After `a = mymalloc(2000)`, `b = mymalloc(2040)`,
`p = mymalloc(32)` (the last block, `p = 8160`) and `myfree(a)`, the caller writes the
bytes `0x00 .. 0x1f` at `p`.  `myrealloc(p, 100)` returns `q = 4104`, and the first
word at `q` is 8256 instead of the copied `0x0706050403020100`: `coalesce` took the
zero word at `segment_end` for a free header and `unlinkFree` followed the two words
behind it. -/
theorem explicit_realloc_data_overwritten :
    (Explicit.mymalloc 4 (Explicit.myinit Explicit.bootBehind 4096 4096).1 2000).bind (fun r1 =>
      (Explicit.mymalloc 4 r1.1 2040).bind (fun r2 =>
        (Explicit.mymalloc 4 r2.1 32).bind (fun r3 =>
          (Explicit.myrealloc 4 (Explicit.fill32 (Explicit.myfree r3.1 r1.2) r3.2) r3.2 100).map
            (fun r4 =>
              (r1.2, r3.2,
                Heap.isAllocated (Explicit.fill32 (Explicit.myfree r3.1 r1.2) r3.2).mem (r3.2 - 8),
                Heap.getSize (Explicit.fill32 (Explicit.myfree r3.1 r1.2) r3.2).mem (r3.2 - 8),
                Heap.nextBlock (Explicit.fill32 (Explicit.myfree r3.1 r1.2) r3.2).mem (r3.2 - 8),
                Heap.load64 (Explicit.fill32 (Explicit.myfree r3.1 r1.2) r3.2).mem r3.2,
                r4.2, Heap.load64 r4.1.mem r4.2)))))
      = some (4104, 8160, true, 32, 8192, 0x0706050403020100, 4104, 8256) := by
  rfl

namespace Implicit
open Heap

theorem scan_succ (m : Mem) (actual fuel ptr : Nat) :
    scan m actual (fuel + 1) ptr =
      if isAllocated m ptr || decide (actual > load64 m ptr) then
        scan m actual fuel (nextBlock m ptr)
      else some ptr := by
  rw [scan]

/-- Where the scan of `mymalloc` exits, the header is free and its raw value is at
least the size searched for. -/
theorem scan_exit (m : Mem) (actual : Nat) :
    ∀ (fuel ptr p : Nat), scan m actual fuel ptr = some p →
      isAllocated m p = false ∧ actual ≤ load64 m p := by
  intro fuel
  induction fuel with
  | zero => intro ptr p h; simp [scan] at h
  | succ f ih =>
    intro ptr p h
    rw [scan_succ] at h
    by_cases c : (isAllocated m ptr || decide (actual > load64 m ptr)) = true
    · rw [if_pos c] at h
      exact ih _ _ h
    · rw [if_neg c] at h
      injection h with h
      subst h
      simp only [Bool.or_eq_true, decide_eq_true_eq, not_or, Bool.not_eq_true, not_lt] at c
      exact ⟨c.1, by omega⟩

/-- The three branches of `mymalloc` after the scan has stopped at `ptr`. -/
theorem mymalloc_of_scan (fuel : Nat) (s : State) (req ptr : Nat)
    (h : scan s.mem (roundup req ALIGNMENT) fuel s.start_hdr = some ptr) :
    mymalloc fuel s req =
      if getSize s.mem ptr = roundup req ALIGNMENT then
        some ({ s with mem := statusAllocated s.mem ptr,
                       nused := addW s.nused (roundup req ALIGNMENT) }, accessPayload ptr)
      else if getSize s.mem ptr ≥ addW (roundup req ALIGNMENT) ALIGNMENT then
        some ({ s with
                mem := statusFree
                  (store64 (statusAllocated (store64 s.mem ptr (roundup req ALIGNMENT)) ptr)
                    (nextBlock (statusAllocated (store64 s.mem ptr (roundup req ALIGNMENT)) ptr) ptr)
                    (subW (subW (getSize s.mem ptr) (roundup req ALIGNMENT)) ALIGNMENT))
                  (nextBlock (statusAllocated (store64 s.mem ptr (roundup req ALIGNMENT)) ptr) ptr),
                nused := addW s.nused (addW (roundup req ALIGNMENT) ALIGNMENT) },
              accessPayload ptr)
      else some (s, 0) := by
  unfold mymalloc
  simp only [h]

/-- A free header whose raw value is at least the rounded request has the exact size
or room for a split: the last `return NULL` of `mymalloc` is never reached. -/
theorem fit_or_split (m : Mem) (ptr req : Nat) (hge : roundup req ALIGNMENT ≤ load64 m ptr) :
    getSize m ptr = roundup req ALIGNMENT ∨
      (getSize m ptr ≠ roundup req ALIGNMENT ∧
        roundup req ALIGNMENT + 8 ≤ getSize m ptr ∧
        addW (roundup req ALIGNMENT) ALIGNMENT = roundup req ALIGNMENT + 8) := by
  have h8 := roundup_impl_mod8 req
  have hlt := load64_lt m ptr
  rw [getSize_eq]
  generalize roundup req ALIGNMENT = r at *
  unfold addW ALIGNMENT
  unfold WORD at *
  by_cases c : load64 m ptr - load64 m ptr % 8 = r
  · exact Or.inl c
  · refine Or.inr ⟨c, by omega, ?_⟩
    apply Nat.mod_eq_of_lt
    omega

/-- In the implicit variant `mymalloc` never returns `NULL`: whenever it returns, the
result is the payload of the header at which the scan stopped. -/
theorem mymalloc_ne_null (fuel : Nat) (s : State) (req : Nat) (r : State × Nat)
    (h : mymalloc fuel s req = some r) : r.2 ≠ 0 := by
  cases hs : scan s.mem (roundup req ALIGNMENT) fuel s.start_hdr with
  | none => unfold mymalloc at h; simp [hs] at h
  | some ptr =>
    rw [mymalloc_of_scan fuel s req ptr hs] at h
    obtain ⟨_, hge⟩ := scan_exit _ _ _ _ _ hs
    rcases fit_or_split s.mem ptr req hge with c | ⟨c1, c2, c3⟩
    · rw [if_pos c] at h
      injection h with h
      subst h
      simp [accessPayload, ALIGNMENT]
    · rw [if_neg c1, if_pos (by rw [c3]; exact c2)] at h
      injection h with h
      subst h
      simp [accessPayload, ALIGNMENT]

/-- When the first block is free and its raw header value is at least the rounded
request, `mymalloc` returns its payload. -/
theorem mymalloc_first_block (fuel : Nat) (s : State) (req : Nat)
    (hfree : isAllocated s.mem s.start_hdr = false)
    (hge : roundup req ALIGNMENT ≤ load64 s.mem s.start_hdr) :
    ∃ s2, mymalloc (fuel + 1) s req = some (s2, s.start_hdr + 8) := by
  have hs : scan s.mem (roundup req ALIGNMENT) (fuel + 1) s.start_hdr = some s.start_hdr := by
    rw [scan_succ, if_neg]
    simp [hfree]; omega
  rw [mymalloc_of_scan (fuel + 1) s req _ hs]
  rcases fit_or_split s.mem s.start_hdr req hge with c | ⟨c1, c2, c3⟩
  · rw [if_pos c]; exact ⟨_, rfl⟩
  · rw [if_neg c1, if_pos (by rw [c3]; exact c2)]; exact ⟨_, rfl⟩

end Implicit

/-- C6 (as stated) fails: after `myinit(4096, 1024)` in zeroed memory, `mymalloc(0)`
returns 4104 in both variants and changes the heap (implicit: the first header
becomes 1, a used block of size 0, and `nused` 16; explicit: the first header becomes
25 and `blocks_allocated` 1); and on a region of `2 ^ 31` bytes a request of
`2 ^ 30 + 1` bytes is served in both variants. -/
theorem request_validation_counterexample :
    (Implicit.mymalloc 4 Implicit.fresh 0).map
        (fun r => (r.2, Heap.load64 r.1.mem 4096, r.1.nused)) = some (4104, 1, 16) ∧
    (Explicit.mymalloc 4 Explicit.fresh 0).map
        (fun r => (r.2, Heap.load64 r.1.mem 4096, r.1.blocks_allocated)) = some (4104, 25, 1) ∧
    (Implicit.mymalloc 4 (Implicit.myinit Implicit.boot 4096 (2 ^ 31)).1 (2 ^ 30 + 1)).map
        (fun r => r.2) = some 4104 ∧
    (Explicit.mymalloc 4 (Explicit.myinit Explicit.boot 4096 (2 ^ 31)).1 (2 ^ 30 + 1)).map
        (fun r => r.2) = some 4104 := by
  decide

/-- C6 (amended).  Neither variant rejects a request of 0 or above `2 ^ 30`; such a
request is served like every other.  Explicit variant: on a null-terminated free list
`mymalloc` returns `NULL` exactly when no node has at least the effective size
`roundup(requested_size, 8)` (24 for a request of 0), and then the state is unchanged.
Implicit variant: whenever the first block is free with a header value of at least
`roundup(requested_size, 8)` (0 for a request of 0), `mymalloc` returns its payload,
which is not `NULL`. -/
theorem request_not_validated (requested_size : Nat) :
    (∀ (s : Explicit.State) (l : List Nat) (fuel : Nat),
      Explicit.FreeList s.mem s.linked_start l → l.length < fuel →
      ∃ r, Explicit.mymalloc fuel s requested_size = some r ∧
        (r.2 = 0 ↔ ∀ c ∈ l, Heap.getSize s.mem (Heap.accessHeader c)
          < Explicit.roundup requested_size Heap.ALIGNMENT) ∧
        (r.2 = 0 → r.1 = s)) ∧
    (∀ (s : Implicit.State) (fuel : Nat),
      Heap.isAllocated s.mem s.start_hdr = false →
      Implicit.roundup requested_size Heap.ALIGNMENT ≤ Heap.load64 s.mem s.start_hdr →
      ∃ s2, Implicit.mymalloc (fuel + 1) s requested_size = some (s2, s.start_hdr + 8) ∧
        s.start_hdr + 8 ≠ 0) ∧
    Explicit.roundup 0 Heap.ALIGNMENT = 24 ∧ Implicit.roundup 0 Heap.ALIGNMENT = 0 := by
  refine ⟨?_, ?_, by decide, by decide⟩
  · intro s l fuel hl hf
    exact Explicit.mallocLoop_null_iff (Explicit.roundup requested_size Heap.ALIGNMENT) s l fuel
      s.linked_start hl hf
  · intro s fuel hfree hge
    obtain ⟨s2, h2⟩ := Implicit.mymalloc_first_block fuel s requested_size hfree hge
    exact ⟨s2, h2, by omega⟩

/-- Witness of `request_not_validated` at a request of 0 bytes, in both variants after
`myinit(4096, 1024)` in zeroed memory. -/
theorem request_not_validated_witness :
    (Explicit.FreeList Explicit.fresh.mem Explicit.fresh.linked_start [4104] ∧
      [4104].length < 2 ∧
      ∃ r, Explicit.mymalloc 2 Explicit.fresh 0 = some r ∧
        (r.2 = 0 ↔ ∀ c ∈ [4104], Heap.getSize Explicit.fresh.mem (Heap.accessHeader c)
          < Explicit.roundup 0 Heap.ALIGNMENT) ∧
        (r.2 = 0 → r.1 = Explicit.fresh)) ∧
    (Heap.isAllocated Implicit.fresh.mem Implicit.fresh.start_hdr = false ∧
      Implicit.roundup 0 Heap.ALIGNMENT
        ≤ Heap.load64 Implicit.fresh.mem Implicit.fresh.start_hdr ∧
      ∃ s2, Implicit.mymalloc (0 + 1) Implicit.fresh 0
          = some (s2, Implicit.fresh.start_hdr + 8) ∧
        Implicit.fresh.start_hdr + 8 ≠ 0) :=
  ⟨⟨⟨rfl, by decide, by show Heap.load64 Explicit.fresh.mem 4104 = 0; decide⟩, by decide,
      (request_not_validated 0).1 Explicit.fresh [4104] 2
        ⟨rfl, by decide, by show Heap.load64 Explicit.fresh.mem 4104 = 0; decide⟩ (by decide)⟩,
    ⟨by decide, by decide,
      (request_not_validated 0).2.1 Implicit.fresh 0 (by decide) (by decide)⟩⟩

namespace Heap

theorem hdrSize_getSize (m : Mem) (a : Nat) : getSize m a = hdrSize (load64 m a) := by
  rw [getSize_eq]; rfl

theorem nextBlock_hdrSize (m : Mem) (a : Nat) : nextBlock m a = a + 8 + hdrSize (load64 m a) := by
  rw [nextBlock_eq]; rfl

/-- The blocks end where their sizes say. -/
theorem blocks_total (m : Mem) (e : Nat) (bs : List (Nat × Nat)) :
    ∀ a, Blocks m e a bs → a + total bs = e := by
  induction bs with
  | nil => intro a h; simpa [Blocks, total] using h
  | cons b t ih =>
    intro a h
    obtain ⟨_, _, h3⟩ := h
    have := ih _ h3
    simp only [total]
    omega

theorem usage_le_total (bs : List (Nat × Nat)) : usage bs ≤ total bs := by
  induction bs with
  | nil => simp [usage, total]
  | cons b t ih =>
    simp only [usage, total]
    split <;> omega

theorem total_append (xs ys : List (Nat × Nat)) : total (xs ++ ys) = total xs + total ys := by
  induction xs with
  | nil => simp [total]
  | cons b t ih =>
    rw [List.cons_append]
    simp only [total]
    rw [ih]; omega

theorem usage_append (xs ys : List (Nat × Nat)) : usage (xs ++ ys) = usage xs + usage ys := by
  induction xs with
  | nil => simp [usage]
  | cons b t ih =>
    rw [List.cons_append]
    simp only [usage]
    rw [ih]; omega

/-- Splitting a run of blocks at an inner address. -/
theorem blocks_append (m : Mem) (e : Nat) (xs ys : List (Nat × Nat)) :
    ∀ a, Blocks m e a (xs ++ ys) ↔ ∃ mid, Blocks m mid a xs ∧ Blocks m e mid ys := by
  induction xs with
  | nil =>
    intro a
    constructor
    · intro h; exact ⟨a, rfl, h⟩
    · rintro ⟨mid, h1, h2⟩
      have : a = mid := h1
      subst this
      exact h2
  | cons b t ih =>
    intro a
    constructor
    · intro h
      obtain ⟨h1, h2, h3⟩ := h
      obtain ⟨mid, g1, g2⟩ := (ih _).1 h3
      exact ⟨mid, ⟨h1, h2, g1⟩, g2⟩
    · rintro ⟨mid, ⟨h1, h2, h3⟩, g2⟩
      exact ⟨h1, h2, (ih _).2 ⟨mid, h3, g2⟩⟩

/-- A run of blocks depends only on the bytes between its start and its end. -/
theorem blocks_frame (m m2 : Mem) (e : Nat) (bs : List (Nat × Nat)) :
    ∀ a, Blocks m e a bs → (∀ x, a ≤ x → x < e → m2 x = m x) → Blocks m2 e a bs := by
  induction bs with
  | nil => intro a h _; exact h
  | cons b t ih =>
    intro a h hm
    have htot := blocks_total m e _ a h
    obtain ⟨h1, h2, h3⟩ := h
    simp only [total] at htot
    refine ⟨h1, ?_, ih _ h3 (fun x hx1 hx2 => hm x (by omega) hx2)⟩
    rw [← h2]
    apply load64_congr
    intro x hx1 hx2
    exact hm x hx1 (by omega)

/-- The header word recorded for a block is the word in memory. -/
theorem blocks_load (m : Mem) (e a : Nat) (pre post : List (Nat × Nat)) (b : Nat × Nat)
    (h : Blocks m e a (pre ++ b :: post)) :
    load64 m b.1 = b.2 ∧ a + total pre = b.1 ∧ b.1 + 8 + hdrSize b.2 + total post = e := by
  obtain ⟨mid, h1, h2⟩ := (blocks_append m e pre (b :: post) a).1 h
  have t1 := blocks_total m mid pre a h1
  obtain ⟨g1, g2, g3⟩ := h2
  have t2 := blocks_total m e post _ g3
  subst g1
  exact ⟨g2, t1, t2⟩

/-- Replacing one block by blocks that span the same bytes, in a memory that differs
only inside that block. -/
theorem blocks_replace (m m2 : Mem) (e a : Nat) (pre post new : List (Nat × Nat))
    (b : Nat × Nat) (h : Blocks m e a (pre ++ b :: post))
    (hlow : ∀ x, x < b.1 → m2 x = m x)
    (hhigh : ∀ x, b.1 + 8 + hdrSize b.2 ≤ x → m2 x = m x)
    (hnew : Blocks m2 (b.1 + 8 + hdrSize b.2) b.1 new) :
    Blocks m2 e a (pre ++ new ++ post) := by
  obtain ⟨mid, h1, h2⟩ := (blocks_append m e pre (b :: post) a).1 h
  obtain ⟨g1, g2, g3⟩ := h2
  subst g1
  rw [List.append_assoc]
  refine (blocks_append m2 e pre (new ++ post) a).2 ⟨b.1, ?_, ?_⟩
  · exact blocks_frame m m2 b.1 pre a h1 (fun x _ hx => hlow x hx)
  · refine (blocks_append m2 e new post b.1).2 ⟨_, hnew, ?_⟩
    exact blocks_frame m m2 e post _ g3 (fun x hx _ => hhigh x hx)

/-- The walk of `validate_heap` visits exactly the blocks. -/
theorem blocks_walk (m : Mem) (e : Nat) (bs : List (Nat × Nat)) :
    ∀ a fuel, Blocks m e a bs → bs.length < fuel →
      blockWalk m e fuel a = some (bs.map Prod.fst) := by
  induction bs with
  | nil =>
    intro a fuel h hf
    obtain ⟨f, rfl⟩ : ∃ f, fuel = f + 1 := ⟨fuel - 1, by omega⟩
    have : a = e := h
    rw [blockWalk_succ, if_pos this]
    rfl
  | cons b t ih =>
    intro a fuel h hf
    obtain ⟨f, rfl⟩ : ∃ f, fuel = f + 1 := ⟨fuel - 1, by omega⟩
    have htot := blocks_total m e _ a h
    simp only [total] at htot
    obtain ⟨h1, h2, h3⟩ := h
    rw [blockWalk_succ, if_neg (by omega), nextBlock_hdrSize, h2,
      ih _ f h3 (by simp at hf; omega)]
    simp [h1]

/-- What the walk returns is a run of blocks. -/
theorem walk_blocks (m : Mem) (e : Nat) :
    ∀ fuel a l, blockWalk m e fuel a = some l →
      Blocks m e a (l.map (fun x => (x, load64 m x))) := by
  intro fuel
  induction fuel with
  | zero => intro a l h; simp [blockWalk] at h
  | succ f ih =>
    intro a l h
    rw [blockWalk_succ] at h
    by_cases c : a = e
    · rw [if_pos c] at h
      injection h with h
      subst h
      exact c
    · rw [if_neg c] at h
      cases hw : blockWalk m e f (nextBlock m a) with
      | none => rw [hw] at h; simp at h
      | some t =>
        rw [hw] at h
        simp only [Option.map_some'] at h
        injection h with h
        subst h
        refine ⟨rfl, rfl, ?_⟩
        have := ih _ _ hw
        rw [nextBlock_hdrSize] at this
        exact this

/-- Two runs of blocks from the same start to the same end are equal. -/
theorem blocks_unique (m : Mem) (e : Nat) (bs : List (Nat × Nat)) :
    ∀ a cs, Blocks m e a bs → Blocks m e a cs → bs = cs := by
  induction bs with
  | nil =>
    intro a cs h1 h2
    cases cs with
    | nil => rfl
    | cons c t =>
      have := blocks_total m e _ a h2
      simp only [total] at this
      have : a = e := h1
      omega
  | cons b t ih =>
    intro a cs h1 h2
    cases cs with
    | nil =>
      have := blocks_total m e _ a h1
      simp only [total] at this
      have : a = e := h2
      omega
    | cons c u =>
      obtain ⟨a1, a2, a3⟩ := h1
      obtain ⟨b1, b2, b3⟩ := h2
      have hb : b = c := Prod.ext (by rw [a1, b1]) (by rw [← a2, ← b2])
      subst hb
      rw [ih _ u a3 b3]

/-- On a run of blocks the measure of the spec is `usage`. -/
theorem blocks_measured (m : Mem) (e : Nat) (bs : List (Nat × Nat)) :
    ∀ a, Blocks m e a bs → measured m (bs.map Prod.fst) = usage bs := by
  induction bs with
  | nil => intro a _; simp [measured, usage]
  | cons b t ih =>
    intro a h
    obtain ⟨h1, h2, h3⟩ := h
    have := ih _ h3
    unfold measured at this ⊢
    simp only [List.map_cons, List.length_cons, usage, List.filter_cons]
    rw [h1, isAllocated_eq, h2]
    by_cases c : b.2 % 2 = 1
    · simp only [c, decide_True, if_true, List.map_cons, List.sum_cons]
      rw [hdrSize_getSize, h2]
      omega
    · simp only [c, decide_False, if_false]
      simp only [Bool.false_eq_true, if_false]
      omega

end Heap

namespace Heap

theorem subW_of_le (a b : Nat) (h : b ≤ a) (ha : a < WORD) : subW a b = a - b := by
  unfold subW
  unfold WORD at *
  rw [Nat.mod_eq_of_lt ha, Nat.mod_eq_of_lt (lt_of_le_of_lt h ha)]
  omega

theorem addW_of_lt (a b : Nat) (h : a + b < WORD) : addW a b = a + b :=
  Nat.mod_eq_of_lt h

/-- Memory after the exact-fit branch of `mymalloc`, or after `statusAllocated` on a
free header in general. -/
theorem statusAllocated_even (m : Mem) (ptr : Nat) (h : load64 m ptr % 2 = 0) :
    load64 (statusAllocated m ptr) ptr = load64 m ptr + 1 ∧
      ∀ x, (x < ptr ∨ ptr + 8 ≤ x) → statusAllocated m ptr x = m x := by
  have hlt := load64_lt m ptr
  rw [statusAllocated_eq]
  constructor
  · rw [load64_store64_small]
    · omega
    · unfold WORD at *; omega
  · intro x hx
    exact store64_out m ptr _ x hx

/-- Memory after `statusFree` on a header with its status bit set. -/
theorem statusFree_odd (m : Mem) (ptr : Nat) (h : load64 m ptr % 2 = 1) :
    load64 (statusFree m ptr) ptr = load64 m ptr - 1 ∧
      ∀ x, (x < ptr ∨ ptr + 8 ≤ x) → statusFree m ptr x = m x := by
  have hlt := load64_lt m ptr
  rw [statusFree_eq]
  constructor
  · rw [load64_store64_small]
    · omega
    · omega
  · intro x hx
    exact store64_out m ptr _ x hx

/-- Memory after the split branch of `mymalloc`: the header at `ptr` holds the rounded
size with the status bit, a free header for the rest follows the new payload, and
nothing outside the old block has changed. -/
theorem split_memory (m : Mem) (ptr actual : Nat) (h8 : actual % 8 = 0)
    (hfit : actual + 8 ≤ getSize m ptr) (m2 m4 : Mem) (split : Nat)
    (e2 : m2 = statusAllocated (store64 m ptr actual) ptr)
    (es : split = nextBlock m2 ptr)
    (e4 : m4 = statusFree
      (store64 m2 split (subW (subW (getSize m ptr) actual) ALIGNMENT)) split) :
    split = ptr + 8 + actual ∧
    load64 m4 ptr = actual + 1 ∧
    load64 m4 split = hdrSize (load64 m ptr) - actual - 8 ∧
    ∀ x, (x < ptr ∨ ptr + 8 + hdrSize (load64 m ptr) ≤ x) → m4 x = m x := by
  have hlt := load64_lt m ptr
  rw [hdrSize_getSize] at hfit
  have hsz : hdrSize (load64 m ptr) ≤ load64 m ptr := Nat.sub_le _ _
  have hsz8 : hdrSize (load64 m ptr) % 8 = 0 := by unfold hdrSize; omega
  have hact : actual < WORD := by omega
  have hm1 : load64 (store64 m ptr actual) ptr = actual := load64_store64_small _ _ _ hact
  have ev : actual - actual % 2 + 1 = actual + 1 := by omega
  have hm2 : m2 = store64 (store64 m ptr actual) ptr (actual + 1) := by
    rw [e2, statusAllocated_eq, hm1, ev]
  have hl2 : load64 m2 ptr = actual + 1 := by
    rw [hm2, load64_store64_small]
    omega
  have hsplit : split = ptr + 8 + actual := by
    rw [es, nextBlock_hdrSize, hl2]
    unfold hdrSize
    omega
  have hw : subW (subW (getSize m ptr) actual) ALIGNMENT = hdrSize (load64 m ptr) - actual - 8 := by
    have s1 : subW (hdrSize (load64 m ptr)) actual = hdrSize (load64 m ptr) - actual :=
      subW_of_le _ _ (by omega) (by omega)
    rw [hdrSize_getSize, s1]
    unfold ALIGNMENT
    exact subW_of_le _ _ (by omega) (by omega)
  generalize hwv : hdrSize (load64 m ptr) - actual - 8 = w at *
  have hwlt : w < WORD := by omega
  have hl3 : load64 (store64 m2 split w) split = w := load64_store64_small _ _ _ hwlt
  have ew : w - w % 2 = w := by omega
  have hm4 : m4 = store64 (store64 m2 split w) split w := by
    rw [e4, hw, statusFree_eq, hl3, ew]
  refine ⟨hsplit, ?_, ?_, ?_⟩
  · rw [hm4, load64_store64_disj _ _ _ _ (by omega), load64_store64_disj _ _ _ _ (by omega), hl2]
  · rw [hm4, load64_store64_small _ _ _ hwlt]
  · intro x hx
    rw [hm4, store64_out _ _ _ _ (by omega), store64_out _ _ _ _ (by omega), hm2,
      store64_out _ _ _ _ (by omega), store64_out _ _ _ _ (by omega)]

end Heap

namespace Implicit
open Heap

/-- The scan of `mymalloc` only moves forward. -/
theorem scan_ge (m : Mem) (actual : Nat) :
    ∀ (fuel ptr p : Nat), scan m actual fuel ptr = some p → ptr ≤ p := by
  intro fuel
  induction fuel with
  | zero => intro ptr p h; simp [scan] at h
  | succ f ih =>
    intro ptr p h
    rw [scan_succ] at h
    by_cases c : (isAllocated m ptr || decide (actual > load64 m ptr)) = true
    · rw [if_pos c] at h
      have := ih _ _ h
      rw [nextBlock_hdrSize] at this
      omega
    · rw [if_neg c] at h
      injection h with h
      omega

/-- A scan that stops before the end of a run of blocks stops at one of its headers. -/
theorem scan_blocks (m : Mem) (actual e : Nat) :
    ∀ (fuel a p : Nat) (bs : List (Nat × Nat)), Blocks m e a bs →
      scan m actual fuel a = some p → p < e →
      ∃ pre b post, bs = pre ++ b :: post ∧ b.1 = p := by
  intro fuel
  induction fuel with
  | zero => intro a p bs _ h; simp [scan] at h
  | succ f ih =>
    intro a p bs hb h hp
    cases bs with
    | nil =>
      have hae : a = e := hb
      have := scan_ge m actual _ _ _ h
      omega
    | cons b t =>
      obtain ⟨h1, h2, h3⟩ := hb
      rw [scan_succ] at h
      by_cases c : (isAllocated m a || decide (actual > load64 m a)) = true
      · rw [if_pos c, nextBlock_hdrSize, h2] at h
        obtain ⟨pre, b2, post, e1, e2⟩ := ih _ _ t h3 h hp
        exact ⟨b :: pre, b2, post, by rw [e1]; rfl, e2⟩
      · rw [if_neg c] at h
        injection h with h
        exact ⟨[], b, t, rfl, by rw [h1, h]⟩

end Implicit

namespace Heap

theorem accessHeader_accessPayload (x : Nat) : accessHeader (accessPayload x) = x := by
  unfold accessHeader accessPayload ALIGNMENT
  omega

theorem not_allocated_even (m : Mem) (a : Nat) (h : isAllocated m a = false) :
    load64 m a % 2 = 0 := by
  rw [isAllocated_eq] at h
  simp at h
  omega

theorem allocated_odd (m : Mem) (a : Nat) (h : isAllocated m a = true) :
    load64 m a % 2 = 1 := by
  rw [isAllocated_eq] at h
  simpa using h

theorem usage_mid_even (pre post : List (Nat × Nat)) (a h : Nat) (he : h % 2 = 0) :
    usage (pre ++ (a, h) :: post) = usage pre + 8 + usage post := by
  rw [usage_append]
  simp only [usage]
  rw [if_neg (by omega)]
  omega

theorem usage_mid_odd (pre post : List (Nat × Nat)) (a h : Nat) (ho : h % 2 = 1) :
    usage (pre ++ (a, h) :: post) = usage pre + 8 + hdrSize h + usage post := by
  rw [usage_append]
  simp only [usage]
  rw [if_pos ho]
  omega

theorem total_mid (pre post : List (Nat × Nat)) (a h : Nat) :
    total (pre ++ (a, h) :: post) = total pre + 8 + hdrSize h + total post := by
  rw [total_append]
  simp only [total]
  omega

end Heap

namespace Implicit
open Heap

/-- What a successful `mymalloc` of the implicit variant does to a run of blocks: it
picks a free block, and replaces it by a used block of the rounded size, followed by
a free block for the rest when it splits; `nused` follows. -/
theorem malloc_blocks (s s1 : State) (fuel req p e : Nat) (bs : List (Nat × Nat))
    (hb : Blocks s.mem e s.start_hdr bs) (hN : total bs < WORD) (hu : s.nused = usage bs)
    (hm : mymalloc fuel s req = some (s1, p)) (hp : accessHeader p < e) :
    ∃ pre h post v post1,
      bs = pre ++ (accessHeader p, h) :: post ∧ h % 2 = 0 ∧ v % 2 = 1 ∧
      hdrSize v = roundup req ALIGNMENT ∧ p = accessHeader p + 8 ∧
      Blocks s1.mem e s.start_hdr (pre ++ (accessHeader p, v) :: post1) ∧
      (∀ b ∈ post, b ∈ post1) ∧
      s1.nused = usage (pre ++ (accessHeader p, v) :: post1) ∧
      total (pre ++ (accessHeader p, v) :: post1) = total bs ∧
      s1.segment_start = s.segment_start ∧ s1.segment_size = s.segment_size ∧
      s1.segment_end = s.segment_end ∧ s1.start_hdr = s.start_hdr := by
  cases hs : scan s.mem (roundup req ALIGNMENT) fuel s.start_hdr with
  | none => unfold mymalloc at hm; simp [hs] at hm
  | some ptr =>
    rw [mymalloc_of_scan fuel s req ptr hs] at hm
    obtain ⟨hfree, hge⟩ := scan_exit _ _ _ _ _ hs
    have heven := not_allocated_even _ _ hfree
    have h8 := roundup_impl_mod8 req
    have hlt := load64_lt s.mem ptr
    rcases fit_or_split s.mem ptr req hge with c | ⟨c1, c2, c3⟩
    · -- exact fit
      rw [if_pos c] at hm
      obtain ⟨rfl, rfl⟩ := Prod.mk.inj (Option.some.inj hm)
      rw [accessHeader_accessPayload] at hp ⊢
      obtain ⟨pre, b, post, ebs, eb⟩ := scan_blocks _ _ e _ _ _ bs hb hs hp
      subst ebs
      obtain ⟨hl, _, _⟩ := blocks_load _ _ _ _ _ _ hb
      obtain ⟨bp, bh⟩ := b
      simp only at eb hl
      subst eb
      rw [hl] at heven hge hlt
      rw [hdrSize_getSize, hl] at c
      obtain ⟨g1, g2⟩ := statusAllocated_even s.mem bp (by rw [hl]; exact heven)
      rw [hl] at g1
      have hsz : hdrSize (bh + 1) = hdrSize bh := by unfold hdrSize; omega
      have hnew : Blocks (statusAllocated s.mem bp) e s.start_hdr
          (pre ++ [(bp, bh + 1)] ++ post) := by
        apply blocks_replace s.mem _ e s.start_hdr pre post [(bp, bh + 1)] (bp, bh) hb
        · intro x hx; exact g2 x (Or.inl hx)
        · intro x hx; exact g2 x (Or.inr (by simp only at hx; omega))
        · exact ⟨rfl, g1, by simp only [hsz]; rfl⟩
      have hnew2 : Blocks (statusAllocated s.mem bp) e s.start_hdr
          (pre ++ (bp, bh + 1) :: post) := by
        simpa using hnew
      have htot : total (pre ++ (bp, bh + 1) :: post) = total (pre ++ (bp, bh) :: post) := by
        rw [total_mid, total_mid, hsz]
      refine ⟨pre, bh, post, bh + 1, post, rfl, heven, by omega, by rw [hsz]; exact c,
        rfl, hnew2, fun b hb => hb, ?_, htot, rfl, rfl, rfl, rfl⟩
      show addW s.nused (roundup req ALIGNMENT) = _
      have hle := usage_le_total (pre ++ (bp, bh + 1) :: post)
      rw [htot] at hle
      rw [usage_mid_odd _ _ _ _ (by omega), hsz, c] at hle ⊢
      rw [hu, usage_mid_even _ _ _ _ heven, addW_of_lt _ _ (by omega)]
      omega
    · -- split
      rw [if_neg c1, if_pos (by rw [c3]; exact c2)] at hm
      obtain ⟨rfl, rfl⟩ := Prod.mk.inj (Option.some.inj hm)
      rw [accessHeader_accessPayload] at hp ⊢
      obtain ⟨pre, b, post, ebs, eb⟩ := scan_blocks _ _ e _ _ _ bs hb hs hp
      subst ebs
      obtain ⟨hl, _, _⟩ := blocks_load _ _ _ _ _ _ hb
      obtain ⟨bp, bh⟩ := b
      simp only at eb hl
      subst eb
      obtain ⟨k1, k2, k3, k4⟩ := split_memory s.mem bp (roundup req ALIGNMENT) h8 c2 _ _ _
        rfl rfl rfl
      rw [hl] at heven hge hlt k3 k4
      rw [hdrSize_getSize, hl] at c1 c2
      generalize hact : roundup req ALIGNMENT = actual at *
      have hszb : hdrSize bh ≤ bh := Nat.sub_le _ _
      have hszb8 : hdrSize bh % 8 = 0 := by unfold hdrSize; omega
      have hsz1 : hdrSize (actual + 1) = actual := by unfold hdrSize; omega
      have hsz2 : hdrSize (hdrSize bh - actual - 8) = hdrSize bh - actual - 8 := by
        unfold hdrSize; omega
      generalize hm4 : statusFree _ _ = m4 at k2 k3 k4 ⊢
      generalize hsp : nextBlock _ _ = split at k1 k3 hm4
      subst k1
      have hnew : Blocks m4 e s.start_hdr
          (pre ++ [(bp, actual + 1), (bp + 8 + actual, hdrSize bh - actual - 8)] ++ post) := by
        apply blocks_replace s.mem _ e s.start_hdr pre post _ (bp, bh) hb
        · intro x hx; exact k4 x (Or.inl hx)
        · intro x hx; exact k4 x (Or.inr hx)
        · show bp = bp ∧ load64 m4 bp = actual + 1 ∧
            (bp + 8 + actual = bp + 8 + hdrSize (actual + 1) ∧
              load64 m4 (bp + 8 + hdrSize (actual + 1)) = hdrSize bh - actual - 8 ∧
              bp + 8 + hdrSize (actual + 1) + 8 + hdrSize (hdrSize bh - actual - 8)
                = bp + 8 + hdrSize bh)
          rw [hsz1, hsz2]
          exact ⟨rfl, k2, rfl, k3, by omega⟩
      have hnew2 : Blocks m4 e s.start_hdr
          (pre ++ (bp, actual + 1) :: (bp + 8 + actual, hdrSize bh - actual - 8) :: post) := by
        simpa using hnew
      have htot : total (pre ++ (bp, actual + 1) ::
          (bp + 8 + actual, hdrSize bh - actual - 8) :: post) = total (pre ++ (bp, bh) :: post) := by
        rw [total_mid, total_mid]
        simp only [total]
        rw [hsz1, hsz2]
        omega
      refine ⟨pre, bh, post, actual + 1, (bp + 8 + actual, hdrSize bh - actual - 8) :: post,
        rfl, heven, by omega, hsz1, rfl, hnew2, fun b hb => List.mem_cons_of_mem _ hb, ?_, htot,
        rfl, rfl, rfl, rfl⟩
      show addW s.nused (addW actual ALIGNMENT) = _
      have hle := usage_le_total (pre ++ (bp, actual + 1) ::
          (bp + 8 + actual, hdrSize bh - actual - 8) :: post)
      rw [htot] at hle
      rw [usage_mid_odd _ _ _ _ (by omega), hsz1] at hle ⊢
      simp only [usage] at hle ⊢
      rw [if_neg (by omega)] at hle ⊢
      rw [hu, usage_mid_even _ _ _ _ heven, c3, addW_of_lt _ _ (by omega)]
      omega

end Implicit

namespace Heap

theorem memcpy_out (m : Mem) (dst src n x : Nat) (h : x < dst ∨ dst + n ≤ x) :
    memcpy m dst src n x = m x := by
  unfold memcpy
  rw [if_neg]
  omega

/-- Copying into the payload of a block leaves the run of blocks as it is. -/
theorem blocks_memcpy (m : Mem) (e a : Nat) (pre post : List (Nat × Nat)) (q v src n : Nat)
    (hb : Blocks m e a (pre ++ (q, v) :: post)) (hn : n ≤ hdrSize v) :
    Blocks (memcpy m (q + 8) src n) e a (pre ++ (q, v) :: post) := by
  obtain ⟨hl, _, _⟩ := blocks_load _ _ _ _ _ _ hb
  simp only at hl
  have := blocks_replace m (memcpy m (q + 8) src n) e a pre post [(q, v)] (q, v) hb
    (fun x hx => memcpy_out _ _ _ _ _ (Or.inl (by simp only at hx; omega)))
    (fun x hx => memcpy_out _ _ _ _ _ (Or.inr (by simp only at hx; omega)))
    ⟨rfl, by
      show load64 (memcpy m (q + 8) src n) q = v
      rw [← hl]
      apply load64_congr
      intro x _ hx2
      exact memcpy_out _ _ _ _ _ (Or.inl hx2), rfl⟩
  simpa using this

/-- What `statusFree` does to a run of blocks, and what the subtraction of `myfree`
does to their `usage`. -/
theorem blocks_free (m : Mem) (e a : Nat) (pre post : List (Nat × Nat)) (p h : Nat)
    (hb : Blocks m e a (pre ++ (p, h) :: post)) (ho : h % 2 = 1)
    (hN : total (pre ++ (p, h) :: post) < WORD) :
    Blocks (statusFree m p) e a (pre ++ (p, h - 1) :: post) ∧
      subW (usage (pre ++ (p, h) :: post)) (getSize m p) = usage (pre ++ (p, h - 1) :: post) := by
  obtain ⟨hl, _, _⟩ := blocks_load _ _ _ _ _ _ hb
  simp only at hl
  obtain ⟨g1, g2⟩ := statusFree_odd m p (by rw [hl]; exact ho)
  rw [hl] at g1
  have hsz : hdrSize (h - 1) = hdrSize h := by unfold hdrSize; omega
  constructor
  · have := blocks_replace m (statusFree m p) e a pre post [(p, h - 1)] (p, h) hb
      (fun x hx => g2 x (Or.inl hx))
      (fun x hx => g2 x (Or.inr (by simp only at hx; omega)))
      ⟨rfl, g1, by simp only [hsz]; rfl⟩
    simpa using this
  · have hle := usage_le_total (pre ++ (p, h) :: post)
    rw [hdrSize_getSize, hl, usage_mid_odd _ _ _ _ ho] at *
    rw [usage_mid_even _ _ _ _ (by omega), subW_of_le _ _ (by omega) (by omega)]
    omega

end Heap

namespace Implicit
open Heap

theorem checkLoop_succ (m : Mem) (e fuel ptr acc : Nat) :
    checkLoop m e (fuel + 1) ptr acc =
      if ptr = e then some acc
      else if !isAllocated m ptr then
        checkLoop m e fuel (nextBlock m ptr) (addW acc ALIGNMENT)
      else
        checkLoop m e fuel (nextBlock m ptr) (addW acc (addW (getSize m ptr) ALIGNMENT)) := by
  rw [checkLoop]

/-- On a run of blocks the loop of `validate_heap` adds up their `usage`. -/
theorem checkLoop_blocks (m : Mem) (e : Nat) (bs : List (Nat × Nat)) :
    ∀ a acc fuel, Blocks m e a bs → acc + usage bs < WORD → bs.length < fuel →
      checkLoop m e fuel a acc = some (acc + usage bs) := by
  induction bs with
  | nil =>
    intro a acc fuel h _ hf
    obtain ⟨f, rfl⟩ : ∃ f, fuel = f + 1 := ⟨fuel - 1, by omega⟩
    have : a = e := h
    rw [checkLoop_succ, if_pos this]
    rfl
  | cons b t ih =>
    intro a acc fuel h hacc hf
    obtain ⟨f, rfl⟩ : ∃ f, fuel = f + 1 := ⟨fuel - 1, by omega⟩
    have htot := blocks_total m e _ a h
    simp only [total] at htot
    obtain ⟨h1, h2, h3⟩ := h
    simp only [usage] at hacc ⊢
    rw [checkLoop_succ, if_neg (by omega), nextBlock_hdrSize, h2, isAllocated_eq, h2,
      hdrSize_getSize, h2]
    have hf2 : t.length < f := by simp at hf; omega
    by_cases c : b.2 % 2 = 1
    · rw [if_pos c] at hacc ⊢
      simp only [c, decide_True, Bool.not_true, Bool.false_eq_true, if_false]
      have e1 : addW acc (addW (hdrSize b.2) ALIGNMENT) = acc + (8 + hdrSize b.2) := by
        unfold ALIGNMENT
        rw [addW_of_lt (hdrSize b.2) 8 (by omega), addW_of_lt _ _ (by omega)]
        omega
      rw [e1, ih _ _ f h3 (by omega) hf2]
      congr 1
      omega
    · rw [if_neg c] at hacc ⊢
      simp only [c, decide_False, Bool.not_false, if_true]
      have e1 : addW acc ALIGNMENT = acc + 8 := by
        unfold ALIGNMENT
        rw [addW_of_lt _ _ (by omega)]
      rw [e1, ih _ _ f h3 (by omega) hf2]
      congr 1
      omega

/-- A currently allocated payload is the payload of a block of the run, with its
status bit set. -/
theorem allocated_block (s : State) (p e : Nat) (bs : List (Nat × Nat))
    (he : s.segment_end = e) (hb : Blocks s.mem e s.segment_start bs) (ha : Allocated s p) :
    ∃ pre h post, bs = pre ++ (accessHeader p, h) :: post ∧ h % 2 = 1 ∧
      p = accessHeader p + 8 := by
  obtain ⟨fuel, l, hw, hmem, hp, hal⟩ := ha
  rw [he] at hw
  have hb2 := walk_blocks _ _ _ _ _ hw
  have hbs := blocks_unique _ _ _ _ _ hb hb2
  have : (accessHeader p, load64 s.mem (accessHeader p)) ∈ bs := by
    rw [hbs]
    exact List.mem_map.2 ⟨_, hmem, rfl⟩
  obtain ⟨pre, post, e1⟩ := List.append_of_mem this
  exact ⟨pre, _, post, e1, allocated_odd _ _ hal, hp⟩

theorem myinit_inv (s0 : State) (base N : Nat) (h8 : 8 ≤ N) (hm : N % 8 = 0) (hN : N < WORD) :
    Inv base N (myinit s0 base N).1 := by
  have hsub : subW N ALIGNMENT = N - 8 := by
    unfold ALIGNMENT
    exact subW_of_le _ _ h8 hN
  have hi : myinit s0 base N =
      ({ mem := store64 s0.mem base (N - 8), segment_start := base, segment_size := N,
         segment_end := base + N, nused := addW 0 ALIGNMENT, start_hdr := base }, true) := by
    unfold myinit
    rw [if_neg (by unfold ALIGNMENT; omega), hsub]
  rw [hi]
  refine ⟨rfl, rfl, rfl, rfl, [(base, N - 8)], ?_, ?_⟩
  · refine ⟨rfl, load64_store64_small _ _ _ (by omega), ?_⟩
    show base + 8 + hdrSize (N - 8) = base + N
    unfold hdrSize
    omega
  · show addW 0 ALIGNMENT = usage [(base, N - 8)]
    simp only [usage]
    rw [if_neg (by omega)]
    rfl

theorem myfree_inv (base N : Nat) (s : State) (p : Nat) (hN : N < WORD) (hi : Inv base N s)
    (hp : p = 0 ∨ Allocated s p) : Inv base N (myfree s p) := by
  by_cases h0 : p = 0
  · unfold myfree; rw [if_pos h0]; exact hi
  · have ha : Allocated s p := hp.resolve_left h0
    obtain ⟨i1, i2, i3, i4, bs, hb, hu⟩ := hi
    have hb1 : Blocks s.mem (base + N) s.segment_start bs := by rw [i1]; exact hb
    obtain ⟨pre, h, post, e1, ho, _⟩ := allocated_block s p _ bs i3 hb1 ha
    subst e1
    have htot := blocks_total _ _ _ _ hb
    obtain ⟨f1, f2⟩ := blocks_free _ _ _ _ _ _ _ hb ho (by omega)
    unfold myfree
    rw [if_neg h0]
    exact ⟨i1, i2, i3, i4, _, f1, by show subW s.nused _ = _; rw [hu]; exact f2⟩

theorem mymalloc_inv (base N : Nat) (s s1 : State) (fuel req p : Nat) (hN : N < WORD)
    (hi : Inv base N s) (hm : mymalloc fuel s req = some (s1, p))
    (hp : accessHeader p < s.segment_end) : Inv base N s1 := by
  obtain ⟨i1, i2, i3, i4, bs, hb, hu⟩ := hi
  have htot := blocks_total _ _ _ _ hb
  have hb2 : Blocks s.mem (base + N) s.start_hdr bs := by rw [i2]; exact hb
  rw [i3] at hp
  obtain ⟨pre, h, post, v, post1, _, _, _, _, _, k6, _, k8, _, k10, k11, k12, k13⟩ :=
    malloc_blocks s s1 fuel req p _ bs hb2 (by omega) hu hm hp
  refine ⟨by rw [k10, i1], by rw [k13, i2], by rw [k12, i3], by rw [k11, i4], _, ?_, k8⟩
  rw [i2] at k6
  exact k6

theorem myrealloc_inv (base N : Nat) (s s1 : State) (fuel p n q : Nat) (hN : N < WORD)
    (hi : Inv base N s) (hp : p = 0 ∨ Allocated s p) (hn : n + 7 < WORD)
    (hm : myrealloc fuel s p n = some (s1, q))
    (hq : accessHeader q < s.segment_end) : Inv base N s1 := by
  unfold myrealloc at hm
  by_cases h0 : p = 0
  · rw [if_pos h0] at hm
    exact mymalloc_inv base N s s1 fuel n q hN hi hm hq
  · rw [if_neg h0] at hm
    by_cases hle : n ≤ getSize s.mem (accessHeader p)
    · simp only [if_pos hle] at hm
      obtain ⟨rfl, _⟩ := Prod.mk.inj (Option.some.inj hm)
      exact hi
    · simp only [if_neg hle] at hm
      have ha : Allocated s p := hp.resolve_left h0
      obtain ⟨i1, i2, i3, i4, bs, hb, hu⟩ := hi
      have htot := blocks_total _ _ _ _ hb
      have hb1 : Blocks s.mem (base + N) s.segment_start bs := by rw [i1]; exact hb
      obtain ⟨ppre, ph, ppost, pe, pho, _⟩ := allocated_block s p _ bs i3 hb1 ha
      have hpl : load64 s.mem (accessHeader p) = ph := by
        rw [pe] at hb
        exact (blocks_load _ _ _ _ _ _ hb).1
      cases hmm : mymalloc fuel s n with
      | none => rw [hmm] at hm; simp at hm
      | some r =>
        obtain ⟨s2, q2⟩ := r
        rw [hmm] at hm
        simp only at hm
        obtain ⟨rfl, rfl⟩ := Prod.mk.inj (Option.some.inj hm)
        have hb2 : Blocks s.mem (base + N) s.start_hdr bs := by rw [i2]; exact hb
        rw [i3] at hq
        obtain ⟨pre, h, post, v, post1, k1, k2, k3, k4, k5, k6, k7, k8, k9, k10, k11, k12, k13⟩ :=
          malloc_blocks s s2 fuel n q2 _ bs hb2 (by omega) hu hmm hq
        rw [i2] at k6
        -- the old block is still a block after the allocation
        have hin : (accessHeader p, ph) ∈ pre ++ (accessHeader q2, v) :: post1 := by
          have : (accessHeader p, ph) ∈ bs := by rw [pe]; simp
          rw [k1] at this
          rcases List.mem_append.1 this with c | c
          · exact List.mem_append.2 (Or.inl c)
          · rcases List.mem_cons.1 c with c | c
            · have := (Prod.mk.inj c).2
              omega
            · exact List.mem_append.2 (Or.inr (List.mem_cons_of_mem _ (k7 _ c)))
        -- the copy stays inside the new payload
        have hsize : getSize s.mem (accessHeader p) ≤ hdrSize v := by
          rw [k4, roundup_impl_eq, Nat.mod_eq_of_lt hn]
          omega
        have hcp := blocks_memcpy s2.mem (base + N) base pre post1 (accessHeader q2) v p
          (getSize s.mem (accessHeader p)) k6 hsize
        rw [← k5] at hcp
        obtain ⟨pre2, post2, e2⟩ := List.append_of_mem hin
        rw [e2] at hcp k8 k9
        obtain ⟨f1, f2⟩ := blocks_free _ _ _ _ _ _ _ hcp pho (by omega)
        unfold myfree
        rw [if_neg h0]
        exact ⟨by show s2.segment_start = base; rw [k10, i1],
          by show s2.start_hdr = base; rw [k13, i2],
          by show s2.segment_end = base + N; rw [k12, i3],
          by show s2.segment_size = N; rw [k11, i4], _, f1,
          by show subW s2.nused _ = _; rw [k8]; exact f2⟩

/-- Every reached state satisfies the invariant. -/
theorem reach_inv (base N : Nat) (h8 : 8 ≤ N) (hm : N % 8 = 0) (hN : N < WORD) (s : State)
    (hr : Reach base N s) : Inv base N s := by
  induction hr with
  | init s0 => exact myinit_inv s0 base N h8 hm hN
  | malloc s s1 fuel req p _ _ hmal hp ih => exact mymalloc_inv base N s s1 fuel req p hN ih hmal hp
  | free s p _ hp ih => exact myfree_inv base N s p hN ih hp
  | realloc s s1 fuel p n q _ hp hn hre hq ih =>
    exact myrealloc_inv base N s s1 fuel p n q hN ih hp hn hre hq

/-- C10. Implicit accounting: in every state reached from a successful
`myinit(base, N)`, `N` a multiple of 8, by contract-respecting calls that succeed, the
block walk from the base arrives at `segment_end`, `nused` is 8 times the number of
blocks it visits plus the sizes of the allocated ones, and `validate_heap` returns
true (given fuel beyond the number of blocks). -/
theorem implicit_accounting (base N : Nat) (s : State) (h8 : 8 ≤ N) (hm : N % 8 = 0)
    (hN : N < WORD) (hr : Reach base N s) :
    ∃ l, (∀ fuel, l.length < fuel →
        blockWalk s.mem s.segment_end fuel s.segment_start = some l) ∧
      s.nused = 8 * l.length +
        ((l.filter (fun a => isAllocated s.mem a)).map (fun a => getSize s.mem a)).sum ∧
      (∀ fuel, l.length < fuel → validate_heap fuel s = some true) := by
  obtain ⟨i1, i2, i3, i4, bs, hb, hu⟩ := reach_inv base N h8 hm hN s hr
  have htot := blocks_total _ _ _ _ hb
  have hle := usage_le_total bs
  refine ⟨bs.map Prod.fst, ?_, ?_, ?_⟩
  · intro fuel hf
    rw [i1, i3]
    exact blocks_walk _ _ _ _ _ hb (by simpa using hf)
  · have := blocks_measured _ _ _ _ hb
    unfold measured at this
    rw [hu, ← this]
  · intro fuel hf
    unfold validate_heap
    rw [if_neg (by rw [i4, hu]; omega), i1, i3,
      checkLoop_blocks _ _ _ _ 0 fuel hb (by omega) (by simpa using hf)]
    simp [hu]

end Implicit

namespace Implicit
open Heap

/-- Witness of `implicit_accounting`: the state after `myinit(4096, 1024)`,
`p = mymalloc(64)` and `myfree(p)` in zeroed memory. -/
theorem implicit_accounting_witness :
    8 ≤ 1024 ∧ 1024 % 8 = 0 ∧ 1024 < WORD ∧ Reach 4096 1024 (myfree used64 4104) ∧
    ∃ l, (∀ fuel, l.length < fuel →
        blockWalk (myfree used64 4104).mem (myfree used64 4104).segment_end fuel
          (myfree used64 4104).segment_start = some l) ∧
      (myfree used64 4104).nused = 8 * l.length +
        ((l.filter (fun a => isAllocated (myfree used64 4104).mem a)).map
          (fun a => getSize (myfree used64 4104).mem a)).sum ∧
      (∀ fuel, l.length < fuel → validate_heap fuel (myfree used64 4104) = some true) :=
  have hr : Reach 4096 1024 (myfree used64 4104) :=
    Reach.free used64 4104
      (Reach.malloc fresh used64 4 64 4104 (Reach.init boot) (by decide) (by rfl) (by decide))
      (Or.inr ⟨3, [4096, 4168], by rfl, by decide, by decide, by decide⟩)
  ⟨by decide, by decide, by decide, hr,
    implicit_accounting 4096 1024 (myfree used64 4104) (by decide) (by decide) (by decide) hr⟩

end Implicit

/-- C11 fails as stated, for a region size that is no multiple of 8.  In zeroed memory
`myinit(4096, 1025)` returns true and sets `blocks_allocated` to 0, and the header it
writes at the base, 1017, has its status bit set: the first header the walk meets
counts as allocated. -/
theorem explicit_count_odd_size_counterexample :
    (Explicit.myinit Explicit.boot 4096 1025).2 = true ∧
    (Explicit.myinit Explicit.boot 4096 1025).1.blocks_allocated = 0 ∧
    (Explicit.myinit Explicit.boot 4096 1025).1.segment_start = 4096 ∧
    Heap.load64 (Explicit.myinit Explicit.boot 4096 1025).1.mem 4096 = 1017 ∧
    Heap.isAllocated (Explicit.myinit Explicit.boot 4096 1025).1.mem 4096 = true ∧
    Explicit.countLoop (Explicit.myinit Explicit.boot 4096 1025).1.mem
      (Explicit.myinit Explicit.boot 4096 1025).1.segment_end 1 4096 0 ≠ some 0 := by
  decide

/-- C12 fails.  In zeroed memory, after `myinit(4096, 1024)`, `a = mymalloc(16)`,
`b = mymalloc(16)`, `myfree(a)` and `myfree(b)`, the heap is the two blocks at 4096
and 4128 with the headers 24 and 984: both are free, and the second is `nextBlock` of
the first (`myfree(b)` has merged the tail into `b` and has not looked at the block
before `b`). -/
theorem explicit_adjacent_free_counterexample :
    (Explicit.mymalloc 4 Explicit.fresh 16).bind (fun r1 =>
      (Explicit.mymalloc 4 r1.1 16).map (fun r2 =>
        (r1.2, r2.2,
          Heap.blockWalk (Explicit.myfree (Explicit.myfree r2.1 r1.2) r2.2).mem 5120 8 4096,
          Heap.load64 (Explicit.myfree (Explicit.myfree r2.1 r1.2) r2.2).mem 4096,
          Heap.load64 (Explicit.myfree (Explicit.myfree r2.1 r1.2) r2.2).mem 4128,
          Heap.nextBlock (Explicit.myfree (Explicit.myfree r2.1 r1.2) r2.2).mem 4096,
          Heap.isAllocated (Explicit.myfree (Explicit.myfree r2.1 r1.2) r2.2).mem 4096,
          Heap.isAllocated (Explicit.myfree (Explicit.myfree r2.1 r1.2) r2.2).mem 4128)))
      = some (4104, 4136, some [4096, 4128], 24, 984, 4128, false, false) := by
  rfl

/-- C13 fails in the implicit variant.  After `myinit(4096, 1024)` in zeroed memory,
`mymalloc(1)` returns 4104 and the size decoded from the header of that payload is 8,
below 16. -/
theorem implicit_size_floor_counterexample :
    (Implicit.mymalloc 4 Implicit.fresh 1).map (fun r =>
      (r.2, Heap.getSize r.1.mem (Heap.accessHeader r.2),
        decide (max 8 16 ≤ Heap.getSize r.1.mem (Heap.accessHeader r.2))))
      = some (4104, 8, false) := by
  decide

/-- C14 fails in the explicit variant.  The base 4096 is a multiple of 8.  `myinit`
leaves the link words of the first block as the previous user left them, so the
`next` word of the head is 4201.  `mymalloc(2000)` finds the head too small, follows
that word, reads the word 4096 in front of it as a header and returns 4201, which is
no multiple of 8. -/
theorem explicit_unaligned_pointer :
    (Explicit.myinit Explicit.bootDirty 4096 1024).2 = true ∧
    4096 % 8 = 0 ∧
    (Explicit.mymalloc 4 (Explicit.myinit Explicit.bootDirty 4096 1024).1 2000).map
      (fun r => (r.2, r.2 % 8)) = some (4201, 1) := by
  decide

/-- C16 fails.  In zeroed memory, after `myinit(4096, 1024)` and `mymalloc(1000)` the
heap is one allocated block (header 1017), `blocks_allocated` is 1 and the free list is
empty: the state is consistent, and `validate_heap` returns false. -/
theorem explicit_validate_empty_list_counterexample :
    (Explicit.mymalloc 4 Explicit.fresh 1000).map (fun r =>
      (r.2, Heap.blockWalk r.1.mem r.1.segment_end 8 r.1.segment_start,
        Heap.load64 r.1.mem 4096, r.1.blocks_allocated, r.1.linked_start,
        Explicit.validate_heap 8 r.1))
      = some (4104, some [4096], 1017, 1, 0, some false) := by
  rfl

/-- C18 fails.  In zeroed memory, after `myinit(4096, 1024)`, `a = mymalloc(16)`,
`b = mymalloc(16)`, `myfree(a)` and `myfree(b)`, the head of the free list is `b`
(4136), `b.next` is `a` (4104) and `a.next` is `NULL`, not the payload 4168 of the
tail remainder: `myfree(b)` has merged the tail remainder into `b` (header 984 at
4128) and unlinked it. -/
theorem explicit_lifo_counterexample :
    (Explicit.mymalloc 4 Explicit.fresh 16).bind (fun r1 =>
      (Explicit.mymalloc 4 r1.1 16).map (fun r2 =>
        (r1.2, r2.2, r2.1.linked_start,
          (Explicit.myfree (Explicit.myfree r2.1 r1.2) r2.2).linked_start,
          Heap.load64 (Explicit.myfree (Explicit.myfree r2.1 r1.2) r2.2).mem 4136,
          Heap.load64 (Explicit.myfree (Explicit.myfree r2.1 r1.2) r2.2).mem 4104,
          Heap.load64 (Explicit.myfree (Explicit.myfree r2.1 r1.2) r2.2).mem 4128,
          Heap.blockWalk (Explicit.myfree (Explicit.myfree r2.1 r1.2) r2.2).mem 5120 8 4096)))
      = some (4104, 4136, 4168, 4136, 4104, 0, 984, some [4096, 4128]) := by
  rfl

/-- C20 fails when the freed block is the last one.  In zeroed memory, after
`myinit(4096, 1024)` and `p = mymalloc(1000)` the block of `p = 4104` has size 1016 and
`nextBlock` of its header is `segment_end = 5120`.  `myfree(p)` reads the word at 5120,
which is even: the size of the freed block becomes 1024 instead of staying 1016, and
the free list is empty afterwards instead of having `p` as its head. -/
theorem explicit_free_coalesces_past_end :
    (Explicit.mymalloc 4 Explicit.fresh 1000).map (fun r =>
      (r.2, Heap.isAllocated r.1.mem 4096, Heap.getSize r.1.mem 4096,
        Heap.nextBlock r.1.mem 4096, r.1.segment_end, r.1.blocks_allocated,
        Heap.isAllocated (Explicit.myfree r.1 r.2).mem 4096,
        Heap.getSize (Explicit.myfree r.1 r.2).mem 4096,
        (Explicit.myfree r.1 r.2).linked_start,
        (Explicit.myfree r.1 r.2).blocks_allocated))
      = some (4104, true, 1016, 5120, 5120, 1, false, 1024, 0, 0) := by
  rfl

namespace Explicit
open Heap

theorem dlist_freeList (m : Mem) (l : List Nat) :
    ∀ prev p, DList m prev p l → FreeList m p l := by
  induction l with
  | nil => intro prev p h; exact h
  | cons c t ih =>
    intro prev p h
    obtain ⟨h1, h2, _, h4⟩ := h
    exact ⟨h1, h2, ih _ _ h4⟩

/-- A doubly linked list depends only on the link words of its nodes. -/
theorem dlist_frame (m m2 : Mem) (l : List Nat) :
    ∀ prev p, DList m prev p l →
      (∀ c ∈ l, load64 m2 c = load64 m c ∧ load64 m2 (c + 8) = load64 m (c + 8)) →
      DList m2 prev p l := by
  induction l with
  | nil => intro prev p h _; exact h
  | cons c t ih =>
    intro prev p h hm
    obtain ⟨h1, h2, h3, h4⟩ := h
    obtain ⟨g1, g2⟩ := hm c (List.mem_cons_self _ _)
    refine ⟨h1, h2, by rw [g2]; exact h3, ?_⟩
    rw [g1]
    exact ih _ _ h4 (fun d hd => hm d (List.mem_cons_of_mem _ hd))

/-- The nodes of a list are not `NULL` and the pointer words hold `size_t` values. -/
theorem dlist_ne_zero (m : Mem) (l : List Nat) :
    ∀ prev p, DList m prev p l → ∀ c ∈ l, c ≠ 0 := by
  induction l with
  | nil => intro _ _ _ c hc; simp at hc
  | cons d t ih =>
    intro prev p h c hc
    obtain ⟨_, h2, _, h4⟩ := h
    rcases List.mem_cons.1 hc with e | e
    · rw [e]; exact h2
    · exact ih _ _ h4 c e

theorem dlist_head (m : Mem) (l : List Nat) (prev p : Nat) (h : DList m prev p l) :
    p = l.headD 0 := by
  cases l with
  | nil => exact h
  | cons c t => exact h.1

/-- The memory after `linkFree`. -/
theorem linkFree_eq (s : State) (block : Nat) :
    linkFree s block =
      { s with
        mem := if s.linked_start ≠ 0 then
            store64 (store64 (store64 s.mem block s.linked_start) (block + 8) 0)
              (s.linked_start + 8) block
          else store64 (store64 s.mem block s.linked_start) (block + 8) 0
        linked_start := block } := by
  unfold linkFree
  by_cases h : s.linked_start ≠ 0
  · rw [if_pos h, if_pos h]
  · rw [if_neg h, if_neg h]
    have : s.linked_start = 0 := by simpa using h
    rw [this]

/-- The memory and the head after `unlinkFree`, with `before_block` and `after_block`
the two link words of the block. -/
theorem unlinkFree_eq (s : State) (block : Nat) :
    unlinkFree s block =
      { s with
        mem :=
          (fun m1 : Mem => if load64 s.mem block ≠ 0
            then store64 m1 (load64 s.mem block + 8) (load64 s.mem (block + 8)) else m1)
          (if load64 s.mem (block + 8) ≠ 0
            then store64 s.mem (load64 s.mem (block + 8)) (load64 s.mem block) else s.mem)
        linked_start :=
          if load64 s.mem (block + 8) = 0 then load64 s.mem block else s.linked_start } := by
  unfold unlinkFree
  by_cases hb : load64 s.mem (block + 8) = 0 <;> by_cases ha : load64 s.mem block = 0
  · simp [hb, ha]
  · simp [hb, ha]
  · simp [hb, ha]
  · simp [hb, ha]

theorem unlinkFree_fields (s : State) (block : Nat) :
    (unlinkFree s block).segment_start = s.segment_start ∧
    (unlinkFree s block).segment_size = s.segment_size ∧
    (unlinkFree s block).segment_end = s.segment_end ∧
    (unlinkFree s block).start_hdr = s.start_hdr ∧
    (unlinkFree s block).blocks_allocated = s.blocks_allocated ∧
    (unlinkFree s block).linked_start =
      if load64 s.mem (block + 8) = 0 then load64 s.mem block else s.linked_start := by
  rw [unlinkFree_eq]
  dsimp only
  exact ⟨rfl, rfl, rfl, rfl, rfl, rfl⟩

/-- What `unlinkFree` leaves alone: every byte outside the `next` word of
`before_block` and the `previous` word of `after_block`. -/
theorem unlinkFree_frame (s : State) (block x : Nat)
    (h1 : load64 s.mem (block + 8) = 0 ∨ x < load64 s.mem (block + 8) ∨
      load64 s.mem (block + 8) + 8 ≤ x)
    (h2 : load64 s.mem block = 0 ∨ x < load64 s.mem block + 8 ∨
      load64 s.mem block + 16 ≤ x) :
    (unlinkFree s block).mem x = s.mem x := by
  rw [unlinkFree_eq]
  dsimp only
  by_cases ha : load64 s.mem block = 0
  · rw [if_neg (by simpa using ha)]
    by_cases hb : load64 s.mem (block + 8) = 0
    · rw [if_neg (by simpa using hb)]
    · rw [if_pos hb, store64_out _ _ _ _ (by omega)]
  · rw [if_pos ha, store64_out _ _ _ _ (by omega)]
    by_cases hb : load64 s.mem (block + 8) = 0
    · rw [if_neg (by simpa using hb)]
    · rw [if_pos hb, store64_out _ _ _ _ (by omega)]

/-- After `unlinkFree`, `before_block->next` is `after_block`. -/
theorem unlinkFree_next (s : State) (block : Nat) (hb : load64 s.mem (block + 8) ≠ 0)
    (hsep : load64 s.mem block = 0 ∨ load64 s.mem block + 16 ≤ load64 s.mem (block + 8) ∨
      load64 s.mem (block + 8) + 8 ≤ load64 s.mem block + 8) :
    load64 (unlinkFree s block).mem (load64 s.mem (block + 8)) = load64 s.mem block := by
  rw [unlinkFree_eq]
  dsimp only
  rw [if_pos hb]
  by_cases ha : load64 s.mem block = 0
  · rw [if_neg (by simpa using ha)]
    exact load64_store64_small _ _ _ (load64_lt _ _)
  · rw [if_pos ha, load64_store64_disj _ _ _ _ (by omega)]
    exact load64_store64_small _ _ _ (load64_lt _ _)

/-- After `unlinkFree`, `after_block->previous` is `before_block`. -/
theorem unlinkFree_prev (s : State) (block : Nat) (ha : load64 s.mem block ≠ 0) :
    load64 (unlinkFree s block).mem (load64 s.mem block + 8) = load64 s.mem (block + 8) := by
  rw [unlinkFree_eq]
  dsimp only
  rw [if_pos ha]
  exact load64_store64_small _ _ _ (load64_lt _ _)

end Explicit

namespace Explicit
open Heap

theorem linkFree_fields (s : State) (block : Nat) :
    (linkFree s block).segment_start = s.segment_start ∧
    (linkFree s block).segment_size = s.segment_size ∧
    (linkFree s block).segment_end = s.segment_end ∧
    (linkFree s block).start_hdr = s.start_hdr ∧
    (linkFree s block).blocks_allocated = s.blocks_allocated ∧
    (linkFree s block).linked_start = block := by
  rw [linkFree_eq]
  dsimp only
  exact ⟨rfl, rfl, rfl, rfl, rfl, rfl⟩

/-- What `linkFree` leaves alone: every byte outside the two link words of the block
and the `previous` word of the old head. -/
theorem linkFree_frame (s : State) (block x : Nat) (h1 : x < block ∨ block + 16 ≤ x)
    (h2 : s.linked_start = 0 ∨ x < s.linked_start + 8 ∨ s.linked_start + 16 ≤ x) :
    (linkFree s block).mem x = s.mem x := by
  rw [linkFree_eq]
  dsimp only
  by_cases h : s.linked_start = 0
  · rw [if_neg (by simpa using h), store64_out _ _ _ _ (by omega),
      store64_out _ _ _ _ (by omega)]
  · rw [if_pos h, store64_out _ _ _ _ (by omega), store64_out _ _ _ _ (by omega),
      store64_out _ _ _ _ (by omega)]

/-- After `linkFree`, `block->next` is the old head. -/
theorem linkFree_next (s : State) (block : Nat) (hl : s.linked_start < WORD)
    (hsep : s.linked_start = 0 ∨ s.linked_start + 16 ≤ block ∨ block + 8 ≤ s.linked_start + 8) :
    load64 (linkFree s block).mem block = s.linked_start := by
  rw [linkFree_eq]
  dsimp only
  by_cases h : s.linked_start = 0
  · rw [if_neg (by simpa using h), load64_store64_disj _ _ _ _ (by omega)]
    exact load64_store64_small _ _ _ hl
  · rw [if_pos h, load64_store64_disj _ _ _ _ (by omega),
      load64_store64_disj _ _ _ _ (by omega)]
    exact load64_store64_small _ _ _ hl

/-- After `linkFree`, `block->previous` is `NULL`. -/
theorem linkFree_prev (s : State) (block : Nat)
    (hsep : s.linked_start = 0 ∨ s.linked_start + 8 ≤ block ∨ block + 8 ≤ s.linked_start) :
    load64 (linkFree s block).mem (block + 8) = 0 := by
  rw [linkFree_eq]
  dsimp only
  by_cases h : s.linked_start = 0
  · rw [if_neg (by simpa using h)]
    exact load64_store64_small _ _ _ (by decide)
  · rw [if_pos h, load64_store64_disj _ _ _ _ (by omega)]
    exact load64_store64_small _ _ _ (by decide)

/-- After `linkFree`, the `previous` word of the old head is the block. -/
theorem linkFree_head_prev (s : State) (block : Nat) (hb : block < WORD)
    (h : s.linked_start ≠ 0) :
    load64 (linkFree s block).mem (s.linked_start + 8) = block := by
  rw [linkFree_eq]
  dsimp only
  rw [if_pos h]
  exact load64_store64_small _ _ _ hb

/-- The `previous` word of the node after a prefix `l1` is the last node of `l1`. -/
theorem dlist_before (m : Mem) (c : Nat) (l2 : List Nat) :
    ∀ (l1 : List Nat) (prev p : Nat), DList m prev p (l1 ++ c :: l2) →
      load64 m (c + 8) = l1.getLastD prev := by
  intro l1
  induction l1 with
  | nil => intro prev p h; exact h.2.2.1
  | cons e t ih =>
    intro prev p h
    have := ih e _ h.2.2.2
    rw [this]
    cases t <;> rfl

/-- The `next` word of the node after a prefix `l1` is the first node behind it. -/
theorem dlist_after (m : Mem) (c : Nat) (l2 : List Nat) :
    ∀ (l1 : List Nat) (prev p : Nat), DList m prev p (l1 ++ c :: l2) →
      load64 m c = l2.headD 0 := by
  intro l1
  induction l1 with
  | nil =>
    intro prev p h
    have h2 := h.2.2.2
    cases l2 with
    | nil => exact h2
    | cons d t => exact h2.1
  | cons e t ih =>
    intro prev p h
    exact ih e _ h.2.2.2

theorem getLastD_mem (l : List Nat) (a : Nat) : l.getLastD a = a ∧ l = [] ∨ l.getLastD a ∈ l := by
  induction l generalizing a with
  | nil => left; exact ⟨rfl, rfl⟩
  | cons e t ih =>
    right
    rcases ih e with h | h
    · rw [h.2]; simp
    · have : (e :: t).getLastD a = t.getLastD e := by cases t <;> rfl
      rw [this]
      exact List.mem_cons_of_mem _ h

theorem headD_mem (l : List Nat) : l.headD 0 = 0 ∧ l = [] ∨ l.headD 0 ∈ l := by
  cases l with
  | nil => left; exact ⟨rfl, rfl⟩
  | cons e t => right; simp

end Explicit

namespace Explicit
open Heap

/-- Removing the node `c` from a doubly linked list: `m2` is the memory in which the
node before `c` and the node behind `c` point at each other. -/
theorem dlist_unlink (m m2 : Mem) (c before after : Nat) (l2 : List Nat)
    (hb : load64 m (c + 8) = before) (ha : load64 m c = after)
    (F1 : ∀ x, (before = 0 ∨ x < before ∨ before + 8 ≤ x) →
      (after = 0 ∨ x < after + 8 ∨ after + 16 ≤ x) → m2 x = m x)
    (F2 : before ≠ 0 → (after = 0 ∨ after + 16 ≤ before ∨ before + 8 ≤ after + 8) →
      load64 m2 before = after)
    (F3 : after ≠ 0 → load64 m2 (after + 8) = before) :
    ∀ (l1 : List Nat) (prev p : Nat), DList m prev p (l1 ++ c :: l2) →
      Sep (l1 ++ c :: l2) →
      (prev = 0 ∨ ∀ d ∈ l1 ++ c :: l2, prev + 16 ≤ d ∨ d + 16 ≤ prev) →
      DList m2 prev (if l1 = [] then after else p) (l1 ++ l2) := by
  intro l1
  induction l1 with
  | nil =>
    intro prev p h hs hp
    simp only [List.nil_append, if_true] at h hs hp ⊢
    obtain ⟨_, _, h3, h4⟩ := h
    rw [hb] at h3
    rw [ha] at h4
    cases l2 with
    | nil => exact h4
    | cons d t =>
      obtain ⟨g1, g2, _, g4⟩ := h4
      subst g1
      have hs1 := List.pairwise_cons.1 hs
      have hs2 := List.pairwise_cons.1 hs1.2
      have hpd : ∀ y ∈ after :: t, prev = 0 ∨ prev + 16 ≤ y ∨ y + 16 ≤ prev := by
        intro y hy
        rcases hp with hp | hp
        · exact Or.inl hp
        · exact Or.inr (hp y (List.mem_cons_of_mem _ hy))
      refine ⟨rfl, g2, ?_, ?_⟩
      · have := F3 g2
        rw [h3] at this
        exact this
      · have e1 : load64 m2 after = load64 m after := by
          apply load64_congr
          intro x hx1 hx2
          have := hpd after (List.mem_cons_self _ _)
          exact F1 x (by omega) (by omega)
        rw [e1]
        apply dlist_frame m m2 t _ _ g4
        intro y hy
        have q1 := hpd y (List.mem_cons_of_mem _ hy)
        have q2 := hs2.1 y hy
        constructor
        · apply load64_congr
          intro x hx1 hx2
          exact F1 x (by omega) (by omega)
        · apply load64_congr
          intro x hx1 hx2
          exact F1 x (by omega) (by omega)
  | cons e t ih =>
    intro prev p h hs hp
    obtain ⟨h1, h2, h3, h4⟩ := h
    have hs1 := List.pairwise_cons.1 (show List.Pairwise _ (e :: (t ++ c :: l2)) from hs)
    have hB := dlist_before m c l2 t e _ h4
    have hA := dlist_after m c l2 t e _ h4
    rw [hb] at hB
    rw [ha] at hA
    have sb : before = e ∨ before + 16 ≤ e ∨ e + 16 ≤ before := by
      rcases getLastD_mem t e with q | q
      · left; rw [hB]; exact q.1
      · right
        have := hs1.1 _ (List.mem_append_left _ q)
        rw [← hB] at this
        omega
    have sa : after = 0 ∨ after + 16 ≤ e ∨ e + 16 ≤ after := by
      rcases headD_mem l2 with q | q
      · left; rw [hA]; exact q.1
      · right
        have := hs1.1 _ (List.mem_append_right _ (List.mem_cons_of_mem _ q))
        rw [← hA] at this
        omega
    rw [if_neg (by simp)]
    refine ⟨h1, h2, ?_, ?_⟩
    · rw [← h3]
      apply load64_congr
      intro x hx1 hx2
      exact F1 x (by omega) (by omega)
    · have hih := ih e (load64 m e) h4 hs1.2 (Or.inr hs1.1)
      by_cases ht : t = []
      · rw [if_pos ht] at hih
        have hbe : before = e := by rw [hB, ht]; rfl
        have := F2 (by rw [hbe]; exact h2) (by omega)
        rw [hbe] at this
        rw [this]
        exact hih
      · rw [if_neg ht] at hih
        have hbe : before ≠ e := by
          intro q
          rcases getLastD_mem t e with q1 | q1
          · exact ht q1.2
          · have := hs1.1 _ (List.mem_append_left _ q1)
            rw [← hB, q] at this
            omega
        have e1 : load64 m2 e = load64 m e := by
          apply load64_congr
          intro x hx1 hx2
          exact F1 x (by omega) (by omega)
        rw [e1]
        exact hih

/-- The doubly linked list after `unlinkFree` of one of its nodes. -/
theorem unlinkFree_list (s : State) (c : Nat) (l1 l2 : List Nat)
    (h : DList s.mem 0 s.linked_start (l1 ++ c :: l2)) (hs : Sep (l1 ++ c :: l2)) :
    DList (unlinkFree s c).mem 0 (unlinkFree s c).linked_start (l1 ++ l2) ∧
      (unlinkFree s c).linked_start = (l1 ++ l2).headD 0 := by
  have hB := dlist_before s.mem c l2 l1 0 _ h
  have hA := dlist_after s.mem c l2 l1 0 _ h
  have hsep : ∀ x ∈ l1, ∀ y ∈ l2, x + 16 ≤ y ∨ y + 16 ≤ x := by
    intro x hx y hy
    exact (List.pairwise_append.1 hs).2.2 x hx y (List.mem_cons_of_mem _ hy)
  have key := dlist_unlink s.mem (unlinkFree s c).mem c (load64 s.mem (c + 8))
    (load64 s.mem c) l2 rfl rfl
    (fun x h1 h2 => unlinkFree_frame s c x h1 h2)
    (fun h1 h2 => unlinkFree_next s c h1 h2)
    (fun h1 => unlinkFree_prev s c h1) l1 0 s.linked_start h hs (Or.inl rfl)
  have hl : (unlinkFree s c).linked_start = if l1 = [] then load64 s.mem c else s.linked_start := by
    rw [(unlinkFree_fields s c).2.2.2.2.2, hB]
    by_cases q : l1 = []
    · rw [q]; simp
    · rw [if_neg q]
      rcases getLastD_mem l1 0 with q1 | q1
      · exact absurd q1.2 q
      · have := dlist_ne_zero s.mem _ _ _ h _ (List.mem_append_left _ q1)
        rw [if_neg this]
  rw [hl]
  refine ⟨key, ?_⟩
  exact dlist_head _ _ _ _ key

end Explicit

namespace Explicit
open Heap

/-- The doubly linked list after `linkFree`: the block is the new head. -/
theorem linkFree_list (s : State) (b : Nat) (l : List Nat)
    (h : DList s.mem 0 s.linked_start l) (hs : Sep (b :: l)) (hb0 : b ≠ 0) (hbw : b < WORD)
    (hlw : s.linked_start < WORD) :
    DList (linkFree s b).mem 0 (linkFree s b).linked_start (b :: l) := by
  have hs1 := List.pairwise_cons.1 (show List.Pairwise _ (b :: l) from hs)
  rw [(linkFree_fields s b).2.2.2.2.2]
  cases l with
  | nil =>
    have h0 : s.linked_start = 0 := h
    refine ⟨rfl, hb0, linkFree_prev s b (Or.inl h0), ?_⟩
    rw [linkFree_next s b hlw (Or.inl h0)]
    exact h0
  | cons d t =>
    obtain ⟨g1, g2, _, g4⟩ := h
    have hbd := hs1.1 d (List.mem_cons_self _ _)
    have hs2 := List.pairwise_cons.1 hs1.2
    refine ⟨rfl, hb0, linkFree_prev s b (by omega), ?_⟩
    rw [linkFree_next s b hlw (by omega)]
    refine ⟨g1, g2, ?_, ?_⟩
    · have := linkFree_head_prev s b hbw (by rw [g1]; exact g2)
      rw [g1] at this
      exact this
    · have e1 : load64 (linkFree s b).mem d = load64 s.mem d := by
        apply load64_congr
        intro x hx1 hx2
        exact linkFree_frame s b x (by omega) (by omega)
      rw [e1]
      apply dlist_frame s.mem _ t _ _ g4
      intro y hy
      have q1 := hs1.1 y (List.mem_cons_of_mem _ hy)
      have q2 := hs2.1 y hy
      constructor
      · apply load64_congr
        intro x hx1 hx2
        exact linkFree_frame s b x (by omega) (by omega)
      · apply load64_congr
        intro x hx1 hx2
        exact linkFree_frame s b x (by omega) (by omega)

/-- The bytes `linkFree` leaves alone, in terms of the list: everything outside the
link words of the block and of the nodes of the list. -/
theorem linkFree_frame_list (s : State) (b : Nat) (l : List Nat)
    (h : DList s.mem 0 s.linked_start l) (x : Nat) (h1 : x < b ∨ b + 16 ≤ x)
    (h2 : ∀ d ∈ l, x < d ∨ d + 16 ≤ x) : (linkFree s b).mem x = s.mem x := by
  apply linkFree_frame s b x h1
  have hh := dlist_head _ _ _ _ h
  rcases headD_mem l with q | q
  · left; rw [hh]; exact q.1
  · right
    have := h2 _ q
    rw [hh]
    omega

/-- The bytes `unlinkFree` of a node leaves alone, in terms of the list: everything
outside the link words of the other nodes. -/
theorem unlinkFree_frame_list (s : State) (c : Nat) (l1 l2 : List Nat)
    (h : DList s.mem 0 s.linked_start (l1 ++ c :: l2)) (x : Nat)
    (h2 : ∀ d ∈ l1 ++ l2, x < d ∨ d + 16 ≤ x) : (unlinkFree s c).mem x = s.mem x := by
  have hB := dlist_before s.mem c l2 l1 0 _ h
  have hA := dlist_after s.mem c l2 l1 0 _ h
  apply unlinkFree_frame s c x
  · rcases getLastD_mem l1 0 with q | q
    · left; rw [hB]; exact q.1
    · right
      have := h2 _ (List.mem_append_left _ q)
      rw [hB]
      omega
  · rcases headD_mem l2 with q | q
    · left; rw [hA]; exact q.1
    · right
      have := h2 _ (List.mem_append_right _ q)
      rw [hA]
      omega

end Explicit

namespace Explicit
open Heap

/-- A run of blocks depends only on the header words of its blocks. -/
theorem blocks_hdr_frame (m m2 : Mem) (e : Nat) (bs : List (Nat × Nat)) :
    ∀ a, Blocks m e a bs → (∀ b ∈ bs, load64 m2 b.1 = load64 m b.1) → Blocks m2 e a bs := by
  induction bs with
  | nil => intro a h _; exact h
  | cons b t ih =>
    intro a h hm
    obtain ⟨h1, h2, h3⟩ := h
    refine ⟨h1, ?_, ih _ h3 (fun c hc => hm c (List.mem_cons_of_mem _ hc))⟩
    have := hm b (List.mem_cons_self _ _)
    rw [h1] at this
    rw [this]
    exact h2

/-- Every block of a run lies between its start and its end. -/
theorem blocks_bounds (m : Mem) (e : Nat) (bs : List (Nat × Nat)) :
    ∀ a, Blocks m e a bs → ∀ b ∈ bs, a ≤ b.1 ∧ b.1 + 8 + hdrSize b.2 ≤ e := by
  induction bs with
  | nil => intro a _ b hb; simp at hb
  | cons c t ih =>
    intro a h b hb
    obtain ⟨h1, _, h3⟩ := h
    rcases List.mem_cons.1 hb with q | q
    · rw [q, h1]
      have := blocks_total m e t _ h3
      omega
    · have := ih _ h3 b q
      omega

/-- Two blocks of a run are the same block or do not overlap. -/
theorem blocks_disjoint (m : Mem) (e : Nat) (bs : List (Nat × Nat)) :
    ∀ a, Blocks m e a bs → ∀ b ∈ bs, ∀ c ∈ bs,
      b = c ∨ b.1 + 8 + hdrSize b.2 ≤ c.1 ∨ c.1 + 8 + hdrSize c.2 ≤ b.1 := by
  induction bs with
  | nil => intro a _ b hb; simp at hb
  | cons d t ih =>
    intro a h b hb c hc
    obtain ⟨h1, _, h3⟩ := h
    rcases List.mem_cons.1 hb with q | q <;> rcases List.mem_cons.1 hc with r | r
    · left; rw [q, r]
    · right; left
      have := blocks_bounds m e t _ h3 c r
      rw [q, h1]
      omega
    · right; right
      have := blocks_bounds m e t _ h3 b q
      rw [r, h1]
      omega
    · exact ih _ h3 b q c r

/-- The focus on one block of a run: the blocks before it end at its header, the
blocks behind it start at the end of its payload. -/
theorem blocks_focus (m : Mem) (e a : Nat) (pre post : List (Nat × Nat)) (b : Nat × Nat) :
    Blocks m e a (pre ++ b :: post) ↔
      Blocks m b.1 a pre ∧ load64 m b.1 = b.2 ∧ Blocks m e (b.1 + 8 + hdrSize b.2) post := by
  rw [blocks_append]
  constructor
  · rintro ⟨mid, h1, h2, h3, h4⟩
    rw [h2]
    exact ⟨h1, h3, h4⟩
  · rintro ⟨h1, h2, h3⟩
    exact ⟨b.1, h1, rfl, h2, h3⟩

theorem freePayloads_cons (b : Nat × Nat) (t : List (Nat × Nat)) :
    freePayloads (b :: t) =
      if b.2 % 2 = 0 then (b.1 + 8) :: freePayloads t else freePayloads t := rfl

theorem allocCount_cons (b : Nat × Nat) (t : List (Nat × Nat)) :
    allocCount (b :: t) = (if b.2 % 2 = 1 then 1 else 0) + allocCount t := rfl

theorem freePayloads_append (xs ys : List (Nat × Nat)) :
    freePayloads (xs ++ ys) = freePayloads xs ++ freePayloads ys := by
  induction xs with
  | nil => rfl
  | cons b t ih =>
    rw [List.cons_append, freePayloads_cons, freePayloads_cons, ih]
    by_cases h : b.2 % 2 = 0
    · rw [if_pos h, if_pos h]; rfl
    · rw [if_neg h, if_neg h]

theorem freePayloads_mem (bs : List (Nat × Nat)) (d : Nat) :
    d ∈ freePayloads bs ↔ ∃ b ∈ bs, b.2 % 2 = 0 ∧ d = b.1 + 8 := by
  induction bs with
  | nil => simp [freePayloads]
  | cons c t ih =>
    rw [freePayloads_cons]
    by_cases h : c.2 % 2 = 0
    · rw [if_pos h, List.mem_cons, ih]
      constructor
      · rintro (q | ⟨b, hb, q⟩)
        · exact ⟨c, List.mem_cons_self _ _, h, q⟩
        · exact ⟨b, List.mem_cons_of_mem _ hb, q⟩
      · rintro ⟨b, hb, q1, q2⟩
        rcases List.mem_cons.1 hb with r | r
        · left; rw [q2, r]
        · right; exact ⟨b, r, q1, q2⟩
    · rw [if_neg h, ih]
      constructor
      · rintro ⟨b, hb, q⟩
        exact ⟨b, List.mem_cons_of_mem _ hb, q⟩
      · rintro ⟨b, hb, q1, q2⟩
        rcases List.mem_cons.1 hb with r | r
        · rw [r] at q1; exact absurd q1 h
        · exact ⟨b, r, q1, q2⟩

theorem allocCount_append (xs ys : List (Nat × Nat)) :
    allocCount (xs ++ ys) = allocCount xs + allocCount ys := by
  induction xs with
  | nil => simp [allocCount]
  | cons b t ih =>
    rw [List.cons_append, allocCount_cons, allocCount_cons, ih]
    omega

/-- The link words of the free blocks of a run do not overlap, when every free block
has room for them. -/
theorem blocks_sep (m : Mem) (e : Nat) (bs : List (Nat × Nat)) :
    ∀ a, Blocks m e a bs → (∀ b ∈ bs, b.2 % 2 = 0 → 16 ≤ hdrSize b.2) →
      Sep (freePayloads bs) := by
  induction bs with
  | nil => intro a _ _; exact List.Pairwise.nil
  | cons c t ih =>
    intro a h hz
    obtain ⟨h1, _, h3⟩ := h
    have iht := ih _ h3 (fun b hb => hz b (List.mem_cons_of_mem _ hb))
    rw [freePayloads_cons]
    by_cases hc : c.2 % 2 = 0
    · rw [if_pos hc]
      apply List.Pairwise.cons _ iht
      intro d hd
      obtain ⟨b, hb, _, q2⟩ := (freePayloads_mem t d).1 hd
      have := blocks_bounds m e t _ h3 b hb
      have := hz c (List.mem_cons_self _ _) hc
      left
      rw [q2, h1]
      omega
    · rw [if_neg hc]
      exact iht

/-- The header of a block of a run does not overlap the link words of a free block. -/
theorem hdr_not_link (m : Mem) (e a : Nat) (bs : List (Nat × Nat)) (h : Blocks m e a bs)
    (hz : ∀ b ∈ bs, b.2 % 2 = 0 → 16 ≤ hdrSize b.2) (c : Nat × Nat) (hc : c ∈ bs) (d : Nat)
    (hd : d ∈ freePayloads bs) : c.1 + 8 ≤ d ∨ d + 16 ≤ c.1 := by
  obtain ⟨b, hb, q1, q2⟩ := (freePayloads_mem bs d).1 hd
  have := hz b hb q1
  rcases blocks_disjoint m e bs a h b hb c hc with r | r | r
  · left; rw [q2, r]
  · right; rw [q2]; omega
  · left; rw [q2]; omega

end Explicit

namespace Explicit
open Heap

theorem hdrSize_succ_even (h : Nat) (he : h % 2 = 0) :
    hdrSize (h + 1) = hdrSize h ∧ (h + 1) % 2 = 1 := by
  unfold hdrSize
  omega

theorem hdrSize_pred_odd (h : Nat) (ho : h % 2 = 1) :
    hdrSize (h - 1) = hdrSize h ∧ (h - 1) % 2 = 0 := by
  unfold hdrSize
  omega

theorem hdrSize_mult (v : Nat) (h8 : v % 8 = 0) : hdrSize v = v ∧ hdrSize (v + 1) = v := by
  unfold hdrSize
  omega

/-- The nodes of the free list do not overlap. -/
theorem rep_sep (base N : Nat) (s : State) (bs : List (Nat × Nat)) (l : List Nat)
    (h : Rep base N s bs l) : Sep l := by
  obtain ⟨_, _, _, hb, _, hp, hz, _, _⟩ := h
  have := blocks_sep s.mem _ bs _ hb hz
  exact (List.Perm.pairwise_iff (fun h => Or.symm h) hp).2 this

/-- A node of the free list is the payload of a free block of the heap. -/
theorem rep_node (base N : Nat) (s : State) (bs : List (Nat × Nat)) (l : List Nat)
    (h : Rep base N s bs l) (d : Nat) (hd : d ∈ l) :
    ∃ b ∈ bs, b.2 % 2 = 0 ∧ d = b.1 + 8 ∧ 16 ≤ hdrSize b.2 ∧ base ≤ b.1 ∧
      b.1 + 8 + hdrSize b.2 ≤ base + N := by
  obtain ⟨_, _, _, hb, _, hp, hz, _, _⟩ := h
  obtain ⟨b, h1, h2, h3⟩ := (freePayloads_mem bs d).1 ((List.Perm.mem_iff hp).1 hd)
  have := blocks_bounds s.mem _ bs _ hb b h1
  exact ⟨b, h1, h2, h3, hz b h1 h2, this.1, this.2⟩

/-- The header of a block does not overlap the link words of a node of the free
list. -/
theorem rep_hdr_safe (base N : Nat) (s : State) (bs : List (Nat × Nat)) (l : List Nat)
    (h : Rep base N s bs l) (c : Nat × Nat) (hc : c ∈ bs) (d : Nat) (hd : d ∈ l) :
    c.1 + 8 ≤ d ∨ d + 16 ≤ c.1 := by
  obtain ⟨_, _, _, hb, _, hp, hz, _, _⟩ := h
  exact hdr_not_link s.mem _ _ bs hb hz c hc d ((List.Perm.mem_iff hp).1 hd)

/-- The link words of a node of the free list lie inside the region. -/
theorem rep_node_bounds (base N : Nat) (s : State) (bs : List (Nat × Nat)) (l : List Nat)
    (h : Rep base N s bs l) (d : Nat) (hd : d ∈ l) :
    base + 8 ≤ d ∧ d + 16 ≤ base + N ∧ d < WORD := by
  obtain ⟨b, _, _, h3, h4, h5, h6⟩ := rep_node base N s bs l h d hd
  have := h.2.2.1
  omega

/-- The link words of a node of the free list do not overlap an allocated block. -/
theorem rep_alloc_safe (base N : Nat) (s : State) (bs : List (Nat × Nat)) (l : List Nat)
    (h : Rep base N s bs l) (c : Nat × Nat) (hc : c ∈ bs) (ho : c.2 % 2 = 1) (d : Nat)
    (hd : d ∈ l) : c.1 + 8 + hdrSize c.2 ≤ d ∨ d + 16 ≤ c.1 := by
  obtain ⟨b, h1, h2, h3, h4, _, _⟩ := rep_node base N s bs l h d hd
  rcases blocks_disjoint s.mem _ bs _ h.2.2.2.1 b h1 c hc with r | r | r
  · rw [r] at h2; omega
  · right; omega
  · left; omega

theorem rep_head_lt (base N : Nat) (s : State) (bs : List (Nat × Nat)) (l : List Nat)
    (h : Rep base N s bs l) : s.linked_start < WORD := by
  have hh := dlist_head _ _ _ _ h.2.2.2.2.1
  rcases headD_mem l with q | q
  · rw [hh, q.1]; decide
  · rw [hh]; exact (rep_node_bounds base N s bs l h _ q).2.2

end Explicit

namespace Explicit
open Heap

/-- The branch of `mymalloc` that takes a whole free block: the block at `hdr` becomes
allocated and leaves the free list; nothing else changes. -/
theorem malloc_exact (base N : Nat) (s : State) (pre post : List (Nat × Nat)) (hdr h : Nat)
    (l1 l2 : List Nat) (hrep : Rep base N s (pre ++ (hdr, h) :: post) (l1 ++ (hdr + 8) :: l2))
    (he : h % 2 = 0) (h24 : 24 ≤ hdrSize h) :
    Rep base N
        { unlinkFree s (hdr + 8) with
          mem := statusAllocated (unlinkFree s (hdr + 8)).mem hdr
          blocks_allocated := (unlinkFree s (hdr + 8)).blocks_allocated + 1 }
        (pre ++ (hdr, h + 1) :: post) (l1 ++ l2) ∧
      ∀ x, (x < hdr ∨ hdr + 8 ≤ x) → (∀ d ∈ l1 ++ l2, x < d ∨ d + 16 ≤ x) →
        statusAllocated (unlinkFree s (hdr + 8)).mem hdr x = s.mem x := by
  have hsep := rep_sep _ _ _ _ _ hrep
  have hsafe := rep_hdr_safe _ _ _ _ _ hrep
  obtain ⟨g1, g2, g3, hb, hd, hp, hz, ha, hc⟩ := hrep
  have hf := unlinkFree_fields s (hdr + 8)
  have hsub : ∀ d ∈ l1 ++ l2, d ∈ l1 ++ (hdr + 8) :: l2 := by
    intro d hd
    rcases List.mem_append.1 hd with q | q
    · exact List.mem_append_left _ q
    · exact List.mem_append_right _ (List.mem_cons_of_mem _ q)
  -- the memory after `unlinkFree`
  have fu : ∀ x, (∀ d ∈ l1 ++ l2, x < d ∨ d + 16 ≤ x) →
      (unlinkFree s (hdr + 8)).mem x = s.mem x :=
    fun x hx => unlinkFree_frame_list s (hdr + 8) l1 l2 hd x hx
  have ul := (unlinkFree_list s (hdr + 8) l1 l2 hd hsep).1
  generalize unlinkFree s (hdr + 8) = u at *
  have hmem : (hdr, h) ∈ pre ++ (hdr, h) :: post :=
    List.mem_append_right _ (List.mem_cons_self _ _)
  obtain ⟨b1, b2, b3⟩ := (blocks_focus _ _ _ _ _ _).1 hb
  simp only at b1 b2 b3
  have lu : load64 u.mem hdr = h := by
    rw [← b2]
    apply load64_congr
    intro x hx1 hx2
    apply fu x _
    intro d hd
    have := hsafe (hdr, h) hmem d (hsub d hd)
    simp only at this
    omega
  have sa := statusAllocated_even u.mem hdr (by rw [lu]; exact he)
  rw [lu] at sa
  generalize statusAllocated u.mem hdr = m2 at *
  -- the memory after the call
  have fm : ∀ x, (x < hdr ∨ hdr + 8 ≤ x) → (∀ d ∈ l1 ++ l2, x < d ∨ d + 16 ≤ x) →
      m2 x = s.mem x := by
    intro x hx1 hx2
    rw [sa.2 x hx1]
    exact fu x hx2
  have fh : ∀ b ∈ pre ++ (hdr, h) :: post, b.1 + 8 ≤ hdr ∨ hdr + 8 ≤ b.1 →
      load64 m2 b.1 = load64 s.mem b.1 := by
    intro b hb hne
    apply load64_congr
    intro x hx1 hx2
    apply fm x (by omega) _
    intro d hd
    have := hsafe b hb d (hsub d hd)
    omega
  refine ⟨⟨?_, ?_, g3, ?_, ?_, ?_, ?_, ?_, ?_⟩, fm⟩
  · exact hf.1.trans g1
  · exact hf.2.2.1.trans g2
  · -- the run of blocks
    apply (blocks_focus _ _ _ _ _ _).2
    refine ⟨?_, sa.1, ?_⟩
    · apply blocks_hdr_frame s.mem _ _ pre _ b1
      intro b hb
      have := blocks_bounds _ _ _ _ b1 b hb
      exact fh b (List.mem_append_left _ hb) (by omega)
    · show Blocks _ _ (hdr + 8 + hdrSize (h + 1)) post
      rw [(hdrSize_succ_even h he).1]
      apply blocks_hdr_frame s.mem _ _ post _ b3
      intro b hb
      have := blocks_bounds _ _ _ _ b3 b hb
      exact fh b (List.mem_append_right _ (List.mem_cons_of_mem _ hb)) (by omega)
  · -- the free list
    show DList m2 0 u.linked_start (l1 ++ l2)
    apply dlist_frame _ _ _ _ _ ul
    intro d hd
    have := hsafe (hdr, h) hmem d (hsub d hd)
    simp only at this
    constructor
    · apply load64_congr
      intro x hx1 hx2
      exact sa.2 x (by omega)
    · apply load64_congr
      intro x hx1 hx2
      exact sa.2 x (by omega)
  · -- the nodes are the free payloads
    rw [freePayloads_append, freePayloads_cons, if_neg (by have := hdrSize_succ_even h he; omega)]
    rw [freePayloads_append, freePayloads_cons, if_pos he] at hp
    exact ((List.perm_middle.symm.trans hp).trans List.perm_middle).cons_inv
  · intro b hb hbe
    rcases List.mem_append.1 hb with q | q
    · exact hz b (List.mem_append_left _ q) hbe
    · rcases List.mem_cons.1 q with r | r
      · rw [r] at hbe
        have := hdrSize_succ_even h he
        simp only at hbe
        omega
      · exact hz b (List.mem_append_right _ (List.mem_cons_of_mem _ r)) hbe
  · intro b hb hbo
    rcases List.mem_append.1 hb with q | q
    · exact ha b (List.mem_append_left _ q) hbo
    · rcases List.mem_cons.1 q with r | r
      · rw [r]
        show 24 ≤ hdrSize (h + 1)
        rw [(hdrSize_succ_even h he).1]
        exact h24
      · exact ha b (List.mem_append_right _ (List.mem_cons_of_mem _ r)) hbo
  · show u.blocks_allocated + 1 = _
    rw [hf.2.2.2.2.1, hc, allocCount_append, allocCount_append, allocCount_cons,
      allocCount_cons, if_neg (by simp only; omega),
      if_pos (by have := hdrSize_succ_even h he; simp only; omega)]
    omega

end Explicit

namespace Explicit
open Heap

/-- The state after `splitting`, with the address of the split header and the size of
the remainder named. -/
theorem splitting_eq (s : State) (hdr actual og list sp w : Nat)
    (hn : nextBlock (store64 s.mem hdr actual) hdr = sp)
    (hw : subW (subW og actual) ALIGNMENT = w) :
    splitting s hdr actual og list =
      ({ unlinkFree (linkFree { s with
            mem := store64 (store64 s.mem hdr actual) sp w
            blocks_allocated := s.blocks_allocated + 1 } (sp + 8)) list with
          mem := statusAllocated (unlinkFree (linkFree { s with
            mem := store64 (store64 s.mem hdr actual) sp w
            blocks_allocated := s.blocks_allocated + 1 } (sp + 8)) list).mem hdr }, list) := by
  subst hn
  subst hw
  rfl

/-- A node of the free list is the payload of a given free block or its link words
lie outside that block. -/
theorem rep_node_focus (base N : Nat) (s : State) (bs : List (Nat × Nat)) (l : List Nat)
    (h : Rep base N s bs l) (c : Nat × Nat) (hc : c ∈ bs) (d : Nat) (hd : d ∈ l) :
    d = c.1 + 8 ∨ d + 16 ≤ c.1 ∨ c.1 + 8 + hdrSize c.2 ≤ d := by
  obtain ⟨b, h1, h2, h3, h4, _, _⟩ := rep_node base N s bs l h d hd
  rcases blocks_disjoint s.mem _ bs _ h.2.2.2.1 b h1 c hc with r | r | r
  · left; rw [h3, r]
  · right; left; omega
  · right; right; omega

end Explicit

namespace Explicit
open Heap

theorem hdrSize_mod8 (h : Nat) : hdrSize h % 8 = 0 ∧ hdrSize h ≤ h := by
  unfold hdrSize
  omega

/-- The branch of `mymalloc` that splits a free block: the block at `hdr` becomes an
allocated block of size `actual`, the rest becomes a free block that is the new head of
the free list, and the old node leaves the list. -/
theorem malloc_split (base N : Nat) (s s2 : State) (pre post : List (Nat × Nat))
    (hdr h actual : Nat) (l1 l2 : List Nat)
    (hrep : Rep base N s (pre ++ (hdr, h) :: post) (l1 ++ (hdr + 8) :: l2))
    (he : h % 2 = 0) (h8 : actual % 8 = 0) (h24 : 24 ≤ actual)
    (hfit : actual + 24 ≤ hdrSize h)
    (hs2 : s2 = { s with
      mem := store64 (store64 s.mem hdr actual) (hdr + 8 + actual) (hdrSize h - actual - 8)
      blocks_allocated := s.blocks_allocated + 1 }) :
    Rep base N
        { unlinkFree (linkFree s2 (hdr + 8 + actual + 8)) (hdr + 8) with
          mem := statusAllocated
            (unlinkFree (linkFree s2 (hdr + 8 + actual + 8)) (hdr + 8)).mem hdr }
        (pre ++ (hdr, actual + 1) :: (hdr + 8 + actual, hdrSize h - actual - 8) :: post)
        ((hdr + 8 + actual + 8) :: (l1 ++ l2)) ∧
      ∀ x, (x < hdr ∨ hdr + 8 + hdrSize h ≤ x) → (∀ d ∈ l1 ++ l2, x < d ∨ d + 16 ≤ x) →
        statusAllocated
          (unlinkFree (linkFree s2 (hdr + 8 + actual + 8)) (hdr + 8)).mem hdr x = s.mem x := by
  have hsep := rep_sep _ _ _ _ _ hrep
  have hsafe := rep_hdr_safe _ _ _ _ _ hrep
  have hmem : (hdr, h) ∈ pre ++ (hdr, h) :: post :=
    List.mem_append_right _ (List.mem_cons_self _ _)
  have nodeF := rep_node_focus _ _ _ _ _ hrep (hdr, h) hmem
  have hlw := rep_head_lt _ _ _ _ _ hrep
  obtain ⟨g1, g2, g3, hb, hd, hp, hz, ha, hc⟩ := hrep
  have hbnd := blocks_bounds _ _ _ _ hb (hdr, h) hmem
  have hog := hdrSize_mod8 h
  simp only at nodeF hbnd
  obtain ⟨b1, b2, b3⟩ := (blocks_focus _ _ _ _ _ _).1 hb
  simp only at b1 b2 b3
  have hsub : ∀ d ∈ l1 ++ l2, d ∈ l1 ++ (hdr + 8) :: l2 := by
    intro d hd
    rcases List.mem_append.1 hd with q | q
    · exact List.mem_append_left _ q
    · exact List.mem_append_right _ (List.mem_cons_of_mem _ q)
  -- the state after the two header writes
  have e1 : s2.segment_start = s.segment_start := by rw [hs2]
  have e2 : s2.segment_end = s.segment_end := by rw [hs2]
  have e3 : s2.linked_start = s.linked_start := by rw [hs2]
  have e4 : s2.blocks_allocated = s.blocks_allocated + 1 := by rw [hs2]
  have f2 : ∀ x, (x < hdr ∨ hdr + 8 ≤ x) → (x < hdr + 8 + actual ∨ hdr + 8 + actual + 8 ≤ x) →
      s2.mem x = s.mem x := by
    intro x hx1 hx2
    rw [hs2]
    show store64 (store64 s.mem hdr actual) (hdr + 8 + actual) (hdrSize h - actual - 8) x = _
    rw [store64_out _ _ _ _ (by omega), store64_out _ _ _ _ (by omega)]
  have lh2 : load64 s2.mem hdr = actual := by
    rw [hs2]
    show load64 (store64 (store64 s.mem hdr actual) (hdr + 8 + actual)
      (hdrSize h - actual - 8)) hdr = _
    rw [load64_store64_disj _ _ _ _ (by omega)]
    exact load64_store64_small _ _ _ (by omega)
  have ls2 : load64 s2.mem (hdr + 8 + actual) = hdrSize h - actual - 8 := by
    rw [hs2]
    exact load64_store64_small _ _ _ (by omega)
  clear hs2
  have D2 : DList s2.mem 0 s2.linked_start (l1 ++ (hdr + 8) :: l2) := by
    rw [e3]
    apply dlist_frame _ _ _ _ _ hd
    intro d hd
    have := nodeF d hd
    constructor
    · apply load64_congr
      intro x hx1 hx2
      exact f2 x (by omega) (by omega)
    · apply load64_congr
      intro x hx1 hx2
      exact f2 x (by omega) (by omega)
  -- the state after `linkFree`
  have hsep3 : Sep ((hdr + 8 + actual + 8) :: (l1 ++ (hdr + 8) :: l2)) := by
    apply List.Pairwise.cons _ hsep
    intro d hd
    have := nodeF d hd
    omega
  have D3 := linkFree_list s2 (hdr + 8 + actual + 8) _ D2 hsep3 (by omega) (by omega)
    (by rw [e3]; exact hlw)
  have f3 : ∀ x, (x < hdr + 8 + actual + 8 ∨ hdr + 8 + actual + 8 + 16 ≤ x) →
      (∀ d ∈ l1 ++ (hdr + 8) :: l2, x < d ∨ d + 16 ≤ x) →
      (linkFree s2 (hdr + 8 + actual + 8)).mem x = s2.mem x :=
    fun x hx1 hx2 => linkFree_frame_list s2 _ _ D2 x hx1 hx2
  have k3 := linkFree_fields s2 (hdr + 8 + actual + 8)
  generalize linkFree s2 (hdr + 8 + actual + 8) = s3 at *
  -- the state after `unlinkFree`
  have D4 := (unlinkFree_list s3 (hdr + 8) ((hdr + 8 + actual + 8) :: l1) l2 D3 hsep3).1
  have f4 : ∀ x, (∀ d ∈ (hdr + 8 + actual + 8) :: l1 ++ l2, x < d ∨ d + 16 ≤ x) →
      (unlinkFree s3 (hdr + 8)).mem x = s3.mem x :=
    fun x hx => unlinkFree_frame_list s3 (hdr + 8) ((hdr + 8 + actual + 8) :: l1) l2 D3 x hx
  have k4 := unlinkFree_fields s3 (hdr + 8)
  generalize unlinkFree s3 (hdr + 8) = s4 at *
  -- bytes outside the link words of the new node and of the list are as in `s2`
  have f42 : ∀ x, (x < hdr + 8 + actual + 8 ∨ hdr + 8 + actual + 8 + 16 ≤ x) →
      (∀ d ∈ l1 ++ (hdr + 8) :: l2, x < d ∨ d + 16 ≤ x) → s4.mem x = s2.mem x := by
    intro x hx1 hx2
    rw [f4 x, f3 x hx1 hx2]
    intro d hd
    rcases List.mem_cons.1 hd with q | q
    · omega
    · exact hx2 d (hsub d q)
  have lh4 : load64 s4.mem hdr = actual := by
    rw [← lh2]
    apply load64_congr
    intro x hx1 hx2
    apply f42 x (by omega)
    intro d hd
    have := nodeF d hd
    omega
  have sa := statusAllocated_even s4.mem hdr (by rw [lh4]; omega)
  rw [lh4] at sa
  generalize statusAllocated s4.mem hdr = m5 at *
  have ls5 : load64 m5 (hdr + 8 + actual) = hdrSize h - actual - 8 := by
    rw [← ls2]
    apply load64_congr
    intro x hx1 hx2
    rw [sa.2 x (by omega)]
    apply f42 x (by omega)
    intro d hd
    have := nodeF d hd
    omega
  have fm : ∀ x, (x < hdr ∨ hdr + 8 + hdrSize h ≤ x) →
      (∀ d ∈ l1 ++ l2, x < d ∨ d + 16 ≤ x) → m5 x = s.mem x := by
    intro x hx1 hx2
    rw [sa.2 x (by omega), f4 x, f3 x (by omega), f2 x (by omega) (by omega)]
    · intro d hd
      rcases List.mem_append.1 hd with q | q
      · exact hx2 d (List.mem_append_left _ q)
      · rcases List.mem_cons.1 q with r | r
        · omega
        · exact hx2 d (List.mem_append_right _ r)
    · intro d hd
      rcases List.mem_cons.1 hd with q | q
      · omega
      · exact hx2 d q
  have fh : ∀ b ∈ pre ++ (hdr, h) :: post, b.1 + 8 ≤ hdr ∨ hdr + 8 + hdrSize h ≤ b.1 →
      load64 m5 b.1 = load64 s.mem b.1 := by
    intro b hb hne
    apply load64_congr
    intro x hx1 hx2
    apply fm x (by omega) _
    intro d hd
    have := hsafe b hb d (hsub d hd)
    omega
  refine ⟨⟨?_, ?_, g3, ?_, ?_, ?_, ?_, ?_, ?_⟩, fm⟩
  · exact (k4.1.trans k3.1).trans (e1.trans g1)
  · exact (k4.2.2.1.trans k3.2.2.1).trans (e2.trans g2)
  · -- the run of blocks
    apply (blocks_focus _ _ _ _ _ _).2
    refine ⟨?_, sa.1, ?_⟩
    · apply blocks_hdr_frame s.mem _ _ pre _ b1
      intro b hb
      have := blocks_bounds _ _ _ _ b1 b hb
      exact fh b (List.mem_append_left _ hb) (by omega)
    · show Blocks m5 _ (hdr + 8 + hdrSize (actual + 1))
        ((hdr + 8 + actual, hdrSize h - actual - 8) :: post)
      rw [(hdrSize_mult actual h8).2]
      refine ⟨rfl, ls5, ?_⟩
      show Blocks m5 _ (hdr + 8 + actual + 8 + hdrSize (hdrSize h - actual - 8)) post
      rw [(hdrSize_mult (hdrSize h - actual - 8) (by omega)).1]
      have ea : hdr + 8 + actual + 8 + (hdrSize h - actual - 8) = hdr + 8 + hdrSize h := by
        omega
      rw [ea]
      apply blocks_hdr_frame s.mem _ _ post _ b3
      intro b hb
      have := blocks_bounds _ _ _ _ b3 b hb
      exact fh b (List.mem_append_right _ (List.mem_cons_of_mem _ hb)) (by omega)
  · -- the free list
    show DList m5 0 s4.linked_start ((hdr + 8 + actual + 8) :: (l1 ++ l2))
    apply dlist_frame _ _ _ _ _ D4
    intro d hd
    have hdd : d = hdr + 8 + actual + 8 ∨ d ∈ l1 ++ (hdr + 8) :: l2 := by
      rcases List.mem_cons.1 hd with q | q
      · exact Or.inl q
      · exact Or.inr (hsub d q)
    have : hdr + 8 ≤ d ∨ d + 16 ≤ hdr := by
      rcases hdd with q | q
      · omega
      · have := nodeF d q
        omega
    constructor
    · apply load64_congr
      intro x hx1 hx2
      exact sa.2 x (by omega)
    · apply load64_congr
      intro x hx1 hx2
      exact sa.2 x (by omega)
  · -- the nodes are the free payloads
    rw [freePayloads_append, freePayloads_cons, if_neg (by simp only; omega),
      freePayloads_cons, if_pos (by simp only; omega)]
    rw [freePayloads_append, freePayloads_cons, if_pos he] at hp
    have := ((List.perm_middle.symm.trans hp).trans List.perm_middle).cons_inv
    exact ((List.Perm.cons (hdr + 8 + actual + 8) this).trans List.perm_middle.symm)
  · intro b hb hbe
    rcases List.mem_append.1 hb with q | q
    · exact hz b (List.mem_append_left _ q) hbe
    · rcases List.mem_cons.1 q with r | r
      · rw [r] at hbe
        simp only at hbe
        omega
      · rcases List.mem_cons.1 r with t | t
        · rw [t]
          show 16 ≤ hdrSize (hdrSize h - actual - 8)
          rw [(hdrSize_mult (hdrSize h - actual - 8) (by omega)).1]
          omega
        · exact hz b (List.mem_append_right _ (List.mem_cons_of_mem _ t)) hbe
  · intro b hb hbo
    rcases List.mem_append.1 hb with q | q
    · exact ha b (List.mem_append_left _ q) hbo
    · rcases List.mem_cons.1 q with r | r
      · rw [r]
        show 24 ≤ hdrSize (actual + 1)
        rw [(hdrSize_mult actual h8).2]
        exact h24
      · rcases List.mem_cons.1 r with t | t
        · rw [t] at hbo
          simp only at hbo
          omega
        · exact ha b (List.mem_append_right _ (List.mem_cons_of_mem _ t)) hbo
  · show s4.blocks_allocated = _
    rw [k4.2.2.2.2.1, k3.2.2.2.2.1, e4, hc, allocCount_append, allocCount_append,
      allocCount_cons, allocCount_cons, allocCount_cons, if_neg (by simp only; omega),
      if_pos (by simp only; omega), if_neg (by simp only; omega)]
    omega

end Explicit

namespace Explicit
open Heap

/-- The loop of `mymalloc` passes the nodes that are too small and takes its decision
at the first node that is large enough. -/
theorem mallocLoop_search (actual : Nat) (s : State) (c : Nat) (l2 : List Nat)
    (hfit : ¬ getSize s.mem (accessHeader c) < actual) :
    ∀ (l1 : List Nat) (fuel list : Nat), FreeList s.mem list (l1 ++ c :: l2) →
      (∀ d ∈ l1, getSize s.mem (accessHeader d) < actual) → l1.length < fuel →
      mallocLoop actual fuel s list = mallocLoop actual 1 s c := by
  intro l1
  induction l1 with
  | nil =>
    intro fuel list h _ hf
    obtain ⟨h1, h2, _⟩ := h
    obtain ⟨f, rfl⟩ : ∃ f, fuel = f + 1 := ⟨fuel - 1, by simp at hf; omega⟩
    rw [h1, mallocLoop_succ, mallocLoop_succ, if_pos h2, if_pos h2, if_neg hfit, if_neg hfit]
  | cons e t ih =>
    intro fuel list h hsm hf
    obtain ⟨h1, h2, h3⟩ := h
    obtain ⟨f, rfl⟩ : ∃ f, fuel = f + 1 := ⟨fuel - 1, by simp at hf; omega⟩
    rw [h1, mallocLoop_succ, if_pos h2, if_pos (hsm e (List.mem_cons_self _ _))]
    exact ih f _ h3 (fun d hd => hsm d (List.mem_cons_of_mem _ hd))
      (by simp at hf; omega)

/-- More fuel does not change a result of the loop of `mymalloc`. -/
theorem mallocLoop_mono (actual : Nat) (s : State) (r : State × Nat) :
    ∀ (fuel list : Nat), mallocLoop actual fuel s list = some r →
      mallocLoop actual (fuel + 1) s list = some r := by
  intro fuel
  induction fuel with
  | zero =>
    intro list h
    rw [mallocLoop] at h
    exact absurd h (by simp)
  | succ f ih =>
    intro list h
    rw [mallocLoop_succ] at h
    rw [mallocLoop_succ]
    by_cases h1 : list ≠ 0
    · rw [if_pos h1] at h ⊢
      by_cases h2 : getSize s.mem (accessHeader list) < actual
      · rw [if_pos h2] at h ⊢
        exact ih _ h
      · rw [if_neg h2] at h ⊢
        exact h
    · rw [if_neg h1] at h ⊢
      exact h

theorem mallocLoop_mono_le (actual : Nat) (s : State) (r : State × Nat) (fuel list : Nat)
    (h : mallocLoop actual fuel s list = some r) :
    ∀ k, mallocLoop actual (fuel + k) s list = some r := by
  intro k
  induction k with
  | zero => exact h
  | succ k ih => exact mallocLoop_mono actual s r _ _ ih

/-- A list has no element with the property, or a first one. -/
theorem first_split (P : Nat → Prop) (l : List Nat) :
    (∀ d ∈ l, ¬ P d) ∨ ∃ l1 c l2, l = l1 ++ c :: l2 ∧ (∀ d ∈ l1, ¬ P d) ∧ P c := by
  induction l with
  | nil => left; intro d hd; simp at hd
  | cons e t ih =>
    by_cases he : P e
    · right; exact ⟨[], e, t, rfl, by intro d hd; simp at hd, he⟩
    · rcases ih with q | ⟨l1, c, l2, q1, q2, q3⟩
      · left
        intro d hd
        rcases List.mem_cons.1 hd with r | r
        · rw [r]; exact he
        · exact q d r
      · right
        refine ⟨e :: l1, c, l2, by rw [q1]; rfl, ?_, q3⟩
        intro d hd
        rcases List.mem_cons.1 hd with r | r
        · rw [r]; exact he
        · exact q2 d r

/-- The effective size of a request that does not wrap: at least `MIN_REQUEST_SIZE`, a
multiple of 8, at least the request and less than 8 above it or the minimum. -/
theorem roundup_facts (req : Nat) (h : req + 7 < WORD) :
    24 ≤ roundup req ALIGNMENT ∧ roundup req ALIGNMENT % 8 = 0 ∧
      req ≤ roundup req ALIGNMENT ∧ roundup req ALIGNMENT < max req 17 + 8 := by
  rw [roundup_expl_eq]
  unfold WORD at h
  by_cases q : req < 24
  · rw [if_pos q]; omega
  · rw [if_neg q, Nat.mod_eq_of_lt (by unfold WORD; omega)]
    omega

/-- The block whose payload is a node of the free list has status 0. -/
theorem rep_focus_even (base N : Nat) (s : State) (pre post : List (Nat × Nat)) (hdr h : Nat)
    (l : List Nat) (hrep : Rep base N s (pre ++ (hdr, h) :: post) l) (hl : hdr + 8 ∈ l) :
    h % 2 = 0 := by
  obtain ⟨b, h1, h2, h3, _, _, _⟩ := rep_node _ _ _ _ _ hrep _ hl
  have hmem : (hdr, h) ∈ pre ++ (hdr, h) :: post :=
    List.mem_append_right _ (List.mem_cons_self _ _)
  rcases blocks_disjoint s.mem _ _ _ hrep.2.2.2.1 b h1 (hdr, h) hmem with r | r | r
  · rw [r] at h2; exact h2
  · simp only at r; omega
  · simp only at r; omega

end Explicit

namespace Explicit
open Heap

/-- What `mymalloc` does when the first node of the free list that is large enough is
the payload of the block at `hdr`: it returns that payload; when the block has at
least `actual + 24` bytes it is split, otherwise it is taken whole. -/
theorem mymalloc_spec (base N : Nat) (s : State) (pre post : List (Nat × Nat)) (hdr h : Nat)
    (l1 l2 : List Nat) (req fuel : Nat)
    (hrep : Rep base N s (pre ++ (hdr, h) :: post) (l1 ++ (hdr + 8) :: l2))
    (hreq : req + 7 < WORD) (hact : roundup req ALIGNMENT + 24 < WORD)
    (hsmall : ∀ d ∈ l1, getSize s.mem (accessHeader d) < roundup req ALIGNMENT)
    (hfit : roundup req ALIGNMENT ≤ hdrSize h) (hfuel : l1.length < fuel) :
    ∃ s1, mymalloc fuel s req = some (s1, hdr + 8) ∧
      (roundup req ALIGNMENT + 24 ≤ hdrSize h →
        Rep base N s1
          (pre ++ (hdr, roundup req ALIGNMENT + 1) ::
            (hdr + 8 + roundup req ALIGNMENT, hdrSize h - roundup req ALIGNMENT - 8) :: post)
          ((hdr + 8 + roundup req ALIGNMENT + 8) :: (l1 ++ l2)) ∧
        ∀ x, (x < hdr ∨ hdr + 8 + hdrSize h ≤ x) → (∀ d ∈ l1 ++ l2, x < d ∨ d + 16 ≤ x) →
          s1.mem x = s.mem x) ∧
      (hdrSize h < roundup req ALIGNMENT + 24 →
        Rep base N s1 (pre ++ (hdr, h + 1) :: post) (l1 ++ l2) ∧
        ∀ x, (x < hdr ∨ hdr + 8 ≤ x) → (∀ d ∈ l1 ++ l2, x < d ∨ d + 16 ≤ x) →
          s1.mem x = s.mem x) := by
  have he : h % 2 = 0 :=
    rep_focus_even _ _ _ _ _ _ _ _ hrep (List.mem_append_right _ (List.mem_cons_self _ _))
  obtain ⟨r24, r8, _, _⟩ := roundup_facts req hreq
  have hmem : (hdr, h) ∈ pre ++ (hdr, h) :: post :=
    List.mem_append_right _ (List.mem_cons_self _ _)
  have hbnd := blocks_bounds _ _ _ _ hrep.2.2.2.1 (hdr, h) hmem
  have hW := hrep.2.2.1
  simp only at hbnd
  have lh : load64 s.mem hdr = h := ((blocks_focus _ _ _ _ _ _).1 hrep.2.2.2.1).2.1
  have ah : accessHeader (hdr + 8) = hdr := by unfold accessHeader ALIGNMENT; omega
  have gs : getSize s.mem hdr = hdrSize h := by rw [hdrSize_getSize, lh]
  have hWv : WORD = 18446744073709551616 := rfl
  have hm0 : mymalloc fuel s req =
      mallocLoop (roundup req ALIGNMENT) fuel s s.linked_start := rfl
  generalize roundup req ALIGNMENT = actual at *
  have hsearch := mallocLoop_search actual s (hdr + 8) l2 (by rw [ah, gs]; omega) l1 fuel
    s.linked_start (dlist_freeList _ _ _ _ hrep.2.2.2.2.1) hsmall hfuel
  have hnz : hdr + 8 ≠ 0 := by omega
  have haw : addW actual MIN_REQUEST_SIZE = actual + 24 := by
    unfold MIN_REQUEST_SIZE
    exact addW_of_lt _ _ (by omega)
  have hm : mymalloc fuel s req = mallocLoop actual 1 s (hdr + 8) := by
    rw [hm0]
    exact hsearch
  rw [hm, mallocLoop_succ, if_pos hnz, ah, gs, if_neg (by omega), haw]
  by_cases hsp : actual + 24 ≤ hdrSize h
  · rw [if_pos hsp]
    have hn := (header_after_store s.mem hdr actual (by omega) r8).2.2
    have hw : subW (subW (hdrSize h) actual) ALIGNMENT = hdrSize h - actual - 8 := by
      rw [subW_of_le (hdrSize h) actual (by omega) (by omega)]
      unfold ALIGNMENT
      exact subW_of_le (hdrSize h - actual) 8 (by omega) (by omega)
    rw [splitting_eq s hdr actual (hdrSize h) (hdr + 8) _ _ hn hw]
    refine ⟨_, rfl, fun _ => ?_, fun q => absurd hsp (by omega)⟩
    exact malloc_split base N s _ pre post hdr h actual l1 l2 hrep he r8 r24 hsp rfl
  · rw [if_neg hsp]
    refine ⟨_, rfl, fun q => absurd q hsp, fun _ => ?_⟩
    exact malloc_exact base N s pre post hdr h l1 l2 hrep he (by omega)

end Explicit

namespace Explicit
open Heap

theorem myfree_eq (s : State) (ptr : Nat) (h : ptr ≠ 0) :
    myfree s ptr =
      { (coalesce (linkFree s ptr) ptr).1 with
        mem := statusFree (coalesce (linkFree s ptr) ptr).1.mem (accessHeader ptr)
        blocks_allocated := (coalesce (linkFree s ptr) ptr).1.blocks_allocated - 1 } := by
  unfold myfree
  rw [if_pos h]

theorem coalesce_allocated (s : State) (payload : Nat)
    (h : isAllocated s.mem (nextBlock s.mem (accessHeader payload)) = true) :
    coalesce s payload = (s, false) := by
  unfold coalesce
  simp only [h, Bool.not_true, Bool.false_eq_true, if_false]

theorem coalesce_free (s : State) (payload : Nat)
    (h : isAllocated s.mem (nextBlock s.mem (accessHeader payload)) = false) :
    coalesce s payload =
      (unlinkFree { s with
          mem := store64 s.mem (accessHeader payload)
            (addW (load64 s.mem (accessHeader payload))
              (addW (getSize s.mem (nextBlock s.mem (accessHeader payload))) ALIGNMENT)) }
        (accessPayload (nextBlock s.mem (accessHeader payload))), true) := by
  unfold coalesce
  simp only [h, Bool.not_false, if_true]

/-- The link words of an allocated block of at least 16 bytes do not overlap the nodes
of the free list. -/
theorem rep_sep_cons (base N : Nat) (s : State) (bs : List (Nat × Nat)) (l : List Nat)
    (hrep : Rep base N s bs l) (c : Nat × Nat) (hc : c ∈ bs) (ho : c.2 % 2 = 1) :
    Sep ((c.1 + 8) :: l) := by
  apply List.Pairwise.cons _ (rep_sep _ _ _ _ _ hrep)
  intro d hd
  have := rep_alloc_safe _ _ _ _ _ hrep c hc ho d hd
  have := hrep.2.2.2.2.2.2.2.1 c hc ho
  omega

end Explicit

namespace Explicit
open Heap

/-- The state of `myfree` after `linkFree`: the freed payload heads the list, the
headers and the word at the end of the region are as before. -/
theorem free_link (base N : Nat) (s : State) (pre post : List (Nat × Nat)) (a h : Nat)
    (l : List Nat) (hrep : Rep base N s (pre ++ (a, h) :: post) l) (ho : h % 2 = 1) :
    DList (linkFree s (a + 8)).mem 0 (linkFree s (a + 8)).linked_start ((a + 8) :: l) ∧
      Sep ((a + 8) :: l) ∧
      (∀ x, (x < a + 8 ∨ a + 24 ≤ x) → (∀ d ∈ l, x < d ∨ d + 16 ≤ x) →
        (linkFree s (a + 8)).mem x = s.mem x) ∧
      (∀ b ∈ pre ++ (a, h) :: post,
        load64 (linkFree s (a + 8)).mem b.1 = load64 s.mem b.1) ∧
      load64 (linkFree s (a + 8)).mem (a + 8 + hdrSize h) = load64 s.mem (a + 8 + hdrSize h) ∧
      (∀ d ∈ l, a + 8 + hdrSize h + 8 ≤ d ∨ d + 16 ≤ a + 8 + hdrSize h) := by
  have hmem : (a, h) ∈ pre ++ (a, h) :: post :=
    List.mem_append_right _ (List.mem_cons_self _ _)
  have hsep := rep_sep_cons _ _ _ _ _ hrep (a, h) hmem ho
  have hsafe := rep_hdr_safe _ _ _ _ _ hrep
  have hal := rep_alloc_safe _ _ _ _ _ hrep (a, h) hmem ho
  have hnb := rep_node_bounds _ _ _ _ _ hrep
  have hlw := rep_head_lt _ _ _ _ _ hrep
  have h24 := hrep.2.2.2.2.2.2.2.1 (a, h) hmem ho
  have hbnd := blocks_bounds _ _ _ _ hrep.2.2.2.1 (a, h) hmem
  have hdis := blocks_disjoint _ _ _ _ hrep.2.2.2.1 (a, h) hmem
  have hW := hrep.2.2.1
  obtain ⟨_, _, b3⟩ := (blocks_focus _ _ _ _ _ _).1 hrep.2.2.2.1
  simp only at hsep hal h24 hbnd b3 hdis
  have D1 := linkFree_list s (a + 8) l hrep.2.2.2.2.1 hsep (by omega) (by omega) hlw
  have f1 : ∀ x, (x < a + 8 ∨ a + 24 ≤ x) → (∀ d ∈ l, x < d ∨ d + 16 ≤ x) →
      (linkFree s (a + 8)).mem x = s.mem x :=
    fun x hx1 hx2 => linkFree_frame_list s _ _ hrep.2.2.2.2.1 x (by omega) hx2
  have hn : ∀ d ∈ l, a + 8 + hdrSize h + 8 ≤ d ∨ d + 16 ≤ a + 8 + hdrSize h := by
    intro d hd
    cases post with
    | nil =>
      have e : a + 8 + hdrSize h = base + N := b3
      have := hnb d hd
      omega
    | cons c t =>
      have e : c.1 = a + 8 + hdrSize h := b3.1
      have := hsafe c (List.mem_append_right _ (List.mem_cons_of_mem _
        (List.mem_cons_self _ _))) d hd
      omega
  refine ⟨D1, hsep, f1, ?_, ?_, hn⟩
  · intro b hb
    apply load64_congr
    intro x hx1 hx2
    apply f1 x
    · rcases hdis b hb with r | r | r
      · rw [← r] at hx1 hx2
        simp only at hx1 hx2
        omega
      · omega
      · omega
    · intro d hd
      have := hsafe b hb d hd
      omega
  · apply load64_congr
    intro x hx1 hx2
    apply f1 x (by omega)
    intro d hd
    have := hn d hd
    omega

end Explicit

namespace Explicit
open Heap

/-- `myfree` of an allocated block whose successor is allocated (or, for the last
block, when the word at the end of the region has its status bit set): the block
becomes free and heads the free list; nothing else changes. -/
theorem free_plain (base N : Nat) (s : State) (pre post : List (Nat × Nat)) (a h : Nat)
    (l : List Nat) (hrep : Rep base N s (pre ++ (a, h) :: post) l) (ho : h % 2 = 1)
    (hsucc : isAllocated s.mem (a + 8 + hdrSize h) = true) :
    Rep base N (myfree s (a + 8)) (pre ++ (a, h - 1) :: post) ((a + 8) :: l) ∧
      ∀ x, (x < a ∨ a + 24 ≤ x) → (∀ d ∈ l, x < d ∨ d + 16 ≤ x) →
        (myfree s (a + 8)).mem x = s.mem x := by
  obtain ⟨D1, hsep, f1, fh1, fn1, hn⟩ := free_link base N s pre post a h l hrep ho
  have k1 := linkFree_fields s (a + 8)
  have hmem : (a, h) ∈ pre ++ (a, h) :: post :=
    List.mem_append_right _ (List.mem_cons_self _ _)
  have hsafe := rep_hdr_safe _ _ _ _ _ hrep
  have hdis := blocks_disjoint _ _ _ _ hrep.2.2.2.1 (a, h) hmem
  have h24 := hrep.2.2.2.2.2.2.2.1 (a, h) hmem ho
  obtain ⟨g1, g2, g3, hb, hd, hp, hz, ha, hc⟩ := hrep
  obtain ⟨b1, b2, b3⟩ := (blocks_focus _ _ _ _ _ _).1 hb
  simp only at b1 b2 b3 hdis h24
  have ah : accessHeader (a + 8) = a := by unfold accessHeader ALIGNMENT; omega
  have la : load64 (linkFree s (a + 8)).mem a = h := by
    rw [fh1 (a, h) hmem]; exact b2
  have hco : coalesce (linkFree s (a + 8)) (a + 8) = (linkFree s (a + 8), false) := by
    apply coalesce_allocated
    rw [ah, nextBlock_hdrSize, la, isAllocated_congr _ s.mem _ fn1]
    exact hsucc
  rw [myfree_eq s (a + 8) (by omega), hco, ah]
  simp only
  generalize linkFree s (a + 8) = s1 at *
  have sf := statusFree_odd s1.mem a (by rw [la]; exact ho)
  rw [la] at sf
  generalize statusFree s1.mem a = m2 at *
  have fm : ∀ x, (x < a ∨ a + 24 ≤ x) → (∀ d ∈ l, x < d ∨ d + 16 ≤ x) → m2 x = s.mem x := by
    intro x hx1 hx2
    rw [sf.2 x (by omega)]
    exact f1 x (by omega) hx2
  have fh : ∀ b ∈ pre ++ (a, h) :: post, b.1 + 8 ≤ a ∨ a + 8 + hdrSize h ≤ b.1 →
      load64 m2 b.1 = load64 s.mem b.1 := by
    intro b hb hne
    rw [← fh1 b hb]
    apply load64_congr
    intro x hx1 hx2
    exact sf.2 x (by omega)
  have hs := hdrSize_pred_odd h ho
  refine ⟨⟨k1.1.trans g1, k1.2.2.1.trans g2, g3, ?_, ?_, ?_, ?_, ?_, ?_⟩, fm⟩
  · apply (blocks_focus _ _ _ _ _ _).2
    refine ⟨?_, sf.1, ?_⟩
    · apply blocks_hdr_frame s.mem _ _ pre _ b1
      intro b hb
      have := blocks_bounds _ _ _ _ b1 b hb
      exact fh b (List.mem_append_left _ hb) (by omega)
    · show Blocks m2 _ (a + 8 + hdrSize (h - 1)) post
      rw [hs.1]
      apply blocks_hdr_frame s.mem _ _ post _ b3
      intro b hb
      have := blocks_bounds _ _ _ _ b3 b hb
      exact fh b (List.mem_append_right _ (List.mem_cons_of_mem _ hb)) (by omega)
  · show DList m2 0 s1.linked_start ((a + 8) :: l)
    apply dlist_frame _ _ _ _ _ D1
    intro d hd
    have : a + 8 ≤ d ∨ d + 16 ≤ a := by
      rcases List.mem_cons.1 hd with q | q
      · omega
      · have := hsafe (a, h) hmem d q
        simp only at this
        omega
    constructor
    · apply load64_congr
      intro x hx1 hx2
      exact sf.2 x (by omega)
    · apply load64_congr
      intro x hx1 hx2
      exact sf.2 x (by omega)
  · rw [freePayloads_append, freePayloads_cons, if_pos (by simp only; omega)]
    rw [freePayloads_append, freePayloads_cons, if_neg (by simp only; omega)] at hp
    exact (List.Perm.cons (a + 8) hp).trans List.perm_middle.symm
  · intro b hb hbe
    rcases List.mem_append.1 hb with q | q
    · exact hz b (List.mem_append_left _ q) hbe
    · rcases List.mem_cons.1 q with r | r
      · rw [r]
        show 16 ≤ hdrSize (h - 1)
        omega
      · exact hz b (List.mem_append_right _ (List.mem_cons_of_mem _ r)) hbe
  · intro b hb hbo
    rcases List.mem_append.1 hb with q | q
    · exact ha b (List.mem_append_left _ q) hbo
    · rcases List.mem_cons.1 q with r | r
      · rw [r] at hbo
        simp only at hbo
        omega
      · exact ha b (List.mem_append_right _ (List.mem_cons_of_mem _ r)) hbo
  · show s1.blocks_allocated - 1 = _
    rw [k1.2.2.2.2.1, hc, allocCount_append, allocCount_append, allocCount_cons,
      allocCount_cons, if_pos (by simp only; omega), if_neg (by simp only; omega)]
    omega

end Explicit

namespace Explicit
open Heap

theorem hdrSize_merge (h t : Nat) (ho : h % 2 = 1) :
    hdrSize (h + hdrSize t + 8 - 1) = hdrSize h + hdrSize t + 8 ∧
      (h + hdrSize t + 8) % 2 = 1 ∧ (h + hdrSize t + 8 - 1) % 2 = 0 := by
  have := hdrSize_mod8 t
  generalize hdrSize t = T at *
  unfold hdrSize
  omega

/-- `myfree` of an allocated block whose successor is a free block: the successor
leaves the free list and is merged into the freed block, which heads the free list. -/
theorem free_merge (base N : Nat) (s : State) (pre post : List (Nat × Nat)) (a h n t : Nat)
    (l1 l2 : List Nat)
    (hrep : Rep base N s (pre ++ (a, h) :: (n, t) :: post) (l1 ++ (n + 8) :: l2))
    (ho : h % 2 = 1) (he : t % 2 = 0) :
    Rep base N (myfree s (a + 8)) (pre ++ (a, h + hdrSize t + 8 - 1) :: post)
        ((a + 8) :: (l1 ++ l2)) ∧
      ∀ x, (x < a ∨ a + 24 ≤ x) → (∀ d ∈ l1 ++ (n + 8) :: l2, x < d ∨ d + 16 ≤ x) →
        (myfree s (a + 8)).mem x = s.mem x := by
  obtain ⟨D1, hsep, f1, fh1, fn1, hn⟩ := free_link base N s pre _ a h _ hrep ho
  have k1 := linkFree_fields s (a + 8)
  have hmem : (a, h) ∈ pre ++ (a, h) :: (n, t) :: post :=
    List.mem_append_right _ (List.mem_cons_self _ _)
  have hmemn : (n, t) ∈ pre ++ (a, h) :: (n, t) :: post :=
    List.mem_append_right _ (List.mem_cons_of_mem _ (List.mem_cons_self _ _))
  have hsafe := rep_hdr_safe _ _ _ _ _ hrep
  have h24 := hrep.2.2.2.2.2.2.2.1 (a, h) hmem ho
  have hbn := blocks_bounds _ _ _ _ hrep.2.2.2.1 (n, t) hmemn
  have hWv : WORD = 18446744073709551616 := rfl
  obtain ⟨g1, g2, g3, hb, hd, hp, hz, ha, hc⟩ := hrep
  have h16 := hz (n, t) hmemn he
  obtain ⟨b1, b2, b3⟩ := (blocks_focus _ _ _ _ _ _).1 hb
  obtain ⟨c1, c2, c3⟩ := b3
  simp only at b1 b2 c1 c2 c3 h24 hbn h16
  have hh := hdrSize_mod8 h
  have ht := hdrSize_mod8 t
  have hh7 : h < hdrSize h + 8 := by unfold hdrSize; omega
  have hmg := hdrSize_merge h t ho
  have ah : accessHeader (a + 8) = a := by unfold accessHeader ALIGNMENT; omega
  have la : load64 (linkFree s (a + 8)).mem a = h := by
    rw [fh1 (a, h) hmem]; exact b2
  have ln : load64 (linkFree s (a + 8)).mem n = t := by
    rw [fh1 (n, t) hmemn]
    have : load64 s.mem (a + 8 + hdrSize h) = t := c2
    rw [c1]
    exact this
  have hnb : nextBlock (linkFree s (a + 8)).mem (accessHeader (a + 8)) = n := by
    rw [ah, nextBlock_hdrSize, la, c1]
  have hco := coalesce_free (linkFree s (a + 8)) (a + 8)
    (by rw [hnb, isAllocated_eq, ln]; simp; omega)
  rw [hnb, ah, la, hdrSize_getSize, ln] at hco
  have hadd : addW h (addW (hdrSize t) ALIGNMENT) = h + hdrSize t + 8 := by
    have : addW (hdrSize t) ALIGNMENT = hdrSize t + 8 := by
      unfold ALIGNMENT
      exact addW_of_lt (hdrSize t) 8 (by omega)
    rw [this, addW_of_lt h (hdrSize t + 8) (by omega)]
    omega
  have hap : accessPayload n = n + 8 := rfl
  rw [hadd, hap] at hco
  rw [myfree_eq s (a + 8) (by omega), hco, ah]
  simp only
  generalize linkFree s (a + 8) = s1 at *
  -- the state after the header of the freed block has grown
  have D1b : DList (store64 s1.mem a (h + hdrSize t + 8)) 0 s1.linked_start
      ((a + 8) :: (l1 ++ (n + 8) :: l2)) := by
    apply dlist_frame _ _ _ _ _ D1
    intro d hd
    have : a + 8 ≤ d ∨ d + 16 ≤ a := by
      rcases List.mem_cons.1 hd with q | q
      · omega
      · have := hsafe (a, h) hmem d q
        simp only at this
        omega
    constructor
    · apply load64_congr
      intro x hx1 hx2
      exact store64_out _ _ _ _ (by omega)
    · apply load64_congr
      intro x hx1 hx2
      exact store64_out _ _ _ _ (by omega)
  have D2 := (unlinkFree_list { s1 with mem := store64 s1.mem a (h + hdrSize t + 8) } (n + 8)
    ((a + 8) :: l1) l2 D1b hsep).1
  have f2 : ∀ x, (∀ d ∈ (a + 8) :: l1 ++ l2, x < d ∨ d + 16 ≤ x) →
      (unlinkFree { s1 with mem := store64 s1.mem a (h + hdrSize t + 8) } (n + 8)).mem x =
        store64 s1.mem a (h + hdrSize t + 8) x :=
    fun x hx => unlinkFree_frame_list { s1 with mem := store64 s1.mem a (h + hdrSize t + 8) }
      (n + 8) ((a + 8) :: l1) l2 D1b x hx
  have k2 := unlinkFree_fields { s1 with mem := store64 s1.mem a (h + hdrSize t + 8) } (n + 8)
  simp only at k2
  generalize unlinkFree { s1 with mem := store64 s1.mem a (h + hdrSize t + 8) } (n + 8) = s2
    at *
  have hsub : ∀ d ∈ l1 ++ l2, d ∈ l1 ++ (n + 8) :: l2 := by
    intro d hd
    rcases List.mem_append.1 hd with q | q
    · exact List.mem_append_left _ q
    · exact List.mem_append_right _ (List.mem_cons_of_mem _ q)
  have f2b : ∀ x, (x < a + 8 ∨ a + 24 ≤ x) → (∀ d ∈ l1 ++ (n + 8) :: l2, x < d ∨ d + 16 ≤ x) →
      s2.mem x = store64 s1.mem a (h + hdrSize t + 8) x := by
    intro x hx1 hx2
    apply f2 x
    intro d hd
    rcases List.mem_cons.1 hd with q | q
    · omega
    · exact hx2 d (hsub d q)
  have la2 : load64 s2.mem a = h + hdrSize t + 8 := by
    rw [← load64_store64_small s1.mem a (h + hdrSize t + 8) (by omega)]
    apply load64_congr
    intro x hx1 hx2
    apply f2b x (by omega)
    intro d hd
    have := hsafe (a, h) hmem d hd
    simp only at this
    omega
  have sf := statusFree_odd s2.mem a (by rw [la2]; omega)
  rw [la2] at sf
  generalize statusFree s2.mem a = m3 at *
  have fm : ∀ x, (x < a ∨ a + 24 ≤ x) → (∀ d ∈ l1 ++ (n + 8) :: l2, x < d ∨ d + 16 ≤ x) →
      m3 x = s.mem x := by
    intro x hx1 hx2
    rw [sf.2 x (by omega), f2b x (by omega) hx2, store64_out _ _ _ _ (by omega)]
    exact f1 x (by omega) hx2
  have fh : ∀ b ∈ pre ++ (a, h) :: (n, t) :: post, b.1 + 8 ≤ a ∨ a + 24 ≤ b.1 →
      load64 m3 b.1 = load64 s.mem b.1 := by
    intro b hb hne
    apply load64_congr
    intro x hx1 hx2
    apply fm x (by omega)
    intro d hd
    have := hsafe b hb d hd
    omega
  refine ⟨⟨?_, ?_, g3, ?_, ?_, ?_, ?_, ?_, ?_⟩, fm⟩
  · exact (k2.1.trans k1.1).trans g1
  · exact (k2.2.2.1.trans k1.2.2.1).trans g2
  · apply (blocks_focus _ _ _ _ _ _).2
    refine ⟨?_, sf.1, ?_⟩
    · apply blocks_hdr_frame s.mem _ _ pre _ b1
      intro b hb
      have := blocks_bounds _ _ _ _ b1 b hb
      exact fh b (List.mem_append_left _ hb) (by omega)
    · show Blocks m3 _ (a + 8 + hdrSize (h + hdrSize t + 8 - 1)) post
      rw [hmg.1]
      have ea : a + 8 + (hdrSize h + hdrSize t + 8) = a + 8 + hdrSize h + 8 + hdrSize t := by
        omega
      rw [ea]
      apply blocks_hdr_frame s.mem _ _ post _ c3
      intro b hb
      have := blocks_bounds _ _ _ _ c3 b hb
      exact fh b (List.mem_append_right _ (List.mem_cons_of_mem _ (List.mem_cons_of_mem _ hb)))
        (by omega)
  · show DList m3 0 s2.linked_start ((a + 8) :: (l1 ++ l2))
    apply dlist_frame _ _ _ _ _ D2
    intro d hd
    have : a + 8 ≤ d ∨ d + 16 ≤ a := by
      rcases List.mem_cons.1 hd with q | q
      · omega
      · have := hsafe (a, h) hmem d (hsub d q)
        simp only at this
        omega
    constructor
    · apply load64_congr
      intro x hx1 hx2
      exact sf.2 x (by omega)
    · apply load64_congr
      intro x hx1 hx2
      exact sf.2 x (by omega)
  · rw [freePayloads_append, freePayloads_cons, if_pos (by simp only; omega)]
    rw [freePayloads_append, freePayloads_cons, if_neg (by simp only; omega),
      freePayloads_cons, if_pos (by simp only; omega)] at hp
    have := ((List.perm_middle.symm.trans hp).trans List.perm_middle).cons_inv
    exact (List.Perm.cons (a + 8) this).trans List.perm_middle.symm
  · intro b hb hbe
    rcases List.mem_append.1 hb with q | q
    · exact hz b (List.mem_append_left _ q) hbe
    · rcases List.mem_cons.1 q with r | r
      · rw [r]
        show 16 ≤ hdrSize (h + hdrSize t + 8 - 1)
        omega
      · exact hz b (List.mem_append_right _ (List.mem_cons_of_mem _
          (List.mem_cons_of_mem _ r))) hbe
  · intro b hb hbo
    rcases List.mem_append.1 hb with q | q
    · exact ha b (List.mem_append_left _ q) hbo
    · rcases List.mem_cons.1 q with r | r
      · rw [r] at hbo
        simp only at hbo
        omega
      · exact ha b (List.mem_append_right _ (List.mem_cons_of_mem _
          (List.mem_cons_of_mem _ r))) hbo
  · show s2.blocks_allocated - 1 = _
    rw [k2.2.2.2.2.1, k1.2.2.2.2.1, hc, allocCount_append, allocCount_append, allocCount_cons,
      allocCount_cons, allocCount_cons, if_pos (by simp only; omega),
      if_neg (by simp only; omega), if_neg (by simp only; omega)]
    omega

end Explicit

namespace Explicit
open Heap

/-- The state after a successful `myinit`. -/
theorem myinit_eq (s0 : State) (base N : Nat) (h8 : 8 ≤ N) (hN : N < WORD) :
    myinit s0 base N =
      ({ mem := store64 s0.mem base (N - 8), segment_start := base, segment_size := N,
         segment_end := base + N, start_hdr := base, linked_start := base + 8,
         blocks_allocated := 0 }, true) := by
  have hsub : subW N ALIGNMENT = N - 8 := by
    unfold ALIGNMENT
    exact subW_of_le _ _ h8 hN
  unfold myinit
  rw [if_pos (by unfold ALIGNMENT; omega), hsub]
  rfl

/-- After `myinit` on a region of at least 24 bytes whose first two payload words are
`NULL`, the heap is one free block that is alone on the free list. -/
theorem myinit_rep (s0 : State) (base N : Nat) (h24 : 24 ≤ N) (hm : N % 8 = 0)
    (hN : N < WORD) (hW : base + N ≤ WORD) (hn : load64 s0.mem (base + 8) = 0)
    (hp : load64 s0.mem (base + 16) = 0) :
    Rep base N (myinit s0 base N).1 [(base, N - 8)] [base + 8] := by
  have hWv : WORD = 18446744073709551616 := rfl
  rw [myinit_eq s0 base N (by omega) (by omega)]
  have hs : hdrSize (N - 8) = N - 8 := (hdrSize_mult (N - 8) (by omega)).1
  refine ⟨rfl, rfl, hW, ?_, ?_, ?_, ?_, ?_, ?_⟩
  · refine ⟨rfl, load64_store64_small _ _ _ (by omega), ?_⟩
    show base + 8 + hdrSize (N - 8) = base + N
    rw [hs]
    omega
  · refine ⟨rfl, by omega, ?_, ?_⟩
    · show load64 (store64 s0.mem base (N - 8)) (base + 8 + 8) = 0
      rw [load64_store64_disj _ _ _ _ (by omega)]
      exact hp
    · show load64 (store64 s0.mem base (N - 8)) (base + 8) = 0
      rw [load64_store64_disj _ _ _ _ (by omega)]
      exact hn
  · rw [freePayloads_cons, if_pos (by simp only; omega)]
    exact List.Perm.refl _
  · intro b hb _
    rw [List.mem_singleton.1 hb]
    show 16 ≤ hdrSize (N - 8)
    omega
  · intro b hb ho
    rw [List.mem_singleton.1 hb] at ho
    simp only at ho
    omega
  · show (0 : Int) = allocCount [(base, N - 8)]
    rw [allocCount_cons, if_neg (by simp only; omega)]
    rfl

/-- After `myinit` on a region of 8 or 16 bytes whose first payload word is `NULL`. -/
theorem myinit_tiny (s0 : State) (base N : Nat) (h8 : 8 ≤ N) (h24 : N < 24) (hm : N % 8 = 0)
    (hn : load64 s0.mem (base + 8) = 0) : Tiny base N (myinit s0 base N).1 := by
  have hWv : WORD = 18446744073709551616 := rfl
  rw [myinit_eq s0 base N h8 (by omega)]
  have hs : hdrSize (N - 8) = N - 8 := (hdrSize_mult (N - 8) (by omega)).1
  refine ⟨h24, rfl, rfl, ?_, rfl, ?_, rfl⟩
  · refine ⟨rfl, load64_store64_small _ _ _ (by omega), ?_⟩
    show base + 8 + hdrSize (N - 8) = base + N
    rw [hs]
    omega
  · show load64 (store64 s0.mem base (N - 8)) (base + 8) = 0
    rw [load64_store64_disj _ _ _ _ (by omega)]
    exact hn

/-- An allocated payload is the payload of a block of the run with status 1. -/
theorem explicit_allocated_block (s : State) (p e : Nat) (bs : List (Nat × Nat))
    (he : s.segment_end = e) (hb : Blocks s.mem e s.segment_start bs) (ha : Allocated s p) :
    ∃ pre h post, bs = pre ++ (accessHeader p, h) :: post ∧ h % 2 = 1 ∧
      p = accessHeader p + 8 := by
  obtain ⟨fuel, l, hw, hmem, hp, hal⟩ := ha
  rw [he] at hw
  have hb2 := walk_blocks _ _ _ _ _ hw
  have hbs := blocks_unique _ _ _ _ _ hb hb2
  have : (accessHeader p, load64 s.mem (accessHeader p)) ∈ bs := by
    rw [hbs]
    exact List.mem_map.2 ⟨_, hmem, rfl⟩
  obtain ⟨pre, post, e1⟩ := List.append_of_mem this
  exact ⟨pre, _, post, e1, allocated_odd _ _ hal, hp⟩

/-- On a region of fewer than 24 bytes `mymalloc` returns `NULL` and changes nothing. -/
theorem tiny_malloc (base N : Nat) (s s1 : State) (fuel req p : Nat) (ht : Tiny base N s)
    (hreq : req + 7 < WORD) (hm : mymalloc fuel s req = some (s1, p)) : s1 = s ∧ p = 0 := by
  obtain ⟨h24, _, _, hb, hl, hn, _⟩ := ht
  obtain ⟨r24, _, _, _⟩ := roundup_facts req hreq
  have hf : FreeList s.mem s.linked_start [base + 8] := by
    rw [hl]
    exact ⟨rfl, by omega, hn⟩
  obtain ⟨r, hr1, hr2, hr3⟩ := mallocLoop_null_iff (roundup req ALIGNMENT) s [base + 8]
    (fuel + 2) s.linked_start hf (by simp)
  have hm2 := mallocLoop_mono_le _ _ _ _ _ hm 2
  have hm3 : mallocLoop (roundup req ALIGNMENT) (fuel + 2) s s.linked_start = some (s1, p) :=
    hm2
  rw [hm3] at hr1
  have hr : r = (s1, p) := (Option.some.inj hr1).symm
  rw [hr] at hr2 hr3
  have hsmall : ∀ c ∈ [base + 8], getSize s.mem (accessHeader c) < roundup req ALIGNMENT := by
    intro c hc
    rw [List.mem_singleton.1 hc]
    have ah : accessHeader (base + 8) = base := by unfold accessHeader ALIGNMENT; omega
    rw [ah, hdrSize_getSize, hb.2.1]
    have := hdrSize_mod8 (N - 8)
    simp only at this ⊢
    omega
  have hp0 : p = 0 := hr2.2 hsmall
  exact ⟨hr3 hp0, hp0⟩

/-- On a region of fewer than 24 bytes no payload is allocated. -/
theorem tiny_not_allocated (base N : Nat) (s : State) (p : Nat) (ht : Tiny base N s)
    (hm : N % 8 = 0) (ha : Allocated s p) : False := by
  obtain ⟨h24, g1, g2, hb, _, _, _⟩ := ht
  have hb2 : Blocks s.mem (base + N) s.segment_start [(base, N - 8)] := by rw [g1]; exact hb
  obtain ⟨pre, h, post, e1, ho, _⟩ := explicit_allocated_block s p _ _ g2 hb2 ha
  have : (accessHeader p, h) ∈ [(base, N - 8)] := by
    rw [e1]
    exact List.mem_append_right _ (List.mem_cons_self _ _)
  have := (Prod.mk.inj (List.mem_singleton.1 this)).2
  omega

end Explicit

namespace Explicit
open Heap

/-- `myfree` of an allocated block keeps the invariant, provided the block is not the
last one or the word at the end of the region has its status bit set. -/
theorem myfree_rep (base N : Nat) (s : State) (pre post : List (Nat × Nat)) (a h : Nat)
    (l : List Nat) (hrep : Rep base N s (pre ++ (a, h) :: post) l) (ho : h % 2 = 1)
    (hsafe : a + 8 + hdrSize h = base + N → isAllocated s.mem (base + N) = true) :
    ∃ bs1 l1, Rep base N (myfree s (a + 8)) bs1 l1 ∧
      ∀ x, base + N ≤ x → (myfree s (a + 8)).mem x = s.mem x := by
  have hmem : (a, h) ∈ pre ++ (a, h) :: post :=
    List.mem_append_right _ (List.mem_cons_self _ _)
  have hbnd := blocks_bounds _ _ _ _ hrep.2.2.2.1 (a, h) hmem
  have h24 := hrep.2.2.2.2.2.2.2.1 (a, h) hmem ho
  have hnb := rep_node_bounds _ _ _ _ _ hrep
  obtain ⟨_, _, b3⟩ := (blocks_focus _ _ _ _ _ _).1 hrep.2.2.2.1
  simp only at hbnd h24 b3
  have plain : isAllocated s.mem (a + 8 + hdrSize h) = true →
      ∃ bs1 l1, Rep base N (myfree s (a + 8)) bs1 l1 ∧
        ∀ x, base + N ≤ x → (myfree s (a + 8)).mem x = s.mem x := by
    intro hs
    obtain ⟨r1, r2⟩ := free_plain base N s pre post a h l hrep ho hs
    refine ⟨_, _, r1, ?_⟩
    intro x hx
    apply r2 x (by omega)
    intro d hd
    have := hnb d hd
    omega
  cases post with
  | nil =>
    have e : a + 8 + hdrSize h = base + N := b3
    apply plain
    rw [e]
    exact hsafe e
  | cons c post1 =>
    obtain ⟨n, t⟩ := c
    obtain ⟨c1, c2, _⟩ := b3
    simp only at c1 c2
    by_cases ht : t % 2 = 1
    · apply plain
      rw [isAllocated_eq, c2]
      simp only [ht, decide_True]
    · have hmemn : (n, t) ∈ pre ++ (a, h) :: (n, t) :: post1 :=
        List.mem_append_right _ (List.mem_cons_of_mem _ (List.mem_cons_self _ _))
      have hin : n + 8 ∈ l :=
        (List.Perm.mem_iff hrep.2.2.2.2.2.1).2
          ((freePayloads_mem _ _).2 ⟨(n, t), hmemn, by simp only; omega, rfl⟩)
      obtain ⟨l1, l2, el⟩ := List.append_of_mem hin
      rw [el] at hrep hnb
      obtain ⟨r1, r2⟩ := free_merge base N s pre post1 a h n t l1 l2 hrep ho (by omega)
      refine ⟨_, _, r1, ?_⟩
      intro x hx
      apply r2 x (by omega)
      intro d hd
      have := hnb d hd
      omega

/-- Writing into the payload of an allocated block keeps the invariant. -/
theorem rep_payload_write (base N : Nat) (s : State) (bs : List (Nat × Nat)) (l : List Nat)
    (m2 : Mem) (q v : Nat) (hrep : Rep base N s bs l) (hq : (q, v) ∈ bs) (ho : v % 2 = 1)
    (hm : ∀ x, (x < q + 8 ∨ q + 8 + hdrSize v ≤ x) → m2 x = s.mem x) :
    Rep base N { s with mem := m2 } bs l := by
  have hal := rep_alloc_safe _ _ _ _ _ hrep (q, v) hq ho
  have hdis := blocks_disjoint _ _ _ _ hrep.2.2.2.1 (q, v) hq
  obtain ⟨g1, g2, g3, hb, hd, hp, hz, ha, hc⟩ := hrep
  simp only at hal hdis
  refine ⟨g1, g2, g3, ?_, ?_, hp, hz, ha, hc⟩
  · apply blocks_hdr_frame s.mem _ _ bs _ hb
    intro b hb
    apply load64_congr
    intro x hx1 hx2
    apply hm x
    rcases hdis b hb with r | r | r
    · rw [← r] at hx1 hx2
      simp only at hx1 hx2
      omega
    · omega
    · omega
  · apply dlist_frame _ _ _ _ _ hd
    intro d hd
    have := hal d hd
    constructor
    · apply load64_congr
      intro x hx1 hx2
      exact hm x (by omega)
    · apply load64_congr
      intro x hx1 hx2
      exact hm x (by omega)

end Explicit

namespace Explicit
open Heap

/-- A call of `mymalloc` that returns keeps the invariant: it returns `NULL` and
changes nothing, or it returns the payload of a block that is now allocated and has
at least the effective size; the blocks that were allocated stay as they are, and so
does the memory behind the region. -/
theorem mymalloc_rep (base N : Nat) (s s1 : State) (bs : List (Nat × Nat)) (l : List Nat)
    (fuel req p : Nat) (hrep : Rep base N s bs l) (hreq : req + 7 < WORD)
    (hact : roundup req ALIGNMENT + 24 < WORD) (hm : mymalloc fuel s req = some (s1, p)) :
    (p = 0 ∧ s1 = s) ∨
      ∃ bs1 l1 v, Rep base N s1 bs1 l1 ∧ (∀ b ∈ bs, b.2 % 2 = 1 → b ∈ bs1) ∧
        (p - 8, v) ∈ bs1 ∧ v % 2 = 1 ∧ roundup req ALIGNMENT ≤ hdrSize v ∧ p = p - 8 + 8 ∧
        ∀ x, base + N ≤ x → s1.mem x = s.mem x := by
  have hnb := rep_node_bounds _ _ _ _ _ hrep
  rcases first_split (fun d => ¬ getSize s.mem (accessHeader d) < roundup req ALIGNMENT) l
    with hall | ⟨l1, c, l2, el, hsm, hfit⟩
  · left
    obtain ⟨r, hr1, hr2, hr3⟩ := mallocLoop_null_iff (roundup req ALIGNMENT) s l
      (fuel + (l.length + 1)) s.linked_start (dlist_freeList _ _ _ _ hrep.2.2.2.2.1)
      (by omega)
    have hm2 : mallocLoop (roundup req ALIGNMENT) (fuel + (l.length + 1)) s s.linked_start =
        some (s1, p) := mallocLoop_mono_le _ _ _ _ _ hm _
    rw [hm2] at hr1
    have hr : r = (s1, p) := (Option.some.inj hr1).symm
    rw [hr] at hr2 hr3
    have hp0 : p = 0 := hr2.2 (fun c hc => not_not.1 (hall c hc))
    exact ⟨hp0, hr3 hp0⟩
  · right
    have hc : c ∈ l := by rw [el]; exact List.mem_append_right _ (List.mem_cons_self _ _)
    obtain ⟨b, hb1, hb2, hb3, _, _, hb6⟩ := rep_node _ _ _ _ _ hrep c hc
    obtain ⟨pre, post, eb⟩ := List.append_of_mem hb1
    obtain ⟨hdr, h⟩ := b
    simp only at hb2 hb3 hb6
    subst hb3
    rw [eb, el] at hrep
    rw [el] at hnb
    have lh : load64 s.mem hdr = h := ((blocks_focus _ _ _ _ _ _).1 hrep.2.2.2.1).2.1
    have ah : accessHeader (hdr + 8) = hdr := by unfold accessHeader ALIGNMENT; omega
    have hfit2 : roundup req ALIGNMENT ≤ hdrSize h := by
      have : ¬ getSize s.mem (accessHeader (hdr + 8)) < roundup req ALIGNMENT := hfit
      rw [ah, hdrSize_getSize, lh] at this
      omega
    obtain ⟨s2, hs2, hsplit, hexact⟩ := mymalloc_spec base N s pre post hdr h l1 l2 req
      (fuel + (l1.length + 1)) hrep hreq hact (fun d hd => not_not.1 (hsm d hd)) hfit2
      (by omega)
    have hm2 : mymalloc (fuel + (l1.length + 1)) s req = some (s1, p) :=
      mallocLoop_mono_le _ _ _ _ _ hm _
    rw [hm2] at hs2
    obtain ⟨rfl, rfl⟩ := Prod.mk.inj (Option.some.inj hs2)
    have hpp : hdr + 8 - 8 = hdr := by omega
    obtain ⟨r24, r8, _, _⟩ := roundup_facts req hreq
    have hold : ∀ b ∈ bs, b.2 % 2 = 1 → b ∈ pre ∨ b ∈ post := by
      intro b hb ho
      rw [eb] at hb
      rcases List.mem_append.1 hb with q | q
      · exact Or.inl q
      · rcases List.mem_cons.1 q with r | r
        · rw [r] at ho
          simp only at ho
          omega
        · exact Or.inr r
    by_cases hsp : roundup req ALIGNMENT + 24 ≤ hdrSize h
    · obtain ⟨r1, r2⟩ := hsplit hsp
      refine ⟨_, _, roundup req ALIGNMENT + 1, r1, ?_, ?_, by omega, ?_, by omega, ?_⟩
      · intro b hb ho
        rcases hold b hb ho with q | q
        · exact List.mem_append_left _ q
        · exact List.mem_append_right _ (List.mem_cons_of_mem _ (List.mem_cons_of_mem _ q))
      · rw [hpp]
        exact List.mem_append_right _ (List.mem_cons_self _ _)
      · rw [(hdrSize_mult _ r8).2]
      · intro x hx
        apply r2 x (by omega)
        intro d hd
        have : d ∈ l1 ++ (hdr + 8) :: l2 := by
          rcases List.mem_append.1 hd with q | q
          · exact List.mem_append_left _ q
          · exact List.mem_append_right _ (List.mem_cons_of_mem _ q)
        have := hnb d this
        omega
    · obtain ⟨r1, r2⟩ := hexact (by omega)
      refine ⟨_, _, h + 1, r1, ?_, ?_, by omega, ?_, by omega, ?_⟩
      · intro b hb ho
        rcases hold b hb ho with q | q
        · exact List.mem_append_left _ q
        · exact List.mem_append_right _ (List.mem_cons_of_mem _ q)
      · rw [hpp]
        exact List.mem_append_right _ (List.mem_cons_self _ _)
      · rw [(hdrSize_succ_even h hb2).1]
        exact hfit2
      · intro x hx
        apply r2 x (by omega)
        intro d hd
        have : d ∈ l1 ++ (hdr + 8) :: l2 := by
          rcases List.mem_append.1 hd with q | q
          · exact List.mem_append_left _ q
          · exact List.mem_append_right _ (List.mem_cons_of_mem _ q)
        have := hnb d this
        omega

end Explicit

namespace Explicit
open Heap

/-- Rounding an effective size again does not change it. -/
theorem roundup_idem (n : Nat) (h : n + 31 < WORD) :
    roundup (roundup n ALIGNMENT) ALIGNMENT = roundup n ALIGNMENT ∧
      roundup n ALIGNMENT + 24 < WORD := by
  obtain ⟨r24, r8, _, rlt⟩ := roundup_facts n (by omega)
  have hWv : WORD = 18446744073709551616 := rfl
  constructor
  · generalize roundup n ALIGNMENT = r at *
    rw [roundup_expl_eq, if_neg (by omega), Nat.mod_eq_of_lt (by omega)]
    omega
  · omega

/-- A call of `myrealloc` that returns keeps the invariant, when it is given `NULL` or
an allocated payload that is safe to free and, for a payload, returns a payload. -/
theorem myrealloc_rep (base N : Nat) (s s1 : State) (bs : List (Nat × Nat)) (l : List Nat)
    (fuel p n q : Nat) (hrep : Rep base N s bs l)
    (hp : p = 0 ∨ (Allocated s p ∧ FreeSafe s p)) (hn : n + 31 < WORD)
    (hm : myrealloc fuel s p n = some (s1, q)) (hq : p = 0 ∨ q ≠ 0) :
    ∃ bs1 l1, Rep base N s1 bs1 l1 := by
  obtain ⟨hid, hact⟩ := roundup_idem n hn
  obtain ⟨r24, r8, _, rlt⟩ := roundup_facts n (by omega)
  have hWv : WORD = 18446744073709551616 := rfl
  unfold myrealloc at hm
  simp only at hm
  by_cases h0 : p = 0
  · rw [if_pos h0] at hm
    rcases mymalloc_rep base N s s1 bs l fuel _ q hrep (by omega) (by rw [hid]; exact hact) hm
      with ⟨_, e⟩ | ⟨bs1, l1, _, r1, _⟩
    · rw [e]; exact ⟨bs, l, hrep⟩
    · exact ⟨bs1, l1, r1⟩
  · rw [if_neg h0] at hm
    by_cases hle : roundup n ALIGNMENT ≤ getSize s.mem (accessHeader p)
    · rw [if_pos hle] at hm
      obtain ⟨rfl, _⟩ := Prod.mk.inj (Option.some.inj hm)
      exact ⟨bs, l, hrep⟩
    · rw [if_neg hle] at hm
      obtain ⟨hal, hfs⟩ := hp.resolve_left h0
      have hb1 : Blocks s.mem (base + N) s.segment_start bs := by
        rw [hrep.1]; exact hrep.2.2.2.1
      obtain ⟨pre, h, post, eb, ho, hpa⟩ := explicit_allocated_block s p _ bs hrep.2.1 hb1 hal
      generalize accessHeader p = a at *
      subst hpa
      have hmem : (a, h) ∈ bs := by
        rw [eb]; exact List.mem_append_right _ (List.mem_cons_self _ _)
      have lh : load64 s.mem a = h := by
        have := hrep.2.2.2.1
        rw [eb] at this
        exact ((blocks_focus _ _ _ _ _ _).1 this).2.1
      have hbnd := blocks_bounds _ _ _ _ hrep.2.2.2.1 (a, h) hmem
      simp only at hbnd
      rw [hdrSize_getSize, lh] at hm hle
      cases hmm : mymalloc fuel s (roundup n ALIGNMENT) with
      | none => rw [hmm] at hm; simp at hm
      | some r =>
        obtain ⟨s2, q2⟩ := r
        rw [hmm] at hm
        simp only at hm
        obtain ⟨rfl, rfl⟩ := Prod.mk.inj (Option.some.inj hm)
        rcases mymalloc_rep base N s s2 bs l fuel _ q2 hrep (by omega)
          (by rw [hid]; exact hact) hmm with ⟨e0, _⟩ | ⟨bs2, l2, v, r1, r2, r3, r4, r5, r6, r7⟩
        · exact absurd e0 (hq.resolve_left h0)
        · rw [hid] at r5
          have hbq := blocks_bounds _ _ _ _ r1.2.2.2.1 (q2 - 8, v) r3
          simp only at hbq
          -- the copy stays inside the new payload
          have hcp := rep_payload_write base N s2 bs2 l2
            (memcpy s2.mem q2 (a + 8) (hdrSize h)) (q2 - 8) v r1 r3 r4
            (fun x hx => memcpy_out _ _ _ _ _ (by omega))
          obtain ⟨pre2, post2, e2⟩ := List.append_of_mem (r2 (a, h) hmem ho)
          rw [e2] at hcp
          have hsafe : a + 8 + hdrSize h = base + N →
              isAllocated (memcpy s2.mem q2 (a + 8) (hdrSize h)) (base + N) = true := by
            intro e
            have hfs2 : isAllocated s.mem (base + N) = true := by
              have := hfs
              unfold FreeSafe at this
              have ah : accessHeader (a + 8) = a := by unfold accessHeader ALIGNMENT; omega
              rw [ah, nextBlock_hdrSize, lh, hrep.2.1] at this
              exact this e
            rw [← hfs2]
            apply isAllocated_congr
            apply load64_congr
            intro x hx1 hx2
            rw [memcpy_out _ _ _ _ _ (by omega)]
            exact r7 x hx1
          obtain ⟨bs3, l3, r8, _⟩ := myfree_rep base N _ pre2 post2 a h l2 hcp ho hsafe
          exact ⟨bs3, l3, r8⟩

/-- Every reached state satisfies the invariant. -/
theorem explicit_reach_inv (base N : Nat) (h8 : 8 ≤ N) (hm : N % 8 = 0) (hN : N < WORD)
    (hW : base + N ≤ WORD) (s : State) (hr : Reach base N s) : Inv base N s := by
  induction hr with
  | init s0 hn hp =>
    by_cases h24 : 24 ≤ N
    · exact Or.inr ⟨_, _, myinit_rep s0 base N h24 hm hN hW hn hp⟩
    · exact Or.inl (myinit_tiny s0 base N h8 (by omega) hm hn)
  | malloc s s1 fuel req p _ hreq hmal ih =>
    have hWv : WORD = 18446744073709551616 := rfl
    rcases ih with ht | ⟨bs, l, hrep⟩
    · rw [(tiny_malloc base N s s1 fuel req p ht (by omega) hmal).1]
      exact Or.inl ht
    · obtain ⟨_, _, _, rlt⟩ := roundup_facts req (by omega)
      rcases mymalloc_rep base N s s1 bs l fuel req p hrep (by omega) (by omega) hmal
        with ⟨_, e⟩ | ⟨bs1, l1, _, r1, _⟩
      · rw [e]; exact Or.inr ⟨bs, l, hrep⟩
      · exact Or.inr ⟨bs1, l1, r1⟩
  | free s p _ hp ih =>
    by_cases h0 : p = 0
    · have : myfree s p = s := by unfold myfree; rw [if_neg (by simpa using h0)]
      rw [this]
      exact ih
    · obtain ⟨hal, hfs⟩ := hp.resolve_left h0
      rcases ih with ht | ⟨bs, l, hrep⟩
      · exact absurd hal (fun q => tiny_not_allocated base N s p ht hm q)
      · have hb1 : Blocks s.mem (base + N) s.segment_start bs := by
          rw [hrep.1]; exact hrep.2.2.2.1
        obtain ⟨pre, h, post, eb, ho, hpa⟩ :=
          explicit_allocated_block s p _ bs hrep.2.1 hb1 hal
        rw [eb] at hrep
        have lh : load64 s.mem (accessHeader p) = h :=
          ((blocks_focus _ _ _ _ _ _).1 hrep.2.2.2.1).2.1
        have hsafe : accessHeader p + 8 + hdrSize h = base + N →
            isAllocated s.mem (base + N) = true := by
          intro e
          have := hfs
          unfold FreeSafe at this
          rw [nextBlock_hdrSize, lh, hrep.2.1] at this
          exact this e
        obtain ⟨bs1, l1, r1, _⟩ := myfree_rep base N s pre post _ h l hrep ho hsafe
        rw [← hpa] at r1
        exact Or.inr ⟨bs1, l1, r1⟩
  | realloc s s1 fuel p n q _ hp hn hre hq ih =>
    rcases ih with ht | ⟨bs, l, hrep⟩
    · have hp0 : p = 0 := by
        rcases hp with h0 | ⟨hal, _⟩
        · exact h0
        · exact absurd hal (fun q => tiny_not_allocated base N s p ht hm q)
      have hWv : WORD = 18446744073709551616 := rfl
      obtain ⟨_, _, _, rlt⟩ := roundup_facts n (by omega)
      unfold myrealloc at hre
      simp only at hre
      rw [if_pos hp0] at hre
      rw [(tiny_malloc base N s s1 fuel _ q ht (by omega) hre).1]
      exact Or.inl ht
    · obtain ⟨bs1, l1, r1⟩ := myrealloc_rep base N s s1 bs l fuel p n q hrep hp hn hre hq
      exact Or.inr ⟨bs1, l1, r1⟩

end Explicit

namespace Explicit
open Heap

theorem countLoop_succ (m : Mem) (e fuel ptr : Nat) (acc : Int) :
    countLoop m e (fuel + 1) ptr acc =
      if ptr = e then some acc
      else countLoop m e fuel (nextBlock m ptr) (if isAllocated m ptr then acc + 1 else acc) := by
  rw [countLoop]

/-- On a run of blocks the first loop of `validate_heap` counts the blocks with
status 1. -/
theorem countLoop_blocks (m : Mem) (e : Nat) (bs : List (Nat × Nat)) :
    ∀ a (acc : Int) fuel, Blocks m e a bs → bs.length < fuel →
      countLoop m e fuel a acc = some (acc + allocCount bs) := by
  induction bs with
  | nil =>
    intro a acc fuel h hf
    obtain ⟨f, rfl⟩ : ∃ f, fuel = f + 1 := ⟨fuel - 1, by omega⟩
    have : a = e := h
    rw [countLoop_succ, if_pos this]
    simp [allocCount]
  | cons b t ih =>
    intro a acc fuel h hf
    obtain ⟨f, rfl⟩ : ∃ f, fuel = f + 1 := ⟨fuel - 1, by omega⟩
    have htot := blocks_total m e _ a h
    simp only [total] at htot
    obtain ⟨h1, h2, h3⟩ := h
    have hf2 : t.length < f := by simp at hf; omega
    rw [countLoop_succ, if_neg (by omega), nextBlock_hdrSize, h2, isAllocated_eq, h2,
      ih _ _ f h3 hf2, allocCount_cons]
    by_cases c : b.2 % 2 = 1
    · simp only [c, decide_True, if_true]
      congr 1
      omega
    · simp only [c, decide_False, if_false, Bool.false_eq_true]
      congr 1
      omega

/-- The count of the blocks with status 1, read off the memory. -/
theorem blocks_allocCount (m : Mem) (e : Nat) (bs : List (Nat × Nat)) :
    ∀ a, Blocks m e a bs →
      allocCount bs = (((bs.map Prod.fst).filter (fun x => isAllocated m x)).length : Int) := by
  induction bs with
  | nil => intro a _; simp [allocCount]
  | cons b t ih =>
    intro a h
    obtain ⟨h1, h2, h3⟩ := h
    have := ih _ h3
    rw [allocCount_cons, this, List.map_cons, List.filter_cons, h1, isAllocated_eq, h2]
    by_cases c : b.2 % 2 = 1
    · simp only [c, decide_True, if_true, List.length_cons]
      push_cast
      omega
    · simp only [c, decide_False, if_false, Bool.false_eq_true]
      omega

/-- C11 (amended). Explicit accounting: in every state reached from a successful
`myinit(base, N)`, `N` a multiple of 8, on a region whose first two payload words are
`NULL`, by contract-respecting calls (no release of the last block while the word
behind the region has status 0, `myrealloc` of a payload returns a payload), the block
walk from the base arrives at `segment_end` and `blocks_allocated` is the number of
headers it meets whose status bit is 1; the first loop of `validate_heap` computes
that number. -/
theorem explicit_accounting (base N : Nat) (s : State) (h8 : 8 ≤ N) (hm : N % 8 = 0)
    (hN : N < WORD) (hW : base + N ≤ WORD) (hr : Reach base N s) :
    ∃ l, (∀ fuel, l.length < fuel →
        blockWalk s.mem s.segment_end fuel s.segment_start = some l) ∧
      s.blocks_allocated = ((l.filter (fun a => isAllocated s.mem a)).length : Int) ∧
      (∀ fuel, l.length < fuel →
        countLoop s.mem s.segment_end fuel s.segment_start 0 = some s.blocks_allocated) := by
  have key : ∃ bs, s.segment_start = base ∧ s.segment_end = base + N ∧
      Blocks s.mem (base + N) base bs ∧ s.blocks_allocated = allocCount bs := by
    rcases explicit_reach_inv base N h8 hm hN hW s hr with ht | ⟨bs, l, hrep⟩
    · obtain ⟨_, g1, g2, hb, _, _, hc⟩ := ht
      refine ⟨_, g1, g2, hb, ?_⟩
      rw [hc, allocCount_cons, if_neg (by simp only; omega)]
      rfl
    · exact ⟨bs, hrep.1, hrep.2.1, hrep.2.2.2.1, hrep.2.2.2.2.2.2.2.2⟩
  obtain ⟨bs, g1, g2, hb, hc⟩ := key
  refine ⟨bs.map Prod.fst, ?_, ?_, ?_⟩
  · intro fuel hf
    rw [g1, g2]
    exact blocks_walk _ _ _ _ _ hb (by simpa using hf)
  · rw [hc]
    exact blocks_allocCount _ _ _ _ hb
  · intro fuel hf
    rw [g1, g2, countLoop_blocks _ _ _ _ 0 fuel hb (by simpa using hf), hc]
    simp

/-- Witness of `explicit_accounting`: the state after `myinit(4096, 1024)`,
`p = mymalloc(64)` and `myfree(p)` in zeroed memory. -/
theorem explicit_accounting_witness :
    8 ≤ 1024 ∧ 1024 % 8 = 0 ∧ 1024 < WORD ∧ 4096 + 1024 ≤ WORD ∧
    Reach 4096 1024 (myfree used64 4104) ∧
    ∃ l, (∀ fuel, l.length < fuel →
        blockWalk (myfree used64 4104).mem (myfree used64 4104).segment_end fuel
          (myfree used64 4104).segment_start = some l) ∧
      (myfree used64 4104).blocks_allocated =
        ((l.filter (fun a => isAllocated (myfree used64 4104).mem a)).length : Int) ∧
      (∀ fuel, l.length < fuel →
        countLoop (myfree used64 4104).mem (myfree used64 4104).segment_end fuel
          (myfree used64 4104).segment_start 0 = some (myfree used64 4104).blocks_allocated) :=
  have hr : Reach 4096 1024 (myfree used64 4104) :=
    Reach.free used64 4104
      (Reach.malloc fresh used64 4 64 4104 (Reach.init boot (by decide) (by decide))
        (by decide) (by rfl))
      (Or.inr ⟨⟨3, [4096, 4168], by rfl, by decide, by decide, by decide⟩,
        fun h => absurd h (by decide)⟩)
  ⟨by decide, by decide, by decide, by decide, hr,
    explicit_accounting 4096 1024 (myfree used64 4104) (by decide) (by decide) (by decide)
      (by decide) hr⟩

end Explicit

namespace Explicit
open Heap

/-- The two outcomes of `myfree` of an allocated block in a well-formed heap: the
successor is allocated or the block is the last one, and the block is freed as it is;
or the successor is a free block, which is merged into the freed block. -/
theorem myfree_cases (base N : Nat) (s : State) (pre post : List (Nat × Nat)) (a h : Nat)
    (l : List Nat) (hrep : Rep base N s (pre ++ (a, h) :: post) l) (ho : h % 2 = 1)
    (hsafe : a + 8 + hdrSize h = base + N → isAllocated s.mem (base + N) = true) :
    ((post = [] ∨ ∃ n t post1, post = (n, t) :: post1 ∧ t % 2 = 1) ∧
        Rep base N (myfree s (a + 8)) (pre ++ (a, h - 1) :: post) ((a + 8) :: l)) ∨
      ∃ n t post1 l1 l2, post = (n, t) :: post1 ∧ t % 2 = 0 ∧ l = l1 ++ (n + 8) :: l2 ∧
        Rep base N (myfree s (a + 8)) (pre ++ (a, h + hdrSize t + 8 - 1) :: post1)
          ((a + 8) :: (l1 ++ l2)) := by
  obtain ⟨_, _, b3⟩ := (blocks_focus _ _ _ _ _ _).1 hrep.2.2.2.1
  simp only at b3
  cases post with
  | nil =>
    have e : a + 8 + hdrSize h = base + N := b3
    left
    exact ⟨Or.inl rfl, (free_plain base N s pre [] a h l hrep ho (by rw [e]; exact hsafe e)).1⟩
  | cons c post1 =>
    obtain ⟨n, t⟩ := c
    obtain ⟨c1, c2, _⟩ := b3
    simp only at c1 c2
    by_cases ht : t % 2 = 1
    · left
      refine ⟨Or.inr ⟨n, t, post1, rfl, ht⟩, (free_plain base N s pre _ a h l hrep ho ?_).1⟩
      rw [isAllocated_eq, c2]
      simp only [ht, decide_True]
    · right
      have hmemn : (n, t) ∈ pre ++ (a, h) :: (n, t) :: post1 :=
        List.mem_append_right _ (List.mem_cons_of_mem _ (List.mem_cons_self _ _))
      have hin : n + 8 ∈ l :=
        (List.Perm.mem_iff hrep.2.2.2.2.2.1).2
          ((freePayloads_mem _ _).2 ⟨(n, t), hmemn, by simp only; omega, rfl⟩)
      obtain ⟨l1, l2, el⟩ := List.append_of_mem hin
      rw [el] at hrep
      exact ⟨n, t, post1, l1, l2, rfl, by omega, el,
        (free_merge base N s pre post1 a h n t l1 l2 hrep ho (by omega)).1⟩

end Explicit

namespace Explicit
open Heap

/-- The header word of a block of a run is what the memory holds at its address. -/
theorem blocks_mem_load (m : Mem) (e : Nat) (bs : List (Nat × Nat)) :
    ∀ a, Blocks m e a bs → ∀ b ∈ bs, load64 m b.1 = b.2 := by
  induction bs with
  | nil => intro a _ b hb; simp at hb
  | cons c t ih =>
    intro a h b hb
    obtain ⟨h1, h2, h3⟩ := h
    rcases List.mem_cons.1 hb with q | q
    · rw [q, h1]; exact h2
    · exact ih _ h3 b q

/-- C12 (amended). In every state reached from a successful `myinit(base, N)` (`N` a
multiple of 8, link words of the first block `NULL`) by contract-respecting calls,
after `myfree(p)` of an allocated payload the walk arrives at `segment_end`, the
block of `p` is free, and its old successor is no free block next to it: a successor
that was a free block inside the region has been merged (its header is no longer met
by the walk and the size of the freed block has grown by its size plus 8), a
successor that was allocated is still the allocated successor, and a last block
still ends at `segment_end`.  Nothing is said about the block before the freed block
or the block behind a merged successor: they may be free. -/
theorem explicit_free_merges_successor (base N : Nat) (s : State) (p : Nat) (h8 : 8 ≤ N)
    (hm : N % 8 = 0) (hN : N < WORD) (hW : base + N ≤ WORD) (hr : Reach base N s)
    (hal : Allocated s p) (hfs : FreeSafe s p) :
    ∃ l, (∀ fuel, l.length < fuel →
        blockWalk (myfree s p).mem (myfree s p).segment_end fuel
          (myfree s p).segment_start = some l) ∧
      accessHeader p ∈ l ∧ isAllocated (myfree s p).mem (accessHeader p) = false ∧
      (nextBlock s.mem (accessHeader p) ≠ s.segment_end →
        isAllocated s.mem (nextBlock s.mem (accessHeader p)) = false →
        nextBlock s.mem (accessHeader p) ∉ l ∧
        getSize (myfree s p).mem (accessHeader p) =
          getSize s.mem (accessHeader p) +
            getSize s.mem (nextBlock s.mem (accessHeader p)) + 8) ∧
      (nextBlock s.mem (accessHeader p) ≠ s.segment_end →
        isAllocated s.mem (nextBlock s.mem (accessHeader p)) = true →
        nextBlock (myfree s p).mem (accessHeader p) = nextBlock s.mem (accessHeader p) ∧
        isAllocated (myfree s p).mem (nextBlock s.mem (accessHeader p)) = true) ∧
      (nextBlock s.mem (accessHeader p) = s.segment_end →
        nextBlock (myfree s p).mem (accessHeader p) = (myfree s p).segment_end) := by
  rcases explicit_reach_inv base N h8 hm hN hW s hr with ht | ⟨bs, l, hrep⟩
  · exact absurd hal (fun q => tiny_not_allocated base N s p ht hm q)
  · have hb1 : Blocks s.mem (base + N) s.segment_start bs := by
      rw [hrep.1]; exact hrep.2.2.2.1
    obtain ⟨pre, h, post, eb, ho, hpa⟩ := explicit_allocated_block s p _ bs hrep.2.1 hb1 hal
    have hfs2 := hfs
    unfold FreeSafe at hfs2
    generalize accessHeader p = a at *
    subst hpa
    rw [eb] at hrep
    have hse := hrep.2.1
    obtain ⟨_, b2, b3⟩ := (blocks_focus _ _ _ _ _ _).1 hrep.2.2.2.1
    simp only at b2 b3
    rw [nextBlock_hdrSize, b2, hse] at hfs2
    rw [nextBlock_hdrSize, b2, hse]
    have hp1 := hdrSize_pred_odd h ho
    rcases myfree_cases base N s pre post a h l hrep ho hfs2 with ⟨hpost, r⟩ | r
    · -- the block is freed as it is
      obtain ⟨c1, c2, c3⟩ := (blocks_focus _ _ _ _ _ _).1 r.2.2.2.1
      simp only at c2 c3
      refine ⟨(pre ++ (a, h - 1) :: post).map Prod.fst, ?_, ?_, ?_, ?_, ?_, ?_⟩
      · intro fuel hf
        rw [r.1, r.2.1]
        exact blocks_walk _ _ _ _ _ r.2.2.2.1 (by simpa using hf)
      · exact List.mem_map.2 ⟨(a, h - 1), List.mem_append_right _ (List.mem_cons_self _ _), rfl⟩
      · rw [isAllocated_eq, c2]
        simp only [decide_eq_false_iff_not]
        omega
      · intro hne hfree
        exfalso
        rcases hpost with q | ⟨n, t, post1, q, ht⟩
        · rw [q] at b3
          exact hne b3
        · rw [q] at b3
          obtain ⟨d1, d2, _⟩ := b3
          simp only at d1 d2
          rw [isAllocated_eq, d2] at hfree
          simp [ht] at hfree
      · intro hne _
        rw [nextBlock_hdrSize, c2, hp1.1]
        refine ⟨rfl, ?_⟩
        rcases hpost with q | ⟨n, t, post1, q, ht⟩
        · rw [q] at b3
          exact absurd b3 hne
        · rw [q] at b3 r
          have d1 : n = a + 8 + hdrSize h := b3.1
          have := blocks_mem_load _ _ _ _ r.2.2.2.1 (n, t)
            (List.mem_append_right _ (List.mem_cons_of_mem _ (List.mem_cons_self _ _)))
          simp only at this
          rw [← d1, isAllocated_eq, this]
          simp only [ht, decide_True]
      · intro he
        rw [nextBlock_hdrSize, c2, hp1.1, r.2.1]
        exact he
    · -- the successor is merged
      obtain ⟨n, t, post1, l1, l2, q, ht, _, r⟩ := r
      rw [q] at b3 hrep
      obtain ⟨d1, d2, d3⟩ := b3
      simp only at d1 d2
      subst d1
      obtain ⟨c1, c2, c3⟩ := (blocks_focus _ _ _ _ _ _).1 r.2.2.2.1
      simp only at c2 c3
      have hmg := hdrSize_merge h t ho
      have hbn := blocks_bounds _ _ _ _ hrep.2.2.2.1 (a + 8 + hdrSize h, t)
        (List.mem_append_right _ (List.mem_cons_of_mem _ (List.mem_cons_self _ _)))
      simp only at hbn
      refine ⟨(pre ++ (a, h + hdrSize t + 8 - 1) :: post1).map Prod.fst, ?_, ?_, ?_, ?_, ?_, ?_⟩
      · intro fuel hf
        rw [r.1, r.2.1]
        exact blocks_walk _ _ _ _ _ r.2.2.2.1 (by simpa using hf)
      · exact List.mem_map.2
          ⟨(a, h + hdrSize t + 8 - 1), List.mem_append_right _ (List.mem_cons_self _ _), rfl⟩
      · rw [isAllocated_eq, c2]
        simp only [decide_eq_false_iff_not]
        omega
      · intro _ _
        constructor
        · intro hin
          obtain ⟨b, hb, hbe⟩ := List.mem_map.1 hin
          rcases List.mem_append.1 hb with u | u
          · have := blocks_bounds _ _ _ _ c1 b u
            simp only at this
            omega
          · rcases List.mem_cons.1 u with w | w
            · rw [w] at hbe
              simp only at hbe
              omega
            · have := blocks_bounds _ _ _ _ c3 b w
              omega
        · simp only [hdrSize_getSize, c2, b2, d2, hmg.1]
      · intro _ hall
        exfalso
        rw [isAllocated_eq, d2] at hall
        simp at hall
        omega
      · intro he
        omega

/-- Witness of `explicit_free_merges_successor`: `myfree(4104)` in the state after
`myinit(4096, 1024)` and `mymalloc(64)` in zeroed memory. -/
theorem explicit_free_merges_successor_witness :
    Reach 4096 1024 used64 ∧ Allocated used64 4104 ∧ FreeSafe used64 4104 ∧
    ∃ l, (∀ fuel, l.length < fuel →
        blockWalk (myfree used64 4104).mem (myfree used64 4104).segment_end fuel
          (myfree used64 4104).segment_start = some l) ∧
      accessHeader 4104 ∈ l ∧ isAllocated (myfree used64 4104).mem (accessHeader 4104) = false ∧
      (nextBlock used64.mem (accessHeader 4104) ≠ used64.segment_end →
        isAllocated used64.mem (nextBlock used64.mem (accessHeader 4104)) = false →
        nextBlock used64.mem (accessHeader 4104) ∉ l ∧
        getSize (myfree used64 4104).mem (accessHeader 4104) =
          getSize used64.mem (accessHeader 4104) +
            getSize used64.mem (nextBlock used64.mem (accessHeader 4104)) + 8) ∧
      (nextBlock used64.mem (accessHeader 4104) ≠ used64.segment_end →
        isAllocated used64.mem (nextBlock used64.mem (accessHeader 4104)) = true →
        nextBlock (myfree used64 4104).mem (accessHeader 4104) =
          nextBlock used64.mem (accessHeader 4104) ∧
        isAllocated (myfree used64 4104).mem (nextBlock used64.mem (accessHeader 4104)) = true) ∧
      (nextBlock used64.mem (accessHeader 4104) = used64.segment_end →
        nextBlock (myfree used64 4104).mem (accessHeader 4104) =
          (myfree used64 4104).segment_end) :=
  have hr : Reach 4096 1024 used64 :=
    Reach.malloc fresh used64 4 64 4104 (Reach.init boot (by decide) (by decide))
      (by decide) (by rfl)
  have ha : Allocated used64 4104 := ⟨3, [4096, 4168], by rfl, by decide, by decide, by decide⟩
  have hf : FreeSafe used64 4104 := fun h => absurd h (by decide)
  ⟨hr, ha, hf,
    explicit_free_merges_successor 4096 1024 used64 4104 (by decide) (by decide) (by decide)
      (by decide) hr ha hf⟩

end Explicit

namespace Implicit
open Heap

/-- The block `mymalloc` returns has exactly the rounded request as its size, in every
state. -/
theorem mymalloc_size (fuel : Nat) (s s1 : State) (req p : Nat)
    (h : mymalloc fuel s req = some (s1, p)) :
    getSize s1.mem (accessHeader p) = roundup req ALIGNMENT := by
  cases hs : scan s.mem (roundup req ALIGNMENT) fuel s.start_hdr with
  | none => unfold mymalloc at h; simp [hs] at h
  | some ptr =>
    rw [mymalloc_of_scan fuel s req ptr hs] at h
    obtain ⟨hfree, hge⟩ := scan_exit _ _ _ _ _ hs
    have hev := not_allocated_even _ _ hfree
    rcases fit_or_split s.mem ptr req hge with c | ⟨c1, c2, c3⟩
    · rw [if_pos c] at h
      obtain ⟨rfl, rfl⟩ := Prod.mk.inj (Option.some.inj h)
      show getSize (statusAllocated s.mem ptr) (accessHeader (accessPayload ptr)) = _
      rw [accessHeader_accessPayload, hdrSize_getSize, (statusAllocated_even _ _ hev).1,
        (Explicit.hdrSize_succ_even _ hev).1, ← hdrSize_getSize]
      exact c
    · rw [if_neg c1, if_pos (by rw [c3]; exact c2)] at h
      obtain ⟨rfl, rfl⟩ := Prod.mk.inj (Option.some.inj h)
      have sm := split_memory s.mem ptr (roundup req ALIGNMENT) (roundup_impl_mod8 req) c2
        _ _ _ rfl rfl rfl
      show getSize _ (accessHeader (accessPayload ptr)) = _
      rw [accessHeader_accessPayload, hdrSize_getSize, sm.2.1]
      exact (Explicit.hdrSize_mult _ (roundup_impl_mod8 req)).2

end Implicit

namespace Explicit
open Heap

/-- The heap after `myinit(4096, 1024)` in zeroed memory is well formed. -/
theorem fresh_rep : Rep 4096 1024 fresh [(4096, 1016)] [4104] :=
  myinit_rep boot 4096 1024 (by decide) (by decide) (by decide) (by decide) (by decide)
    (by decide)

/-- The effective size of `explicit.c` is at least the rounded request and at least
16. -/
theorem roundup_floor (req : Nat) (h : req + 7 < WORD) :
    max (Implicit.roundup req ALIGNMENT) 16 ≤ roundup req ALIGNMENT := by
  rw [Implicit.roundup_impl_eq, roundup_expl_eq, Nat.mod_eq_of_lt h]
  by_cases q : req < 24
  · rw [if_pos q]
    omega
  · rw [if_neg q]
    omega

end Explicit

/-- C13 (amended). Size of the returned block.  Explicit variant: in every well-formed
heap state, when `mymalloc(request)` returns a payload, the size decoded from its
header is at least `max(round_up(request, 8), 16)`.  Implicit variant: in every state,
the size decoded from the header of the returned payload is `round_up(request, 8)`
exactly; there is no floor of 16. -/
theorem size_floor_by_variant (req : Nat) :
    (∀ (base N : Nat) (s s1 : Explicit.State) (bs : List (Nat × Nat)) (l : List Nat)
        (fuel p : Nat),
      Explicit.Rep base N s bs l → req + 31 < Heap.WORD →
      Explicit.mymalloc fuel s req = some (s1, p) → p ≠ 0 →
      max (Implicit.roundup req Heap.ALIGNMENT) 16
        ≤ Heap.getSize s1.mem (Heap.accessHeader p)) ∧
    (∀ (s s1 : Implicit.State) (fuel p : Nat),
      Implicit.mymalloc fuel s req = some (s1, p) →
      Heap.getSize s1.mem (Heap.accessHeader p) = Implicit.roundup req Heap.ALIGNMENT) := by
  constructor
  · intro base N s s1 bs l fuel p hrep hreq hm hp
    have hWv : Heap.WORD = 18446744073709551616 := rfl
    obtain ⟨_, _, _, rlt⟩ := Explicit.roundup_facts req (by omega)
    have hfl := Explicit.roundup_floor req (by omega)
    rcases Explicit.mymalloc_rep base N s s1 bs l fuel req p hrep (by omega) (by omega) hm
      with ⟨e0, _⟩ | ⟨bs1, l1, v, r1, _, r3, _, r5, _, _⟩
    · exact absurd e0 hp
    · have := Explicit.blocks_mem_load _ _ _ _ r1.2.2.2.1 (p - 8, v) r3
      simp only at this
      have ah : Heap.accessHeader p = p - 8 := rfl
      rw [ah, Heap.hdrSize_getSize, this]
      omega
  · intro s s1 fuel p hm
    exact Implicit.mymalloc_size fuel s s1 req p hm

/-- Witness of `size_floor_by_variant`: a request of 1 byte after `myinit(4096, 1024)`
in zeroed memory, in both variants. -/
theorem size_floor_by_variant_witness :
    (Explicit.Rep 4096 1024 Explicit.fresh [(4096, 1016)] [4104] ∧ 1 + 31 < Heap.WORD ∧
      (Explicit.mymalloc 4 Explicit.fresh 1).map Prod.snd = some 4104 ∧
      ∀ s1, Explicit.mymalloc 4 Explicit.fresh 1 = some (s1, 4104) →
        max (Implicit.roundup 1 Heap.ALIGNMENT) 16
          ≤ Heap.getSize s1.mem (Heap.accessHeader 4104)) ∧
    ((Implicit.mymalloc 4 Implicit.fresh 1).map Prod.snd = some 4104 ∧
      ∀ s1, Implicit.mymalloc 4 Implicit.fresh 1 = some (s1, 4104) →
        Heap.getSize s1.mem (Heap.accessHeader 4104) = Implicit.roundup 1 Heap.ALIGNMENT) :=
  ⟨⟨Explicit.fresh_rep, by decide, by rfl,
      fun s1 h => (size_floor_by_variant 1).1 4096 1024 Explicit.fresh s1 _ _ 4 4104
        Explicit.fresh_rep (by decide) h (by decide)⟩,
    ⟨by rfl, fun s1 h => (size_floor_by_variant 1).2 Implicit.fresh s1 4 4104 h⟩⟩

namespace Explicit
open Heap

/-- In a well-formed heap the effective size of a request that fits an allocated
block is at most the size of the block. -/
theorem roundup_le_block (base N : Nat) (s : State) (bs : List (Nat × Nat)) (l : List Nat)
    (a h n : Nat) (hrep : Rep base N s bs l) (hmem : (a, h) ∈ bs) (ho : h % 2 = 1)
    (hn : n ≤ hdrSize h) : roundup n ALIGNMENT ≤ hdrSize h := by
  have hWv : WORD = 18446744073709551616 := rfl
  have h24 := hrep.2.2.2.2.2.2.2.1 (a, h) hmem ho
  have hbnd := blocks_bounds _ _ _ _ hrep.2.2.2.1 (a, h) hmem
  have hW := hrep.2.2.1
  have h8 := hdrSize_mod8 h
  simp only at h24 hbnd
  rw [roundup_expl_eq]
  by_cases q : n < 24
  · rw [if_pos q]; exact h24
  · rw [if_neg q, Nat.mod_eq_of_lt (by omega)]
    omega

/-- The heap after `myinit(4096, 1024)` and `mymalloc(64)` in zeroed memory is reached
by contract-respecting calls and is well formed. -/
theorem used64_reach : Reach 4096 1024 used64 :=
  Reach.malloc fresh used64 4 64 4104 (Reach.init boot (by decide) (by decide))
    (by decide) (by rfl)

theorem used64_rep : ∃ bs l, Rep 4096 1024 used64 bs l := by
  rcases explicit_reach_inv 4096 1024 (by decide) (by decide) (by decide) (by decide) used64
    used64_reach with ht | h
  · exact absurd ht.1 (by decide)
  · exact h

end Explicit

/-- C15. Shrink identity, both variants: for a currently allocated payload `p` and
every `n` up to the size decoded from the header of `p`, `myrealloc(p, n)` returns
`p` and the state (memory, counters, free list) is the one before the call.  In the
explicit variant the heap is well formed, so that an allocated block has at least the
minimum size of 24 bytes. -/
theorem shrink_identity (n : Nat) :
    (∀ (s : Implicit.State) (fuel p : Nat), Implicit.Allocated s p →
      n ≤ Heap.getSize s.mem (Heap.accessHeader p) →
      Implicit.myrealloc fuel s p n = some (s, p)) ∧
    (∀ (base N : Nat) (s : Explicit.State) (bs : List (Nat × Nat)) (l : List Nat)
        (fuel p : Nat),
      Explicit.Rep base N s bs l → Explicit.Allocated s p →
      n ≤ Heap.getSize s.mem (Heap.accessHeader p) →
      Explicit.myrealloc fuel s p n = some (s, p)) := by
  constructor
  · intro s fuel p hal hn
    obtain ⟨_, _, _, _, hp, _⟩ := hal
    have hp0 : p ≠ 0 := by
      rw [hp]
      unfold Heap.accessPayload Heap.ALIGNMENT
      omega
    unfold Implicit.myrealloc
    rw [if_neg hp0]
    simp only [if_pos hn]
  · intro base N s bs l fuel p hrep hal hn
    have hb1 : Heap.Blocks s.mem (base + N) s.segment_start bs := by
      rw [hrep.1]; exact hrep.2.2.2.1
    obtain ⟨pre, h, post, eb, ho, hpa⟩ :=
      Explicit.explicit_allocated_block s p _ bs hrep.2.1 hb1 hal
    have hmem : (Heap.accessHeader p, h) ∈ bs := by
      rw [eb]; exact List.mem_append_right _ (List.mem_cons_self _ _)
    have lh := Explicit.blocks_mem_load _ _ _ _ hrep.2.2.2.1 _ hmem
    simp only at lh
    rw [Heap.hdrSize_getSize, lh] at hn
    have hle := Explicit.roundup_le_block base N s bs l _ h n hrep hmem ho hn
    have hp0 : p ≠ 0 := by omega
    unfold Explicit.myrealloc
    simp only
    rw [if_neg hp0, Heap.hdrSize_getSize, lh, if_pos hle]

/-- Witness of `shrink_identity`: `myrealloc(4104, 10)` after `myinit(4096, 1024)` and
`mymalloc(64)` in zeroed memory, in both variants. -/
theorem shrink_identity_witness :
    (Implicit.Allocated Implicit.used64 4104 ∧
      10 ≤ Heap.getSize Implicit.used64.mem (Heap.accessHeader 4104) ∧
      Implicit.myrealloc 4 Implicit.used64 4104 10 = some (Implicit.used64, 4104)) ∧
    (∃ bs l, Explicit.Rep 4096 1024 Explicit.used64 bs l ∧
      Explicit.Allocated Explicit.used64 4104 ∧
      10 ≤ Heap.getSize Explicit.used64.mem (Heap.accessHeader 4104) ∧
      Explicit.myrealloc 4 Explicit.used64 4104 10 = some (Explicit.used64, 4104)) :=
  have hi : Implicit.Allocated Implicit.used64 4104 :=
    ⟨3, [4096, 4168], by rfl, by decide, by decide, by decide⟩
  have he : Explicit.Allocated Explicit.used64 4104 :=
    ⟨3, [4096, 4168], by rfl, by decide, by decide, by decide⟩
  ⟨⟨hi, by decide, (shrink_identity 10).1 Implicit.used64 4 4104 hi (by decide)⟩,
    Explicit.used64_rep.elim (fun bs h => h.elim (fun l hrep =>
      ⟨bs, l, hrep, he, by decide,
        (shrink_identity 10).2 4096 1024 Explicit.used64 bs l 4 4104 hrep he (by decide)⟩))⟩

namespace Explicit
open Heap

theorem listLoop_succ (m : Mem) (fuel curr : Nat) (result : Bool) :
    listLoop m (fuel + 1) curr result =
      if curr ≠ 0 then
        listLoop m fuel (load64 m curr) (if linkedListWrong m curr then false else result)
      else some result := by
  rw [listLoop]

/-- On a null-terminated list the second loop of `validate_heap` returns, and its
result is the initial one unless `linkedListWrong` holds for some node. -/
theorem listLoop_list (m : Mem) (l : List Nat) :
    ∀ (fuel curr : Nat) (result : Bool), FreeList m curr l → l.length < fuel →
      listLoop m fuel curr result =
        some (result && l.all (fun c => !linkedListWrong m c)) := by
  induction l with
  | nil =>
    intro fuel curr result h hf
    obtain ⟨f, rfl⟩ : ∃ f, fuel = f + 1 := ⟨fuel - 1, by simp at hf; omega⟩
    have : curr = 0 := h
    rw [listLoop_succ, if_neg (by simpa using this)]
    simp
  | cons c t ih =>
    intro fuel curr result h hf
    obtain ⟨f, rfl⟩ : ∃ f, fuel = f + 1 := ⟨fuel - 1, by simp at hf; omega⟩
    obtain ⟨h1, h2, h3⟩ := h
    rw [h1, listLoop_succ, if_pos h2, ih f _ _ h3 (by simp at hf; omega), List.all_cons]
    generalize List.all t (fun c => !linkedListWrong m c) = r
    generalize linkedListWrong m c = w
    cases w <;> cases result <;> cases r <;> rfl

/-- What `linkedListWrong` tests. -/
theorem linkedListWrong_false (m : Mem) (c : Nat) :
    linkedListWrong m c = false ↔
      (load64 m (c + 8) = 0 ∨ load64 m (load64 m (c + 8)) = c) ∧
      (load64 m c = 0 ∨ load64 m (load64 m c + 8) = c) ∧
      isAllocated m (accessHeader c) = false := by
  unfold linkedListWrong
  simp only
  by_cases h1 : (load64 m (c + 8) ≠ 0 ∧ load64 m (load64 m (c + 8)) ≠ c) ∨
      (load64 m c ≠ 0 ∧ load64 m (load64 m c + 8) ≠ c)
  · rw [if_pos h1]
    simp only [Bool.true_eq_false, false_iff]
    intro ⟨q1, q2, _⟩
    rcases h1 with ⟨r1, r2⟩ | ⟨r1, r2⟩
    · rcases q1 with q | q
      · exact r1 q
      · exact r2 q
    · rcases q2 with q | q
      · exact r1 q
      · exact r2 q
  · rw [if_neg h1]
    have h2 : (load64 m (c + 8) = 0 ∨ load64 m (load64 m (c + 8)) = c) ∧
        (load64 m c = 0 ∨ load64 m (load64 m c + 8) = c) := by
      constructor
      · by_contra q
        exact h1 (Or.inl ⟨fun r => q (Or.inl r), fun r => q (Or.inr r)⟩)
      · by_contra q
        exact h1 (Or.inr ⟨fun r => q (Or.inl r), fun r => q (Or.inr r)⟩)
    cases isAllocated m (accessHeader c) <;> simp [h2]

/-- The result of `validate_heap` in a state whose memory holds a run of blocks from
`segment_start` to `segment_end` and a null-terminated free list. -/
theorem validate_spec (s : State) (bs : List (Nat × Nat)) (l : List Nat) (fuel : Nat)
    (hb : Blocks s.mem s.segment_end s.segment_start bs)
    (hl : FreeList s.mem s.linked_start l) (hf1 : bs.length < fuel) (hf2 : l.length < fuel) :
    validate_heap fuel s =
      some (decide (allocCount bs = s.blocks_allocated) && decide (s.linked_start ≠ 0) &&
        l.all (fun c => !linkedListWrong s.mem c)) := by
  unfold validate_heap
  rw [countLoop_blocks _ _ _ _ 0 fuel hb hf1]
  simp only
  rw [listLoop_list _ _ _ _ _ hl hf2]
  by_cases h1 : allocCount bs = s.blocks_allocated <;> by_cases h2 : s.linked_start = 0 <;>
    simp [h1, h2]

end Explicit

namespace Explicit
open Heap

/-- C16 (amended). In every explicit heap state in which the block walk from the base
arrives at `segment_end` and the free list is null-terminated, `validate_heap`
returns, and it returns true if and only if `blocks_allocated` is the number of
headers of the walk with status 1, the free list is not empty, and every node of the
free list has symmetric links and status 0.  (It does not test that a block with
status 0 is on the free list, and it returns false when the free list is empty.) -/
theorem explicit_validate_decides (s : State) (w l : List Nat) (fuel0 fuel : Nat)
    (hw : blockWalk s.mem s.segment_end fuel0 s.segment_start = some w)
    (hl : FreeList s.mem s.linked_start l) (hf1 : w.length < fuel) (hf2 : l.length < fuel) :
    ∃ b, validate_heap fuel s = some b ∧
      (b = true ↔
        s.blocks_allocated = ((w.filter (fun a => isAllocated s.mem a)).length : Int) ∧
        s.linked_start ≠ 0 ∧
        ∀ c ∈ l, (load64 s.mem (c + 8) = 0 ∨ load64 s.mem (load64 s.mem (c + 8)) = c) ∧
          (load64 s.mem c = 0 ∨ load64 s.mem (load64 s.mem c + 8) = c) ∧
          isAllocated s.mem (accessHeader c) = false) := by
  have hb := walk_blocks _ _ _ _ _ hw
  have hlen : (w.map (fun x => (x, load64 s.mem x))).length < fuel := by simpa using hf1
  have hmap : (w.map (fun x => (x, load64 s.mem x))).map Prod.fst = w := by
    rw [List.map_map]
    exact List.map_id _
  have hcount := blocks_allocCount _ _ _ _ hb
  rw [hmap] at hcount
  refine ⟨_, validate_spec s _ l fuel hb hl hlen hf2, ?_⟩
  rw [hcount]
  simp only [Bool.and_eq_true, decide_eq_true_eq, List.all_eq_true, Bool.not_eq_true']
  constructor
  · rintro ⟨⟨h1, h2⟩, h3⟩
    exact ⟨h1.symm, h2, fun c hc => (linkedListWrong_false _ _).1 (h3 c hc)⟩
  · rintro ⟨h1, h2, h3⟩
    exact ⟨⟨h1.symm, h2⟩, fun c hc => (linkedListWrong_false _ _).2 (h3 c hc)⟩

/-- Witness of `explicit_validate_decides`: the state after `myinit(4096, 1024)` in
zeroed memory, with the walk `[4096]` and the free list `[4104]`. -/
theorem explicit_validate_decides_witness :
    blockWalk fresh.mem fresh.segment_end 2 fresh.segment_start = some [4096] ∧
    FreeList fresh.mem fresh.linked_start [4104] ∧ [4096].length < 2 ∧ [4104].length < 2 ∧
    ∃ b, validate_heap 2 fresh = some b ∧
      (b = true ↔
        fresh.blocks_allocated =
          (([4096].filter (fun a => isAllocated fresh.mem a)).length : Int) ∧
        fresh.linked_start ≠ 0 ∧
        ∀ c ∈ [4104],
          (load64 fresh.mem (c + 8) = 0 ∨ load64 fresh.mem (load64 fresh.mem (c + 8)) = c) ∧
          (load64 fresh.mem c = 0 ∨ load64 fresh.mem (load64 fresh.mem c + 8) = c) ∧
          isAllocated fresh.mem (accessHeader c) = false) :=
  ⟨by rfl, ⟨rfl, by decide, by show load64 fresh.mem 4104 = 0; decide⟩, by decide, by decide,
    explicit_validate_decides fresh [4096] [4104] 2 2 (by rfl)
      ⟨rfl, by decide, by show load64 fresh.mem 4104 = 0; decide⟩ (by decide) (by decide)⟩

end Explicit

namespace Explicit
open Heap

/-- C19. Explicit `mymalloc` is first fit with the split rule: in a well-formed heap
whose free list is `l1 ++ c :: l2`, where the nodes of `l1` are smaller than the
effective size `r = roundup(request, 8)` and `c` is not, `mymalloc` returns `c`;
afterwards the block of `c` is allocated and `blocks_allocated` has grown by 1.  When
the block has at least `r + 24` bytes its size becomes `r`, a free header of size
`size - r - 8` stands right behind its payload and the payload of that block is the
new head: the free list is that node followed by `l1 ++ l2`.  Otherwise the block
keeps its size, the free list is `l1 ++ l2`, and the head is the old head unless `c`
was the head. -/
theorem explicit_first_fit (base N : Nat) (s : State) (bs : List (Nat × Nat))
    (l1 l2 : List Nat) (c req fuel : Nat) (hrep : Rep base N s bs (l1 ++ c :: l2))
    (hreq : req + 31 < WORD)
    (hsmall : ∀ d ∈ l1, getSize s.mem (accessHeader d) < roundup req ALIGNMENT)
    (hfit : roundup req ALIGNMENT ≤ getSize s.mem (accessHeader c))
    (hfuel : l1.length < fuel) :
    ∃ s1, mymalloc fuel s req = some (s1, c) ∧
      s1.blocks_allocated = s.blocks_allocated + 1 ∧
      isAllocated s1.mem (accessHeader c) = true ∧
      (roundup req ALIGNMENT + 24 ≤ getSize s.mem (accessHeader c) →
        getSize s1.mem (accessHeader c) = roundup req ALIGNMENT ∧
        load64 s1.mem (c + roundup req ALIGNMENT) =
          getSize s.mem (accessHeader c) - roundup req ALIGNMENT - 8 ∧
        s1.linked_start = c + roundup req ALIGNMENT + 8 ∧
        ∃ bs1, Rep base N s1 bs1 ((c + roundup req ALIGNMENT + 8) :: (l1 ++ l2))) ∧
      (getSize s.mem (accessHeader c) < roundup req ALIGNMENT + 24 →
        getSize s1.mem (accessHeader c) = getSize s.mem (accessHeader c) ∧
        s1.linked_start = (if l1 = [] then l2.headD 0 else s.linked_start) ∧
        ∃ bs1, Rep base N s1 bs1 (l1 ++ l2)) := by
  have hWv : WORD = 18446744073709551616 := rfl
  have hc : c ∈ l1 ++ c :: l2 := List.mem_append_right _ (List.mem_cons_self _ _)
  obtain ⟨b, hb1, hb2, hb3, _, _, _⟩ := rep_node _ _ _ _ _ hrep c hc
  obtain ⟨pre, post, eb⟩ := List.append_of_mem hb1
  obtain ⟨hdr, h⟩ := b
  simp only at hb2 hb3
  subst hb3
  subst eb
  have lh : load64 s.mem hdr = h := ((blocks_focus _ _ _ _ _ _).1 hrep.2.2.2.1).2.1
  have ah : accessHeader (hdr + 8) = hdr := by unfold accessHeader ALIGNMENT; omega
  have hcnt := hrep.2.2.2.2.2.2.2.2
  have hhead := dlist_head _ _ _ _ hrep.2.2.2.2.1
  obtain ⟨r24, r8, _, rlt⟩ := roundup_facts req (by omega)
  have h8h := hdrSize_mod8 h
  rw [ah, hdrSize_getSize, lh] at hfit ⊢
  obtain ⟨s1, hs1, hsplit, hexact⟩ := mymalloc_spec base N s pre post hdr h l1 l2 req fuel hrep
    (by omega) (by omega) hsmall hfit hfuel
  refine ⟨s1, hs1, ?_, ?_, ?_, ?_⟩
  · by_cases hsp : roundup req ALIGNMENT + 24 ≤ hdrSize h
    · rw [(hsplit hsp).1.2.2.2.2.2.2.2.2, hcnt, allocCount_append, allocCount_append,
        allocCount_cons, allocCount_cons, allocCount_cons, if_pos (by simp only; omega),
        if_neg (by simp only; omega), if_neg (by simp only; omega)]
      omega
    · rw [(hexact (by omega)).1.2.2.2.2.2.2.2.2, hcnt, allocCount_append, allocCount_append,
        allocCount_cons, allocCount_cons, if_pos (by simp only; omega),
        if_neg (by simp only; omega)]
      omega
  · by_cases hsp : roundup req ALIGNMENT + 24 ≤ hdrSize h
    · have := ((blocks_focus _ _ _ _ _ _).1 (hsplit hsp).1.2.2.2.1).2.1
      simp only at this
      rw [isAllocated_eq, this]
      simp only [decide_eq_true_eq]
      omega
    · have := ((blocks_focus _ _ _ _ _ _).1 (hexact (by omega)).1.2.2.2.1).2.1
      simp only at this
      rw [isAllocated_eq, this]
      simp only [decide_eq_true_eq]
      omega
  · intro hsp
    obtain ⟨r1, _⟩ := hsplit hsp
    obtain ⟨_, c2, c3⟩ := (blocks_focus _ _ _ _ _ _).1 r1.2.2.2.1
    simp only at c2
    refine ⟨?_, ?_, ?_, _, r1⟩
    · rw [hdrSize_getSize, c2]
      exact (hdrSize_mult _ r8).2
    · have : hdr + 8 + roundup req ALIGNMENT = hdr + 8 + hdrSize (roundup req ALIGNMENT + 1) := by
        rw [(hdrSize_mult _ r8).2]
      rw [this]
      exact c3.2.1
    · exact dlist_head _ _ _ _ r1.2.2.2.2.1
  · intro hsp
    obtain ⟨r1, _⟩ := hexact hsp
    obtain ⟨_, c2, _⟩ := (blocks_focus _ _ _ _ _ _).1 r1.2.2.2.1
    simp only at c2
    refine ⟨?_, ?_, _, r1⟩
    · rw [hdrSize_getSize, c2]
      exact (hdrSize_succ_even h hb2).1
    · rw [dlist_head _ _ _ _ r1.2.2.2.2.1]
      cases l1 with
      | nil => simp
      | cons e t =>
        rw [if_neg (by simp), hhead]
        rfl

/-- Witness of `explicit_first_fit`: `mymalloc(64)` after `myinit(4096, 1024)` in
zeroed memory; the only node, 4104, has size 1016 and is split. -/
theorem explicit_first_fit_witness :
    Rep 4096 1024 fresh [(4096, 1016)] ([] ++ 4104 :: []) ∧ 64 + 31 < WORD ∧
    (∀ d ∈ ([] : List Nat), getSize fresh.mem (accessHeader d) < roundup 64 ALIGNMENT) ∧
    roundup 64 ALIGNMENT ≤ getSize fresh.mem (accessHeader 4104) ∧
    ([] : List Nat).length < 1 ∧
    ∃ s1, mymalloc 1 fresh 64 = some (s1, 4104) ∧
      s1.blocks_allocated = fresh.blocks_allocated + 1 ∧
      isAllocated s1.mem (accessHeader 4104) = true ∧
      (roundup 64 ALIGNMENT + 24 ≤ getSize fresh.mem (accessHeader 4104) →
        getSize s1.mem (accessHeader 4104) = roundup 64 ALIGNMENT ∧
        load64 s1.mem (4104 + roundup 64 ALIGNMENT) =
          getSize fresh.mem (accessHeader 4104) - roundup 64 ALIGNMENT - 8 ∧
        s1.linked_start = 4104 + roundup 64 ALIGNMENT + 8 ∧
        ∃ bs1, Rep 4096 1024 s1 bs1 ((4104 + roundup 64 ALIGNMENT + 8) :: ([] ++ []))) ∧
      (getSize fresh.mem (accessHeader 4104) < roundup 64 ALIGNMENT + 24 →
        getSize s1.mem (accessHeader 4104) = getSize fresh.mem (accessHeader 4104) ∧
        s1.linked_start = (if ([] : List Nat) = [] then ([] : List Nat).headD 0
          else fresh.linked_start) ∧
        ∃ bs1, Rep 4096 1024 s1 bs1 ([] ++ [])) :=
  ⟨fresh_rep, by decide, fun d hd => absurd hd (List.not_mem_nil d), by decide, by decide,
    explicit_first_fit 4096 1024 fresh [(4096, 1016)] [] [] 4104 64 1 fresh_rep (by decide)
      (fun d hd => absurd hd (List.not_mem_nil d)) (by decide) (by decide)⟩

end Explicit

namespace Explicit
open Heap

/-- What a well-formed heap of one free block looks like to the walk, the free list
and `validate_heap`. -/
theorem single_free_block (base N : Nat) (s : State) (v : Nat) (hv : v % 8 = 0)
    (hrep : Rep base N s [(base, v)] [base + 8]) :
    (∀ f, 1 < f → blockWalk s.mem s.segment_end f s.segment_start = some [base]) ∧
      getSize s.mem base = v ∧ isAllocated s.mem base = false ∧
      FreeList s.mem s.linked_start [base + 8] ∧ s.blocks_allocated = 0 ∧
      (∀ f, 1 < f → validate_heap f s = some true) := by
  obtain ⟨g1, g2, g3, hb, hd, _, _, _, hc⟩ := hrep
  have hb2 : Blocks s.mem s.segment_end s.segment_start [(base, v)] := by
    rw [g1, g2]; exact hb
  have lb : load64 s.mem base = v := hb.2.1
  have hcnt : allocCount [(base, v)] = 0 := by
    rw [allocCount_cons, if_neg (by simp only; omega)]
    rfl
  have hfl := dlist_freeList _ _ _ _ hd
  have hfree : isAllocated s.mem base = false := by
    rw [isAllocated_eq, lb]
    simp only [decide_eq_false_iff_not]
    omega
  refine ⟨?_, ?_, hfree, hfl, by rw [hc, hcnt], ?_⟩
  · intro f hf
    rw [g1, g2]
    exact blocks_walk _ _ _ _ _ hb (by simpa using hf)
  · rw [hdrSize_getSize, lb]
    exact (hdrSize_mult v hv).1
  · intro f hf
    rw [validate_spec s _ _ f hb2 hfl (by simpa using hf) (by simpa using hf)]
    have hls : s.linked_start = base + 8 := hd.1
    have hw : linkedListWrong s.mem (base + 8) = false := by
      rw [linkedListWrong_false]
      have ah : accessHeader (base + 8) = base := by unfold accessHeader ALIGNMENT; omega
      rw [ah]
      exact ⟨Or.inl hd.2.2.1, Or.inl hd.2.2.2, hfree⟩
    simp [hcnt, hc, hls, hw]

/-- Allocate-then-free round trip on a clean region: after `myinit(base, N)` on a region
whose first two payload words are `NULL`, with `N` a multiple of 8 and a request whose effective
size `r` satisfies `r + 24 <= N - 8`, `p = mymalloc(request)` returns `base + 8` and
the heap is the two blocks [allocated `r`][free `N - 16 - r`]; `myfree(p)` then leaves
one block, free, of size `N - 8`, the free list has the one node `base + 8`,
`blocks_allocated` is 0 and `validate_heap` returns true. -/
theorem explicit_round_trip (s0 : State) (base N req fuel : Nat) (hm : N % 8 = 0)
    (hN : N < WORD) (hW : base + N ≤ WORD) (hn : load64 s0.mem (base + 8) = 0)
    (hp : load64 s0.mem (base + 16) = 0) (hreq : req + 31 < WORD)
    (hr : roundup req ALIGNMENT + 24 ≤ N - 8) (hfuel : 0 < fuel) :
    ∃ s1, mymalloc fuel (myinit s0 base N).1 req = some (s1, base + 8) ∧
      (∀ f, 2 < f → blockWalk s1.mem s1.segment_end f s1.segment_start =
        some [base, base + 8 + roundup req ALIGNMENT]) ∧
      getSize s1.mem base = roundup req ALIGNMENT ∧ isAllocated s1.mem base = true ∧
      getSize s1.mem (base + 8 + roundup req ALIGNMENT) = N - 16 - roundup req ALIGNMENT ∧
      isAllocated s1.mem (base + 8 + roundup req ALIGNMENT) = false ∧
      (∀ f, 1 < f → blockWalk (myfree s1 (base + 8)).mem (myfree s1 (base + 8)).segment_end f
        (myfree s1 (base + 8)).segment_start = some [base]) ∧
      getSize (myfree s1 (base + 8)).mem base = N - 8 ∧
      isAllocated (myfree s1 (base + 8)).mem base = false ∧
      FreeList (myfree s1 (base + 8)).mem (myfree s1 (base + 8)).linked_start [base + 8] ∧
      (myfree s1 (base + 8)).blocks_allocated = 0 ∧
      (∀ f, 1 < f → validate_heap f (myfree s1 (base + 8)) = some true) := by
  have hWv : WORD = 18446744073709551616 := rfl
  obtain ⟨r24, r8, _, rlt⟩ := roundup_facts req (by omega)
  have hi := myinit_rep s0 base N (by omega) hm hN hW hn hp
  have hsz : hdrSize (N - 8) = N - 8 := (hdrSize_mult (N - 8) (by omega)).1
  obtain ⟨s1, hs1, hsplit, _⟩ := mymalloc_spec base N (myinit s0 base N).1 [] [] base (N - 8)
    [] [] req fuel hi (by omega) (by omega) (fun d hd => absurd hd (List.not_mem_nil d))
    (by rw [hsz]; omega) hfuel
  obtain ⟨r1, _⟩ := hsplit (by rw [hsz]; exact hr)
  rw [hsz] at r1
  generalize roundup req ALIGNMENT = r at *
  have ht : hdrSize (N - 8 - r - 8) = N - 8 - r - 8 := (hdrSize_mult _ (by omega)).1
  have hb1 : Blocks s1.mem (base + N) base [(base, r + 1), (base + 8 + r, N - 8 - r - 8)] :=
    r1.2.2.2.1
  have l1 : load64 s1.mem base = r + 1 := hb1.2.1
  have l2 : load64 s1.mem (base + 8 + r) = N - 8 - r - 8 := by
    have := blocks_mem_load _ _ _ _ hb1 (base + 8 + r, N - 8 - r - 8)
      (List.mem_cons_of_mem _ (List.mem_cons_self _ _))
    exact this
  obtain ⟨r2, _⟩ := free_merge base N s1 [] [] base (r + 1) (base + 8 + r) (N - 8 - r - 8)
    [] [] r1 (by omega) (by omega)
  have e2 : r + 1 + hdrSize (N - 8 - r - 8) + 8 - 1 = N - 8 := by rw [ht]; omega
  rw [e2] at r2
  obtain ⟨q1, q2, q3, q4, q5, q6⟩ := single_free_block base N _ (N - 8) (by omega) r2
  refine ⟨s1, hs1, ?_, ?_, ?_, ?_, ?_, q1, q2, q3, q4, q5, q6⟩
  · intro f hf
    rw [r1.1, r1.2.1]
    exact blocks_walk _ _ _ _ _ hb1 (by simpa using hf)
  · rw [hdrSize_getSize, l1]
    exact (hdrSize_mult r r8).2
  · rw [isAllocated_eq, l1]
    simp only [decide_eq_true_eq]
    omega
  · rw [hdrSize_getSize, l2, ht]
    omega
  · rw [isAllocated_eq, l2]
    simp only [decide_eq_false_iff_not]
    omega

/-- Witness of `explicit_round_trip`: `N = 1024` and a request of 64 bytes in zeroed
memory give [used 64][free 944] and then [free 1016]. -/
theorem explicit_round_trip_witness :
    1024 % 8 = 0 ∧ 1024 < WORD ∧ 4096 + 1024 ≤ WORD ∧ load64 boot.mem (4096 + 8) = 0 ∧
    load64 boot.mem (4096 + 16) = 0 ∧ 64 + 31 < WORD ∧
    roundup 64 ALIGNMENT + 24 ≤ 1024 - 8 ∧ 0 < 4 ∧ roundup 64 ALIGNMENT = 64 ∧
    ∃ s1, mymalloc 4 (myinit boot 4096 1024).1 64 = some (s1, 4096 + 8) ∧
      (∀ f, 2 < f → blockWalk s1.mem s1.segment_end f s1.segment_start =
        some [4096, 4096 + 8 + roundup 64 ALIGNMENT]) ∧
      getSize s1.mem 4096 = roundup 64 ALIGNMENT ∧ isAllocated s1.mem 4096 = true ∧
      getSize s1.mem (4096 + 8 + roundup 64 ALIGNMENT) = 1024 - 16 - roundup 64 ALIGNMENT ∧
      isAllocated s1.mem (4096 + 8 + roundup 64 ALIGNMENT) = false ∧
      (∀ f, 1 < f → blockWalk (myfree s1 (4096 + 8)).mem (myfree s1 (4096 + 8)).segment_end f
        (myfree s1 (4096 + 8)).segment_start = some [4096]) ∧
      getSize (myfree s1 (4096 + 8)).mem 4096 = 1024 - 8 ∧
      isAllocated (myfree s1 (4096 + 8)).mem 4096 = false ∧
      FreeList (myfree s1 (4096 + 8)).mem (myfree s1 (4096 + 8)).linked_start [4096 + 8] ∧
      (myfree s1 (4096 + 8)).blocks_allocated = 0 ∧
      (∀ f, 1 < f → validate_heap f (myfree s1 (4096 + 8)) = some true) :=
  ⟨by decide, by decide, by decide, by decide, by decide, by decide, by decide, by decide,
    by decide,
    explicit_round_trip boot 4096 1024 64 4 (by decide) (by decide) (by decide) (by decide)
      (by decide) (by decide) (by decide) (by decide)⟩

end Explicit

namespace Explicit
open Heap

/-- C18 (amended). LIFO order of the free list: after `myinit(base, N)` on a region of at
least 88 bytes whose first two payload words are `NULL`, `a = mymalloc(16)`,
`b = mymalloc(16)`, `myfree(a)` and `myfree(b)`, the head of the free list is `b`,
`b.next` is `a` and `a.next` is `NULL`: the free list is exactly `[b, a]`.  The tail
remainder is not on the list: `myfree(b)` has merged it into the block of `b`, which
has size `N - 40` and ends at `segment_end`. -/
theorem explicit_lifo_order (s0 : State) (base N fuel : Nat) (hm : N % 8 = 0)
    (hN : N < WORD) (hW : base + N ≤ WORD) (hn : load64 s0.mem (base + 8) = 0)
    (hp : load64 s0.mem (base + 16) = 0) (h88 : 88 ≤ N) (hfuel : 0 < fuel) :
    ∃ s1 s2, mymalloc fuel (myinit s0 base N).1 16 = some (s1, base + 8) ∧
      mymalloc fuel s1 16 = some (s2, base + 40) ∧
      (myfree (myfree s2 (base + 8)) (base + 40)).linked_start = base + 40 ∧
      load64 (myfree (myfree s2 (base + 8)) (base + 40)).mem (base + 40) = base + 8 ∧
      load64 (myfree (myfree s2 (base + 8)) (base + 40)).mem (base + 8) = 0 ∧
      FreeList (myfree (myfree s2 (base + 8)) (base + 40)).mem
        (myfree (myfree s2 (base + 8)) (base + 40)).linked_start [base + 40, base + 8] ∧
      (∀ f, 2 < f → blockWalk (myfree (myfree s2 (base + 8)) (base + 40)).mem
        (myfree (myfree s2 (base + 8)) (base + 40)).segment_end f
        (myfree (myfree s2 (base + 8)) (base + 40)).segment_start = some [base, base + 32]) ∧
      getSize (myfree (myfree s2 (base + 8)) (base + 40)).mem (base + 32) = N - 40 ∧
      nextBlock (myfree (myfree s2 (base + 8)) (base + 40)).mem (base + 32) =
        (myfree (myfree s2 (base + 8)) (base + 40)).segment_end := by
  have hWv : WORD = 18446744073709551616 := rfl
  have hr16 : roundup 16 ALIGNMENT = 24 := by decide
  have hi := myinit_rep s0 base N (by omega) hm hN hW hn hp
  have z1 : hdrSize (N - 8) = N - 8 := (hdrSize_mult (N - 8) (by omega)).1
  have z2 : hdrSize (N - 40) = N - 40 := (hdrSize_mult (N - 40) (by omega)).1
  have z3 : hdrSize (N - 72) = N - 72 := (hdrSize_mult (N - 72) (by omega)).1
  have z4 : hdrSize 25 = 24 := by decide
  -- a = mymalloc(16)
  obtain ⟨s1, hs1, hsplit1, _⟩ := mymalloc_spec base N (myinit s0 base N).1 [] [] base (N - 8)
    [] [] 16 fuel hi (by omega) (by omega) (fun d hd => absurd hd (List.not_mem_nil d))
    (by rw [z1]; omega) hfuel
  obtain ⟨r1, _⟩ := hsplit1 (by rw [z1]; omega)
  have r1n : Rep base N s1 ([(base, 25)] ++ (base + 32, N - 40) :: []) ([] ++ (base + 32 + 8) :: []) := by
    have e1 : base + 8 + 24 = base + 32 := by omega
    have e2 : N - 8 - 24 - 8 = N - 40 := by omega
    rw [hr16, z1, e1, e2] at r1
    exact r1
  -- b = mymalloc(16)
  obtain ⟨s2, hs2, hsplit2, _⟩ := mymalloc_spec base N s1 [(base, 25)] [] (base + 32) (N - 40)
    [] [] 16 fuel r1n (by omega) (by omega) (fun d hd => absurd hd (List.not_mem_nil d))
    (by rw [z2]; omega) hfuel
  obtain ⟨r2, _⟩ := hsplit2 (by rw [z2]; omega)
  have r2n : Rep base N s2 ([] ++ (base, 25) :: [(base + 32, 25), (base + 64, N - 72)])
      [base + 64 + 8] := by
    have e1 : base + 32 + 8 + 24 = base + 64 := by omega
    have e2 : N - 40 - 24 - 8 = N - 72 := by omega
    rw [hr16, z2, e1, e2] at r2
    exact r2
  have e40 : base + 32 + 8 = base + 40 := by omega
  rw [e40] at hs2
  -- myfree(a)
  have l32 : load64 s2.mem (base + 32) = 25 :=
    blocks_mem_load _ _ _ _ r2n.2.2.2.1 (base + 32, 25)
      (List.mem_cons_of_mem _ (List.mem_cons_self _ _))
  obtain ⟨r3, _⟩ := free_plain base N s2 [] [(base + 32, 25), (base + 64, N - 72)] base 25
    [base + 64 + 8] r2n (by decide) (by
      have e : base + 8 + hdrSize 25 = base + 32 := by rw [z4]
      rw [e, isAllocated_eq, l32]
      decide)
  have r3n : Rep base N (myfree s2 (base + 8))
      ([(base, 24)] ++ (base + 32, 25) :: (base + 64, N - 72) :: [])
      ([base + 8] ++ (base + 64 + 8) :: []) := r3
  -- myfree(b)
  obtain ⟨r4, _⟩ := free_merge base N (myfree s2 (base + 8)) [(base, 24)] [] (base + 32) 25
    (base + 64) (N - 72) [base + 8] [] r3n (by decide) (by omega)
  have r4n : Rep base N (myfree (myfree s2 (base + 8)) (base + 40))
      [(base, 24), (base + 32, N - 40)] [base + 40, base + 8] := by
    have e2 : 25 + (N - 72) + 8 - 1 = N - 40 := by omega
    rw [z3, e2, e40] at r4
    exact r4
  refine ⟨s1, s2, hs1, hs2, ?_⟩
  generalize myfree (myfree s2 (base + 8)) (base + 40) = s4 at *
  obtain ⟨g1, g2, _, hb, hd, _, _, _, _⟩ := r4n
  have l4 : load64 s4.mem (base + 32) = N - 40 :=
    blocks_mem_load _ _ _ _ hb (base + 32, N - 40)
      (List.mem_cons_of_mem _ (List.mem_cons_self _ _))
  refine ⟨hd.1, ?_, ?_, dlist_freeList _ _ _ _ hd, ?_, ?_, ?_⟩
  · exact hd.2.2.2.1
  · exact hd.2.2.2.2.2.2
  · intro f hf
    rw [g1, g2]
    exact blocks_walk _ _ _ _ _ hb (by simpa using hf)
  · rw [hdrSize_getSize, l4, z2]
  · rw [nextBlock_hdrSize, l4, z2, g2]
    omega

/-- Witness of `explicit_lifo_order`: a region of 1024 bytes at 4096 in zeroed memory;
`a = 4104`, `b = 4136`. -/
theorem explicit_lifo_order_witness :
    1024 % 8 = 0 ∧ 1024 < WORD ∧ 4096 + 1024 ≤ WORD ∧ load64 boot.mem (4096 + 8) = 0 ∧
    load64 boot.mem (4096 + 16) = 0 ∧ 88 ≤ 1024 ∧ 0 < 4 ∧
    ∃ s1 s2, mymalloc 4 (myinit boot 4096 1024).1 16 = some (s1, 4096 + 8) ∧
      mymalloc 4 s1 16 = some (s2, 4096 + 40) ∧
      (myfree (myfree s2 (4096 + 8)) (4096 + 40)).linked_start = 4096 + 40 ∧
      load64 (myfree (myfree s2 (4096 + 8)) (4096 + 40)).mem (4096 + 40) = 4096 + 8 ∧
      load64 (myfree (myfree s2 (4096 + 8)) (4096 + 40)).mem (4096 + 8) = 0 ∧
      FreeList (myfree (myfree s2 (4096 + 8)) (4096 + 40)).mem
        (myfree (myfree s2 (4096 + 8)) (4096 + 40)).linked_start [4096 + 40, 4096 + 8] ∧
      (∀ f, 2 < f → blockWalk (myfree (myfree s2 (4096 + 8)) (4096 + 40)).mem
        (myfree (myfree s2 (4096 + 8)) (4096 + 40)).segment_end f
        (myfree (myfree s2 (4096 + 8)) (4096 + 40)).segment_start =
          some [4096, 4096 + 32]) ∧
      getSize (myfree (myfree s2 (4096 + 8)) (4096 + 40)).mem (4096 + 32) = 1024 - 40 ∧
      nextBlock (myfree (myfree s2 (4096 + 8)) (4096 + 40)).mem (4096 + 32) =
        (myfree (myfree s2 (4096 + 8)) (4096 + 40)).segment_end :=
  ⟨by decide, by decide, by decide, by decide, by decide, by decide, by decide,
    explicit_lifo_order boot 4096 1024 4 (by decide) (by decide) (by decide) (by decide)
      (by decide) (by decide) (by decide)⟩

end Explicit

/-- C21 fails as stated.  The effective size the explicit allocator computes for a
request of 16 bytes is 24, while `max(round_up(16, 8), 16)` is 16; after
`myinit(4096, 1024)` in zeroed memory `mymalloc(16)` splits the block and the size
decoded from the header of the returned payload is 24. -/
theorem explicit_floor_sixteen_counterexample :
    Explicit.roundup 16 Heap.ALIGNMENT = 24 ∧ max (Heap.round_up 16) 16 = 16 ∧
    (Explicit.mymalloc 4 Explicit.fresh 16).map (fun r =>
      (r.2, Heap.getSize r.1.mem (Heap.accessHeader r.2), Heap.load64 r.1.mem 4096,
        Heap.blockWalk r.1.mem r.1.segment_end 8 r.1.segment_start))
      = some (4104, 24, 25, some [4096, 4128]) := by
  decide

namespace Heap

/-- The rounding of the specification on a request that does not wrap. -/
theorem round_up_eq (n : Nat) (h : n + 7 < WORD) : round_up n = n + 7 - (n + 7) % 8 := by
  unfold round_up
  have e : complW 7 = LEAST_3_SIGBITS := by
    unfold complW LEAST_3_SIGBITS WORD
    norm_num
  rw [e, land_least3 _ h]

end Heap

namespace Explicit
open Heap

/-- The effective size of `explicit.c` is the rounded request with a floor of 24. -/
theorem roundup_max (req : Nat) (h : req + 7 < WORD) :
    roundup req ALIGNMENT = max (round_up req) 24 := by
  rw [roundup_expl_eq, round_up_eq req h, Nat.mod_eq_of_lt h]
  by_cases q : req < 24
  · rw [if_pos q]
    omega
  · rw [if_neg q]
    omega

/-- C21 (amended). Explicit effective request size: for every request size up to
`2^64 - 32` the size `roundup(requested, 8)` that `mymalloc` searches for is
`max(round_up(requested, 8), 24)`; and in a well-formed heap whose first fitting node
`c` has at least that size plus 24 bytes, `mymalloc` returns `c`, splits its block
and the size decoded from the header of `c` afterwards is
`max(round_up(requested, 8), 24)`. -/
theorem explicit_effective_size (req : Nat) (hreq : req + 31 < WORD) :
    roundup req ALIGNMENT = max (round_up req) 24 ∧
    ∀ (base N : Nat) (s : State) (bs : List (Nat × Nat)) (l1 l2 : List Nat) (c fuel : Nat),
      Rep base N s bs (l1 ++ c :: l2) →
      (∀ d ∈ l1, getSize s.mem (accessHeader d) < roundup req ALIGNMENT) →
      roundup req ALIGNMENT + 24 ≤ getSize s.mem (accessHeader c) → l1.length < fuel →
      ∃ s1, mymalloc fuel s req = some (s1, c) ∧
        getSize s1.mem (accessHeader c) = max (round_up req) 24 ∧
        isAllocated s1.mem (accessHeader c) = true := by
  have hWv : WORD = 18446744073709551616 := rfl
  have hmax := roundup_max req (by omega)
  refine ⟨hmax, ?_⟩
  intro base N s bs l1 l2 c fuel hrep hsmall hfit hfuel
  have hc : c ∈ l1 ++ c :: l2 := List.mem_append_right _ (List.mem_cons_self _ _)
  obtain ⟨b, hb1, hb2, hb3, _, _, _⟩ := rep_node _ _ _ _ _ hrep c hc
  obtain ⟨pre, post, eb⟩ := List.append_of_mem hb1
  obtain ⟨hdr, h⟩ := b
  simp only at hb2 hb3
  subst hb3
  subst eb
  have lh : load64 s.mem hdr = h := ((blocks_focus _ _ _ _ _ _).1 hrep.2.2.2.1).2.1
  have ah : accessHeader (hdr + 8) = hdr := by unfold accessHeader ALIGNMENT; omega
  obtain ⟨r24, r8, _, rlt⟩ := roundup_facts req (by omega)
  rw [ah, hdrSize_getSize, lh] at hfit
  rw [ah]
  obtain ⟨s1, hs1, hsplit, _⟩ := mymalloc_spec base N s pre post hdr h l1 l2 req fuel hrep
    (by omega) (by omega) hsmall (by omega) hfuel
  obtain ⟨r1, _⟩ := hsplit hfit
  have c2 := ((blocks_focus _ _ _ _ _ _).1 r1.2.2.2.1).2.1
  simp only at c2
  refine ⟨s1, hs1, ?_, ?_⟩
  · rw [hdrSize_getSize, c2, (hdrSize_mult _ r8).2]
    exact hmax
  · rw [isAllocated_eq, c2]
    simp only [decide_eq_true_eq]
    omega

/-- Witness of `explicit_effective_size`: a request of 16 bytes after
`myinit(4096, 1024)` in zeroed memory. -/
theorem explicit_effective_size_witness :
    16 + 31 < WORD ∧ roundup 16 ALIGNMENT = max (round_up 16) 24 ∧
    max (round_up 16) 24 = 24 ∧
    Rep 4096 1024 fresh [(4096, 1016)] ([] ++ 4104 :: []) ∧
    (∀ d ∈ ([] : List Nat), getSize fresh.mem (accessHeader d) < roundup 16 ALIGNMENT) ∧
    roundup 16 ALIGNMENT + 24 ≤ getSize fresh.mem (accessHeader 4104) ∧
    ([] : List Nat).length < 1 ∧
    ∃ s1, mymalloc 1 fresh 16 = some (s1, 4104) ∧
      getSize s1.mem (accessHeader 4104) = max (round_up 16) 24 ∧
      isAllocated s1.mem (accessHeader 4104) = true :=
  ⟨by decide, (explicit_effective_size 16 (by decide)).1, by decide, fresh_rep,
    fun d hd => absurd hd (List.not_mem_nil d), by decide, by decide,
    (explicit_effective_size 16 (by decide)).2 4096 1024 fresh [(4096, 1016)] [] [] 4104 1
      fresh_rep (fun d hd => absurd hd (List.not_mem_nil d)) (by decide) (by decide)⟩

end Explicit

/-- C22 fails as stated.  In zeroed memory, after `myinit(4096, 1024)` (a multiple of 8,
at least 16), `mymalloc(1008)` finds the free block of size 1016, which has exactly 8
bytes more than the request, and splits it: it returns 4104, and the walk meets a
second header, at 5112, whose size is 0 (status free). -/
theorem implicit_split_zero_block_counterexample :
    (Implicit.mymalloc 4 Implicit.fresh 1008).map (fun r =>
      (r.2, decide (Heap.accessHeader r.2 < Implicit.fresh.segment_end),
        Heap.blockWalk r.1.mem r.1.segment_end 8 r.1.segment_start,
        Heap.load64 r.1.mem 4096, Heap.getSize r.1.mem 5112, Heap.isAllocated r.1.mem 5112))
      = some (4104, true, some [4096, 5112], 1009, 0, false) := by
  decide

namespace Implicit
open Heap

/-- The run of blocks after `mymalloc`: the block found becomes an allocated block of
the rounded size, followed by the blocks behind it or by a free remainder and the
blocks behind it. -/
theorem malloc_shape (s s1 : State) (fuel req p e : Nat) (bs : List (Nat × Nat))
    (hb : Blocks s.mem e s.start_hdr bs) (hm : mymalloc fuel s req = some (s1, p))
    (hp : accessHeader p < e) :
    ∃ pre h post v,
      bs = pre ++ (accessHeader p, h) :: post ∧ h % 2 = 0 ∧ v % 2 = 1 ∧
      hdrSize v = roundup req ALIGNMENT ∧ p = accessHeader p + 8 ∧
      (Blocks s1.mem e s.start_hdr (pre ++ (accessHeader p, v) :: post) ∨
        ∃ x w, w % 2 = 0 ∧
          Blocks s1.mem e s.start_hdr (pre ++ (accessHeader p, v) :: (x, w) :: post)) := by
  cases hs : scan s.mem (roundup req ALIGNMENT) fuel s.start_hdr with
  | none => unfold mymalloc at hm; simp [hs] at hm
  | some ptr =>
    rw [mymalloc_of_scan fuel s req ptr hs] at hm
    obtain ⟨hfree, hge⟩ := scan_exit _ _ _ _ _ hs
    have heven := not_allocated_even _ _ hfree
    have h8 := roundup_impl_mod8 req
    rcases fit_or_split s.mem ptr req hge with c | ⟨c1, c2, c3⟩
    · rw [if_pos c] at hm
      obtain ⟨rfl, rfl⟩ := Prod.mk.inj (Option.some.inj hm)
      rw [accessHeader_accessPayload] at hp ⊢
      obtain ⟨pre, b, post, ebs, eb⟩ := scan_blocks _ _ e _ _ _ bs hb hs hp
      subst ebs
      obtain ⟨hl, _, _⟩ := blocks_load _ _ _ _ _ _ hb
      obtain ⟨bp, bh⟩ := b
      simp only at eb hl
      subst eb
      rw [hl] at heven
      rw [hdrSize_getSize, hl] at c
      obtain ⟨g1, g2⟩ := statusAllocated_even s.mem bp (by rw [hl]; exact heven)
      rw [hl] at g1
      have hsz : hdrSize (bh + 1) = hdrSize bh := by unfold hdrSize; omega
      have hnew : Blocks (statusAllocated s.mem bp) e s.start_hdr
          (pre ++ [(bp, bh + 1)] ++ post) := by
        apply blocks_replace s.mem _ e s.start_hdr pre post [(bp, bh + 1)] (bp, bh) hb
        · intro x hx; exact g2 x (Or.inl hx)
        · intro x hx; exact g2 x (Or.inr (by simp only at hx; omega))
        · exact ⟨rfl, g1, by simp only [hsz]; rfl⟩
      have hnew2 : Blocks (statusAllocated s.mem bp) e s.start_hdr
          (pre ++ (bp, bh + 1) :: post) := by
        simpa using hnew
      exact ⟨pre, bh, post, bh + 1, rfl, heven, by omega, by rw [hsz]; exact c, rfl,
        Or.inl hnew2⟩
    · rw [if_neg c1, if_pos (by rw [c3]; exact c2)] at hm
      obtain ⟨rfl, rfl⟩ := Prod.mk.inj (Option.some.inj hm)
      rw [accessHeader_accessPayload] at hp ⊢
      obtain ⟨pre, b, post, ebs, eb⟩ := scan_blocks _ _ e _ _ _ bs hb hs hp
      subst ebs
      obtain ⟨hl, _, _⟩ := blocks_load _ _ _ _ _ _ hb
      obtain ⟨bp, bh⟩ := b
      simp only at eb hl
      subst eb
      obtain ⟨k1, k2, k3, k4⟩ := split_memory s.mem bp (roundup req ALIGNMENT) h8 c2 _ _ _
        rfl rfl rfl
      rw [hl] at heven k3 k4
      rw [hdrSize_getSize, hl] at c1 c2
      generalize hact : roundup req ALIGNMENT = actual at *
      have hszb8 : hdrSize bh % 8 = 0 := by unfold hdrSize; omega
      have hsz1 : hdrSize (actual + 1) = actual := by unfold hdrSize; omega
      have hsz2 : hdrSize (hdrSize bh - actual - 8) = hdrSize bh - actual - 8 := by
        unfold hdrSize; omega
      generalize hm4 : statusFree _ _ = m4 at k2 k3 k4 ⊢
      generalize hsp : nextBlock _ _ = split at k1 k3 hm4
      subst k1
      have hnew : Blocks m4 e s.start_hdr
          (pre ++ [(bp, actual + 1), (bp + 8 + actual, hdrSize bh - actual - 8)] ++ post) := by
        apply blocks_replace s.mem _ e s.start_hdr pre post _ (bp, bh) hb
        · intro x hx; exact k4 x (Or.inl hx)
        · intro x hx; exact k4 x (Or.inr hx)
        · show bp = bp ∧ load64 m4 bp = actual + 1 ∧
            (bp + 8 + actual = bp + 8 + hdrSize (actual + 1) ∧
              load64 m4 (bp + 8 + hdrSize (actual + 1)) = hdrSize bh - actual - 8 ∧
              bp + 8 + hdrSize (actual + 1) + 8 + hdrSize (hdrSize bh - actual - 8)
                = bp + 8 + hdrSize bh)
          rw [hsz1, hsz2]
          exact ⟨rfl, k2, rfl, k3, by omega⟩
      have hnew2 : Blocks m4 e s.start_hdr
          (pre ++ (bp, actual + 1) :: (bp + 8 + actual, hdrSize bh - actual - 8) :: post) := by
        simpa using hnew
      exact ⟨pre, bh, post, actual + 1, rfl, heven, by omega, hsz1, rfl,
        Or.inr ⟨_, _, by omega, hnew2⟩⟩

end Implicit

namespace Implicit
open Heap

/-- The run of blocks after a successful `myinit`: one free block. -/
theorem myinit_blocks (s0 : State) (base N : Nat) (h8 : 8 ≤ N) (hm : N % 8 = 0)
    (hN : N < WORD) : Blocks (myinit s0 base N).1.mem (base + N) base [(base, N - 8)] := by
  have hsub : subW N ALIGNMENT = N - 8 := by
    unfold ALIGNMENT
    exact subW_of_le _ _ h8 hN
  have hi : myinit s0 base N =
      ({ mem := store64 s0.mem base (N - 8), segment_start := base, segment_size := N,
         segment_end := base + N, nused := addW 0 ALIGNMENT, start_hdr := base }, true) := by
    unfold myinit
    rw [if_neg (by unfold ALIGNMENT; omega), hsub]
  rw [hi]
  refine ⟨rfl, load64_store64_small _ _ _ (by omega), ?_⟩
  show base + 8 + hdrSize (N - 8) = base + N
  unfold hdrSize
  omega

/-- A state reached with requests in `(0, 2^30]` is a reached state. -/
theorem reachReq_reach (base N : Nat) (s : State) (hr : ReachReq base N s) :
    Reach base N s := by
  have hWv : WORD = 18446744073709551616 := rfl
  have hMv : MAX_REQUEST_SIZE = 1073741824 := rfl
  induction hr with
  | init s0 => exact Reach.init s0
  | malloc s s1 fuel req p _ _ hle hm hp ih =>
    exact Reach.malloc s s1 fuel req p ih (by omega) hm hp
  | free s p _ hp ih => exact Reach.free s p ih hp
  | realloc s s1 fuel p n q _ hp _ hle hm hq ih =>
    exact Reach.realloc s s1 fuel p n q ih hp (by omega) hm hq

/-- A positive request that does not wrap is rounded to at least 8 and to at least
itself. -/
theorem roundup_impl_pos (req : Nat) (h0 : 0 < req) (h : req + 7 < WORD) :
    8 ≤ roundup req ALIGNMENT ∧ req ≤ roundup req ALIGNMENT := by
  rw [roundup_impl_eq, Nat.mod_eq_of_lt h]
  omega

/-- After `mymalloc` of a positive request the allocated blocks still have a nonzero
size, and the blocks that were allocated are blocks of the new run. -/
theorem malloc_pos (s s1 : State) (fuel req p e : Nat) (bs : List (Nat × Nat))
    (hb : Blocks s.mem e s.start_hdr bs)
    (hpos : ∀ b ∈ bs, b.2 % 2 = 1 → 8 ≤ hdrSize b.2) (h0 : 0 < req) (h7 : req + 7 < WORD)
    (hm : mymalloc fuel s req = some (s1, p)) (hp : accessHeader p < e) :
    ∃ pre v rest, Blocks s1.mem e s.start_hdr (pre ++ (accessHeader p, v) :: rest) ∧
      (∀ b ∈ pre ++ (accessHeader p, v) :: rest, b.2 % 2 = 1 → 8 ≤ hdrSize b.2) ∧
      (∀ b ∈ bs, b.2 % 2 = 1 → b ∈ pre ++ (accessHeader p, v) :: rest) ∧
      v % 2 = 1 ∧ hdrSize v = roundup req ALIGNMENT ∧ p = accessHeader p + 8 := by
  obtain ⟨pre, h, post, v, e1, he, hv, hsz, hpp, hcase⟩ :=
    malloc_shape s s1 fuel req p e bs hb hm hp
  have hr := (roundup_impl_pos req h0 h7).1
  have hold : ∀ b ∈ bs, b.2 % 2 = 1 → b ∈ pre ∨ b ∈ post := by
    intro b hb ho
    rw [e1] at hb
    rcases List.mem_append.1 hb with q | q
    · exact Or.inl q
    · rcases List.mem_cons.1 q with r | r
      · rw [r] at ho
        simp only at ho
        omega
      · exact Or.inr r
  have hpre : ∀ b ∈ pre, b.2 % 2 = 1 → 8 ≤ hdrSize b.2 :=
    fun b hb => hpos b (by rw [e1]; exact List.mem_append_left _ hb)
  have hpost : ∀ b ∈ post, b.2 % 2 = 1 → 8 ≤ hdrSize b.2 :=
    fun b hb => hpos b (by rw [e1]; exact List.mem_append_right _ (List.mem_cons_of_mem _ hb))
  rcases hcase with hc | ⟨x, w, hw, hc⟩
  · refine ⟨pre, v, post, hc, ?_, ?_, hv, hsz, hpp⟩
    · intro b hb ho
      rcases List.mem_append.1 hb with q | q
      · exact hpre b q ho
      · rcases List.mem_cons.1 q with r | r
        · rw [r]
          show 8 ≤ hdrSize v
          omega
        · exact hpost b r ho
    · intro b hb ho
      rcases hold b hb ho with q | q
      · exact List.mem_append_left _ q
      · exact List.mem_append_right _ (List.mem_cons_of_mem _ q)
  · refine ⟨pre, v, (x, w) :: post, hc, ?_, ?_, hv, hsz, hpp⟩
    · intro b hb ho
      rcases List.mem_append.1 hb with q | q
      · exact hpre b q ho
      · rcases List.mem_cons.1 q with r | r
        · rw [r]
          show 8 ≤ hdrSize v
          omega
        · rcases List.mem_cons.1 r with t | t
          · rw [t] at ho
            simp only at ho
            omega
          · exact hpost b t ho
    · intro b hb ho
      rcases hold b hb ho with q | q
      · exact List.mem_append_left _ q
      · exact List.mem_append_right _ (List.mem_cons_of_mem _ (List.mem_cons_of_mem _ q))

/-- After `myfree` of an allocated payload the allocated blocks still have a nonzero
size. -/
theorem free_pos (m : Mem) (e a : Nat) (bs : List (Nat × Nat)) (p h : Nat)
    (hb : Blocks m e a bs) (hmem : (p, h) ∈ bs) (ho : h % 2 = 1) (hN : total bs < WORD)
    (hpos : ∀ b ∈ bs, b.2 % 2 = 1 → 8 ≤ hdrSize b.2) :
    ∃ bs1, Blocks (statusFree m p) e a bs1 ∧ ∀ b ∈ bs1, b.2 % 2 = 1 → 8 ≤ hdrSize b.2 := by
  obtain ⟨pre, post, e1⟩ := List.append_of_mem hmem
  subst e1
  obtain ⟨f1, _⟩ := blocks_free _ _ _ _ _ _ _ hb ho hN
  refine ⟨_, f1, ?_⟩
  intro b hb hbo
  rcases List.mem_append.1 hb with q | q
  · exact hpos b (List.mem_append_left _ q) hbo
  · rcases List.mem_cons.1 q with r | r
    · rw [r] at hbo
      simp only at hbo
      omega
    · exact hpos b (List.mem_append_right _ (List.mem_cons_of_mem _ r)) hbo

end Implicit

namespace Implicit
open Heap

/-- In every state reached with requests in `(0, 2^30]` the memory holds a run of blocks
from `base` to `base + N` whose allocated blocks have a nonzero size. -/
theorem reachReq_pos (base N : Nat) (h8 : 8 ≤ N) (hm : N % 8 = 0) (hN : N < WORD) (s : State)
    (hr : ReachReq base N s) :
    ∃ bs, Blocks s.mem (base + N) base bs ∧ ∀ b ∈ bs, b.2 % 2 = 1 → 8 ≤ hdrSize b.2 := by
  have hWv : WORD = 18446744073709551616 := rfl
  have hMv : MAX_REQUEST_SIZE = 1073741824 := rfl
  induction hr with
  | init s0 =>
    refine ⟨_, myinit_blocks s0 base N h8 hm hN, ?_⟩
    intro b hb ho
    rw [List.mem_singleton.1 hb] at ho
    simp only at ho
    omega
  | malloc s s1 fuel req p hprev h0 hle hmal hp ih =>
    obtain ⟨_, i2, i3, _, _⟩ := reach_inv base N h8 hm hN s (reachReq_reach base N s hprev)
    obtain ⟨bs, hb, hpos⟩ := ih
    rw [i3] at hp
    have hb2 : Blocks s.mem (base + N) s.start_hdr bs := by rw [i2]; exact hb
    obtain ⟨pre, v, rest, k1, k2, _⟩ :=
      malloc_pos s s1 fuel req p _ bs hb2 hpos h0 (by omega) hmal hp
    rw [i2] at k1
    exact ⟨_, k1, k2⟩
  | free s p hprev hp ih =>
    obtain ⟨i1, _, i3, _, _⟩ := reach_inv base N h8 hm hN s (reachReq_reach base N s hprev)
    obtain ⟨bs, hb, hpos⟩ := ih
    by_cases h0 : p = 0
    · have : myfree s p = s := by unfold myfree; rw [if_pos h0]
      rw [this]
      exact ⟨bs, hb, hpos⟩
    · have ha : Allocated s p := hp.resolve_left h0
      have hb1 : Blocks s.mem (base + N) s.segment_start bs := by rw [i1]; exact hb
      obtain ⟨pre, h, post, e1, ho, _⟩ := allocated_block s p _ bs i3 hb1 ha
      have htot := blocks_total _ _ _ _ hb
      have hmem : (accessHeader p, h) ∈ bs := by
        rw [e1]; exact List.mem_append_right _ (List.mem_cons_self _ _)
      have := free_pos s.mem (base + N) base bs (accessHeader p) h hb hmem ho (by omega) hpos
      unfold myfree
      rw [if_neg h0]
      exact this
  | realloc s s1 fuel p n q hprev hp h0n hle hre hq ih =>
    obtain ⟨i1, i2, i3, _, _⟩ := reach_inv base N h8 hm hN s (reachReq_reach base N s hprev)
    obtain ⟨bs, hb, hpos⟩ := ih
    rw [i3] at hq
    have hb2 : Blocks s.mem (base + N) s.start_hdr bs := by rw [i2]; exact hb
    unfold myrealloc at hre
    by_cases h0 : p = 0
    · rw [if_pos h0] at hre
      obtain ⟨pre, v, rest, k1, k2, _⟩ :=
        malloc_pos s s1 fuel n q _ bs hb2 hpos h0n (by omega) hre hq
      rw [i2] at k1
      exact ⟨_, k1, k2⟩
    · rw [if_neg h0] at hre
      by_cases hsh : n ≤ getSize s.mem (accessHeader p)
      · simp only [if_pos hsh] at hre
        obtain ⟨rfl, _⟩ := Prod.mk.inj (Option.some.inj hre)
        exact ⟨bs, hb, hpos⟩
      · simp only [if_neg hsh] at hre
        have ha : Allocated s p := hp.resolve_left h0
        have hb1 : Blocks s.mem (base + N) s.segment_start bs := by rw [i1]; exact hb
        obtain ⟨ppre, ph, ppost, pe, pho, _⟩ := allocated_block s p _ bs i3 hb1 ha
        have hmem : (accessHeader p, ph) ∈ bs := by
          rw [pe]; exact List.mem_append_right _ (List.mem_cons_self _ _)
        cases hmm : mymalloc fuel s n with
        | none => rw [hmm] at hre; simp at hre
        | some r =>
          obtain ⟨s2, q2⟩ := r
          rw [hmm] at hre
          simp only at hre
          obtain ⟨rfl, rfl⟩ := Prod.mk.inj (Option.some.inj hre)
          obtain ⟨pre, v, rest, k1, k2, k3, _, k5, k6⟩ :=
            malloc_pos s s2 fuel n q2 _ bs hb2 hpos h0n (by omega) hmm hq
          rw [i2] at k1
          have hr := (roundup_impl_pos n h0n (by omega)).2
          have hcp := blocks_memcpy s2.mem (base + N) base pre rest (accessHeader q2) v p
            (getSize s.mem (accessHeader p)) k1 (by omega)
          rw [← k6] at hcp
          have htot := blocks_total _ _ _ _ hcp
          have := free_pos _ (base + N) base _ (accessHeader p) ph hcp (k3 _ hmem pho) pho
            (by omega) k2
          unfold myfree
          rw [if_neg h0]
          exact this

/-- C22 (amended). Header sizes in the implicit variant: in every state reached from a
successful `myinit(base, N)`, `N` a multiple of 8 and at least 16, by
contract-respecting calls that succeed with requests in `(0, 2^30]`, the walk arrives
at `segment_end`, every header it meets has a size that is a multiple of 8 and at
most `N - 8`, and every allocated block has a nonzero size.  (A free block can have
size 0.) -/
theorem implicit_header_sizes (base N : Nat) (s : State) (h16 : 16 ≤ N) (hm : N % 8 = 0)
    (hN : N < WORD) (hr : ReachReq base N s) :
    ∃ l, (∀ fuel, l.length < fuel →
        blockWalk s.mem s.segment_end fuel s.segment_start = some l) ∧
      ∀ a ∈ l, getSize s.mem a % 8 = 0 ∧ getSize s.mem a ≤ N - 8 ∧
        (isAllocated s.mem a = true → 0 < getSize s.mem a) := by
  obtain ⟨i1, _, i3, _, _⟩ :=
    reach_inv base N (by omega) hm hN s (reachReq_reach base N s hr)
  obtain ⟨bs, hb, hpos⟩ := reachReq_pos base N (by omega) hm hN s hr
  refine ⟨bs.map Prod.fst, ?_, ?_⟩
  · intro fuel hf
    rw [i1, i3]
    exact blocks_walk _ _ _ _ _ hb (by simpa using hf)
  · intro a ha
    obtain ⟨b, hbm, rfl⟩ := List.mem_map.1 ha
    have hl := Explicit.blocks_mem_load _ _ _ _ hb b hbm
    have hbd := Explicit.blocks_bounds _ _ _ _ hb b hbm
    have h8 := Explicit.hdrSize_mod8 b.2
    rw [hdrSize_getSize, hl]
    refine ⟨h8.1, by omega, ?_⟩
    intro hal
    have := hpos b hbm (by rw [← hl]; exact allocated_odd _ _ hal)
    omega

/-- Witness of `implicit_header_sizes`: the state after `myinit(4096, 1024)` and
`mymalloc(1008)` in zeroed memory, whose second block is free and has size 0. -/
theorem implicit_header_sizes_witness :
    16 ≤ 1024 ∧ 1024 % 8 = 0 ∧ 1024 < WORD ∧ ReachReq 4096 1024 used1008 ∧
    ∃ l, (∀ fuel, l.length < fuel →
        blockWalk used1008.mem used1008.segment_end fuel used1008.segment_start = some l) ∧
      ∀ a ∈ l, getSize used1008.mem a % 8 = 0 ∧ getSize used1008.mem a ≤ 1024 - 8 ∧
        (isAllocated used1008.mem a = true → 0 < getSize used1008.mem a) :=
  have hr : ReachReq 4096 1024 used1008 :=
    ReachReq.malloc fresh used1008 4 1008 4104 (ReachReq.init boot) (by decide) (by decide)
      (by rfl) (by decide)
  ⟨by decide, by decide, by decide, hr,
    implicit_header_sizes 4096 1024 used1008 (by decide) (by decide) (by decide) hr⟩

end Implicit

namespace Explicit
open Heap

/-- A node whose `next` word points to the node itself is never left by the second
loop of `validate_heap`: the loop returns for no amount of fuel. -/
theorem listLoop_cycle (m : Mem) (c : Nat) (hc : c ≠ 0) (hcc : load64 m c = c) :
    ∀ (fuel : Nat) (result : Bool), listLoop m fuel c result = none := by
  intro fuel
  induction fuel with
  | zero => intro result; rfl
  | succ n ih =>
    intro result
    rw [listLoop_succ, if_pos hc, hcc]
    exact ih _

/-- No null-terminated list of nodes starts at a node whose `next` word points to the
node itself. -/
theorem freeList_cycle (m : Mem) (c : Nat) (hc : c ≠ 0) (hcc : load64 m c = c) :
    ∀ l, ¬ FreeList m c l := by
  intro l
  induction l with
  | nil => intro h; exact hc h
  | cons x t ih =>
    intro h
    have h2 : FreeList m (load64 m x) t := h.2.2
    rw [← h.1, hcc] at h2
    exact ih h2

/-- No null-terminated list of nodes starts at a node that is followed by a node whose
`next` word points to the node itself. -/
theorem freeList_head_cycle (m : Mem) (p c : Nat) (hp : p ≠ 0) (hn : load64 m p = c)
    (hc : c ≠ 0) (hcc : load64 m c = c) : ∀ l, ¬ FreeList m p l := by
  intro l
  cases l with
  | nil => intro h; exact hp h
  | cons x t =>
    intro h
    have h2 : FreeList m (load64 m x) t := h.2.2
    rw [← h.1, hn] at h2
    exact freeList_cycle m c hc hcc t h2

/-- When the head of the free list is followed by a node whose `next` word points to
the node itself, `validate_heap` returns for no amount of fuel. -/
theorem validate_cycle (s : State) (c : Nat) (hs : s.linked_start ≠ 0)
    (hn : load64 s.mem s.linked_start = c) (hc : c ≠ 0) (hcc : load64 s.mem c = c) :
    ∀ fuel, validate_heap fuel s = none := by
  intro fuel
  unfold validate_heap
  cases countLoop s.mem s.segment_end fuel s.segment_start 0 with
  | none => rfl
  | some k =>
    dsimp only
    cases fuel with
    | zero => rfl
    | succ n =>
      rw [listLoop_succ, if_pos hs, hn]
      exact listLoop_cycle s.mem c hc hcc n _

end Explicit

/-- C17 fails on a region that was used before.  After `myinit(4096, 1024)`,
`a = mymalloc(16)`, `b = mymalloc(16)` and `myfree(a)` in zeroed memory, the `next`
word of the node 4104 holds 4168.  A second `myinit(4096, 1024)` returns true and
leaves that word as it is.  Then `p = mymalloc(64)` returns 4104 and the heap is the
two blocks [used 64][free 944], and `myfree(p)` leaves the one block at 4096, free, of
size 1016, with `blocks_allocated = 0`.  But `linked_start` is 4104, the `next` word of
4104 is 4176, and the `next` word of 4176 is 4176 itself: no null-terminated list of
nodes starts at `linked_start`, in particular not the one node 4104, and
`validate_heap` returns for no amount of fuel. -/
theorem explicit_reused_region_list_cycle :
    ∃ s1 s2 s3, Explicit.mymalloc 4 Explicit.fresh 16 = some (s1, 4104) ∧
      Explicit.mymalloc 4 s1 16 = some (s2, 4136) ∧
      Heap.load64 (Explicit.myfree s2 4104).mem 4104 = 4168 ∧
      (Explicit.myinit (Explicit.myfree s2 4104) 4096 1024).2 = true ∧
      Heap.load64 (Explicit.myinit (Explicit.myfree s2 4104) 4096 1024).1.mem 4104 = 4168 ∧
      Explicit.mymalloc 4 (Explicit.myinit (Explicit.myfree s2 4104) 4096 1024).1 64 =
        some (s3, 4104) ∧
      Heap.blockWalk s3.mem s3.segment_end 3 s3.segment_start = some [4096, 4168] ∧
      Heap.load64 s3.mem 4096 = 65 ∧ Heap.load64 s3.mem 4168 = 944 ∧
      Heap.blockWalk (Explicit.myfree s3 4104).mem (Explicit.myfree s3 4104).segment_end 2
        (Explicit.myfree s3 4104).segment_start = some [4096] ∧
      Heap.load64 (Explicit.myfree s3 4104).mem 4096 = 1016 ∧
      (Explicit.myfree s3 4104).blocks_allocated = 0 ∧
      (Explicit.myfree s3 4104).linked_start = 4104 ∧
      Heap.load64 (Explicit.myfree s3 4104).mem 4104 = 4176 ∧
      Heap.load64 (Explicit.myfree s3 4104).mem 4176 = 4176 ∧
      (∀ l, ¬ Explicit.FreeList (Explicit.myfree s3 4104).mem
        (Explicit.myfree s3 4104).linked_start l) ∧
      ∀ fuel, Explicit.validate_heap fuel (Explicit.myfree s3 4104) = none := by
  refine ⟨_, _, _, rfl, rfl, rfl, rfl, rfl, rfl, rfl, rfl, rfl, rfl, rfl, rfl, rfl, rfl, rfl,
    ?_, ?_⟩
  · exact Explicit.freeList_head_cycle _ _ 4176 (ne_of_eq_of_ne rfl (by decide : 4104 ≠ 0)) rfl
      (by decide) rfl
  · exact Explicit.validate_cycle _ 4176 (ne_of_eq_of_ne rfl (by decide : 4104 ≠ 0)) rfl
      (by decide) rfl
